import Mathlib

/-! Command-line parser of cisstICP (`cisstICP_App/CmdLineParser.cpp`).

A shallow embedding of the option descriptors, their `read` operations, the
registry lookups and the token scanner `cmdLineParse`, followed by the
properties established about them.

Conventions of the embedding:

* a C string is the list of its characters, without the terminating NUL;
* `argv`/`argc` pairs are lists of C strings (`argc` is the length);
* the registry (a NULL-terminated array of pointers to distinct descriptors)
  is a list of descriptors, a pointer into it is an index;
* `int` values are mathematical integers reduced to 32 bits where text is
  converted to a number.
-/

namespace CmdLineParser

/-- A C string: its characters up to, not including, the terminating NUL. -/
abbrev CStr := List Char

/-! ## The C library: `atoi` and `sscanf` with `%d` -/

/-- Smallest value of a 32-bit `int`. -/
def INT_MIN : Int := -2147483648

/-- Largest value of a 32-bit `int`. -/
def INT_MAX : Int := 2147483647

/-- Reduction of a mathematical integer to the 32-bit two's complement range
(a conversion that overflows `int` is undefined in C; this is what the usual
C libraries store). -/
def toInt32 (n : Int) : Int := (n + 2147483648) % 4294967296 - 2147483648

/-- C `isspace` in the "C" locale. -/
def isspace (c : Char) : Bool :=
  c = ' ' || c = '\t' || c = '\n' || c = Char.ofNat 11 || c = Char.ofNat 12 || c = '\r'

/-- C `isdigit`. -/
def isdigit (c : Char) : Bool := 48 ≤ c.toNat && c.toNat ≤ 57

/-- Numeric value of a decimal digit character. -/
def digitVal (c : Char) : Nat := c.toNat - 48

/-- Skips leading white space. -/
def skipSpace : CStr → CStr
  | [] => []
  | c :: cs => if isspace c then skipSpace cs else c :: cs

/-- Reads the longest run of decimal digits, accumulating its value. -/
def scanDigits : CStr → Nat → Nat × CStr
  | [], acc => (acc, [])
  | c :: cs, acc => if isdigit c then scanDigits cs (acc * 10 + digitVal c) else (acc, c :: cs)

/-- Splits an optional sign off the front of a number. -/
def scanSign : CStr → Bool × CStr
  | [] => (false, [])
  | c :: cs => if c = '-' then (true, cs) else if c = '+' then (false, cs) else (false, c :: cs)

/-- The `%d` conversion (and the number syntax of `strtol` in base 10): white
space, an optional sign, then at least one digit. Returns the value and the
unread rest of the text, or `none` on a matching failure. -/
def scanInt (s : CStr) : Option (Int × CStr) :=
  match scanSign (skipSpace s) with
  | (neg, c :: cs) =>
    if isdigit c then
      let r := scanDigits (c :: cs) 0
      some (toInt32 (if neg then -(r.1 : Int) else (r.1 : Int)), r.2)
    else none
  | (_, []) => none

/-- C `atoi`: the leading integer of the text, 0 when there is none. -/
def atoi (s : CStr) : Int :=
  match scanInt s with
  | some (v, _) => v
  | none => 0

/-- Result of an `sscanf` call with up to three `%d` conversions: the return
value and the values stored through the output pointers, in order (an output
that was not assigned is `none`). -/
structure ScanResult where
  assigned : Int
  out1 : Option Int
  out2 : Option Int
  out3 : Option Int
deriving DecidableEq, Repr

/-- The return value when nothing could be converted: `EOF` (-1) when the
input ends before the first conversion, 0 on a matching failure. -/
def scanFailure (s : CStr) : Int := if skipSpace s = [] then -1 else 0

/-- Meaning of `sscanf(s, "%d", &a)` (further output arguments are ignored by
the C library). -/
def sscanf_d (s : CStr) : ScanResult :=
  match scanInt s with
  | none => ⟨scanFailure s, none, none, none⟩
  | some (a, _) => ⟨1, some a, none, none⟩

/-- Meaning of `sscanf(s, "%d:%d", &a, &b)`. -/
def sscanf_d_d (s : CStr) : ScanResult :=
  match scanInt s with
  | none => ⟨scanFailure s, none, none, none⟩
  | some (a, ':' :: r1) =>
    match scanInt r1 with
    | none => ⟨1, some a, none, none⟩
    | some (b, _) => ⟨2, some a, some b, none⟩
  | some (a, _) => ⟨1, some a, none, none⟩

/-- Meaning of `sscanf(s, "%d:%d:%d", &a, &b, &c)`. -/
def sscanf_d_d_d (s : CStr) : ScanResult :=
  match scanInt s with
  | none => ⟨scanFailure s, none, none, none⟩
  | some (a, ':' :: r1) =>
    match scanInt r1 with
    | none => ⟨1, some a, none, none⟩
    | some (b, ':' :: r2) =>
      match scanInt r2 with
      | none => ⟨2, some a, some b, none⟩
      | some (c, _) => ⟨3, some a, some b, some c⟩
    | some (b, _) => ⟨2, some a, some b, none⟩
  | some (a, _) => ⟨1, some a, none, none⟩

/-- Effect of an output pointer: the old content stays unless assigned. -/
def assign (old : Int) (out : Option Int) : Int := out.getD old

/-! ## Option descriptors -/

/-- The short name of a descriptor that has none: `(char) -1`. -/
def noShortName : Char := Char.ofNat 255

/-- Class `cmdLineReadable`: the base of every descriptor, and the class of
the no-argument flags. The description text plays no part in parsing and is
left out. -/
structure cmdLineReadable where
  set : Bool
  name : CStr
  shortName : Char
deriving DecidableEq, Repr

/-- Class `cmdLineInt`. -/
structure cmdLineInt extends cmdLineReadable where
  value : Int
deriving DecidableEq, Repr

/-- Class `cmdLineIntSequence` (a range `start:increment:end`). -/
structure cmdLineIntSequence extends cmdLineReadable where
  value : Int
  start : Int
  end_ : Int
  increment : Int
deriving DecidableEq, Repr

/-- Class `cmdLineInts`: `values` is the content of the heap array (empty for
the NULL pointer), `count` the stored count. -/
structure cmdLineInts extends cmdLineReadable where
  values : List Int
  count : Int
deriving DecidableEq, Repr

/-- The content of a `float`, kept symbolic: what the constructor stored, or
the conversion `atof` of a text. -/
inductive FloatValue where
  | constructed
  | atof (text : CStr)
deriving DecidableEq, Repr

/-- Class `cmdLineFloat`. -/
structure cmdLineFloat extends cmdLineReadable where
  value : FloatValue
deriving DecidableEq, Repr

/-- Class `cmdLineString`: `value` is `none` for the NULL pointer. -/
structure cmdLineString extends cmdLineReadable where
  value : Option CStr
deriving DecidableEq, Repr

/-- Class `cmdLineStrings`. -/
structure cmdLineStrings extends cmdLineReadable where
  values : List CStr
  count : Int
deriving DecidableEq, Repr

/-- Constructor `cmdLineReadable::cmdLineReadable(name, shortName)`. -/
def cmdLineReadable.new (name : CStr) (shortName : Char) : cmdLineReadable :=
  { set := false, name := name, shortName := shortName }

/-- Constructor `cmdLineInt::cmdLineInt(name, v, shortName)`. -/
def cmdLineInt.new (name : CStr) (v : Int) (shortName : Char) : cmdLineInt :=
  { cmdLineReadable.new name shortName with value := v }

/-- Constructor `cmdLineIntSequence::cmdLineIntSequence(name, v, shortName)`. -/
def cmdLineIntSequence.new (name : CStr) (v : Int) (shortName : Char) : cmdLineIntSequence :=
  { cmdLineReadable.new name shortName with value := v, start := v, end_ := v, increment := 1 }

/-- Constructor `cmdLineInts::cmdLineInts(name, shortName)`. -/
def cmdLineInts.new (name : CStr) (shortName : Char) : cmdLineInts :=
  { cmdLineReadable.new name shortName with values := [], count := 0 }

/-- Constructor `cmdLineFloat::cmdLineFloat(name, shortName)`. -/
def cmdLineFloat.new (name : CStr) (shortName : Char) : cmdLineFloat :=
  { cmdLineReadable.new name shortName with value := FloatValue.constructed }

/-- Constructor `cmdLineString::cmdLineString(name, shortName)`. -/
def cmdLineString.new (name : CStr) (shortName : Char) : cmdLineString :=
  { cmdLineReadable.new name shortName with value := none }

/-- Constructor `cmdLineStrings::cmdLineStrings(name, shortName)`. -/
def cmdLineStrings.new (name : CStr) (shortName : Char) : cmdLineStrings :=
  { cmdLineReadable.new name shortName with values := [], count := 0 }

/-! ## The `read` operations

Each takes the descriptor and the offered slice `argv` (with `argc` its
length) and returns the descriptor afterwards and the C return value. -/

/-- Method `cmdLineReadable::read`. -/
def cmdLineReadable.read (d : cmdLineReadable) (_argv : List CStr) : cmdLineReadable × Int :=
  ({ d with set := true }, 0)

/-- Method `cmdLineInt::read`. -/
def cmdLineInt.read (d : cmdLineInt) (argv : List CStr) : cmdLineInt × Int :=
  match argv with
  | a :: _ => ({ d with value := atoi a, set := true }, 1)
  | [] => (d, 0)

/-- Method `cmdLineIntSequence::read`. The member `reset()` it calls is
declared in `CmdLineParser.h`, which is not part of the sources: it is the
parameter `reset`. -/
def cmdLineIntSequence.read (reset : cmdLineIntSequence → cmdLineIntSequence)
    (d : cmdLineIntSequence) (argv : List CStr) : cmdLineIntSequence × Int :=
  match argv with
  | argString :: _ =>
    let d0 := { d with set := true }
    let r3 := sscanf_d_d_d argString
    let d1 := { d0 with start := assign d0.start r3.out1,
                        increment := assign d0.increment r3.out2,
                        end_ := assign d0.end_ r3.out3 }
    let d5 :=
      if r3.assigned ≠ 3 then
        let d2 := { d1 with increment := 1 }
        let r2 := sscanf_d_d argString
        let d3 := { d2 with start := assign d2.start r2.out1, end_ := assign d2.end_ r2.out2 }
        if r2.assigned ≠ 2 then
          let r1 := sscanf_d argString
          let d4 := { d3 with start := assign d3.start r1.out1 }
          let d4 := { d4 with end_ := d4.start }
          if r1.assigned ≠ 1 then
            { d4 with start := d4.value, set := false }
          else d4
        else d3
      else d1
    (reset d5, 1)
  | [] => (d, 0)

/-- Method `cmdLineInts::read` (`new` does not return NULL). -/
def cmdLineInts.read (d : cmdLineInts) (argv : List CStr) : cmdLineInts × Int :=
  match argv with
  | a :: rest =>
    let d1 := { d with count := atoi a }
    if d1.count ≤ 0 ∨ (argv.length : Int) ≤ d1.count then (d1, 1)
    else
      ({ d1 with values := (rest.take d1.count.toNat).map atoi, set := true }, d1.count + 1)
  | [] => (d, 0)

/-- Method `cmdLineFloat::read`. -/
def cmdLineFloat.read (d : cmdLineFloat) (argv : List CStr) : cmdLineFloat × Int :=
  match argv with
  | a :: _ => ({ d with value := FloatValue.atof a, set := true }, 1)
  | [] => (d, 0)

/-- Method `cmdLineString::read`. -/
def cmdLineString.read (d : cmdLineString) (argv : List CStr) : cmdLineString × Int :=
  match argv with
  | a :: _ => ({ d with value := some a, set := true }, 1)
  | [] => (d, 0)

/-- Method `cmdLineStrings::read` (`new` does not return NULL). -/
def cmdLineStrings.read (d : cmdLineStrings) (argv : List CStr) : cmdLineStrings × Int :=
  match argv with
  | a :: rest =>
    let d1 := { d with count := atoi a }
    if d1.count ≤ 0 ∨ (argv.length : Int) ≤ d1.count then (d1, 1)
    else
      ({ d1 with values := rest.take d1.count.toNat, set := true }, d1.count + 1)
  | [] => (d, 0)

/-! ## Descriptors behind a `cmdLineReadable *` -/

/-- The object a `cmdLineReadable *` of the registry points to, with its
dynamic class. -/
inductive Readable where
  | flag (d : cmdLineReadable)
  | int (d : cmdLineInt)
  | intSequence (d : cmdLineIntSequence)
  | ints (d : cmdLineInts)
  | float (d : cmdLineFloat)
  | string (d : cmdLineString)
  | strings (d : cmdLineStrings)
deriving DecidableEq, Repr

/-- The base-class part of a descriptor. -/
def Readable.base : Readable → cmdLineReadable
  | .flag d => d
  | .int d => d.tocmdLineReadable
  | .intSequence d => d.tocmdLineReadable
  | .ints d => d.tocmdLineReadable
  | .float d => d.tocmdLineReadable
  | .string d => d.tocmdLineReadable
  | .strings d => d.tocmdLineReadable

/-- Field `set` through the base pointer. -/
def Readable.set (r : Readable) : Bool := r.base.set

/-- Field `name` through the base pointer. -/
def Readable.name (r : Readable) : CStr := r.base.name

/-- Field `shortName` through the base pointer. -/
def Readable.shortName (r : Readable) : Char := r.base.shortName

/-- The assignment `opt->set = true`. -/
def Readable.markSet : Readable → Readable
  | .flag d => .flag { d with set := true }
  | .int d => .int { d with set := true }
  | .intSequence d => .intSequence { d with set := true }
  | .ints d => .ints { d with set := true }
  | .float d => .float { d with set := true }
  | .string d => .string { d with set := true }
  | .strings d => .strings { d with set := true }

/-- Modelled from the spec: the virtual `expectsArg()` is defined in
`CmdLineParser.h`, which is not part of the sources; the spec derives it from
the variant, false for a flag and true for every value-taking variant. -/
def Readable.expectsArg : Readable → Bool
  | .flag _ => false
  | _ => true

/-- The virtual call `opt->read(argv, argc)`. -/
def Readable.read (reset : cmdLineIntSequence → cmdLineIntSequence)
    (r : Readable) (argv : List CStr) : Readable × Int :=
  match r with
  | .flag d => let p := d.read argv; (.flag p.1, p.2)
  | .int d => let p := d.read argv; (.int p.1, p.2)
  | .intSequence d => let p := d.read reset argv; (.intSequence p.1, p.2)
  | .ints d => let p := d.read argv; (.ints p.1, p.2)
  | .float d => let p := d.read argv; (.float p.1, p.2)
  | .string d => let p := d.read argv; (.string p.1, p.2)
  | .strings d => let p := d.read argv; (.strings p.1, p.2)

/-! ## Registry lookup -/

/-- Function `getReadableByLongName`: the position and the descriptor of the
first entry whose name is `name` (`strcmp` gives 0), `none` for NULL. -/
def getReadableByLongName : List Readable → CStr → Option (Nat × Readable)
  | [], _ => none
  | p :: ps, name =>
    if name = p.name then some (0, p)
    else (getReadableByLongName ps name).map (fun r => (r.1 + 1, r.2))

/-- Function `getReadableByShortName`. -/
def getReadableByShortName : List Readable → Char → Option (Nat × Readable)
  | [], _ => none
  | p :: ps, c =>
    if p.shortName = c then some (0, p)
    else (getReadableByShortName ps c).map (fun r => (r.1 + 1, r.2))

/-! ## The token scanner -/

/-- What `cmdLineParse` reads and writes besides its cursor: the descriptors
behind `params`, the vector `nonoptArgs` and the local vector
`strippedArgs`. -/
structure ParseState where
  params : List Readable
  nonoptArgs : List CStr
  strippedArgs : List CStr
deriving DecidableEq, Repr

/-- The split of `name.find('=')`: the text before the first `=` and, when
there is an `=`, the text after it. -/
def findEq : CStr → CStr × Option CStr
  | [] => ([], none)
  | c :: cs =>
    if c = '=' then ([], some cs)
    else let r := findEq cs; (c :: r.1, r.2)

/-- The long-option branch of the loop body: `currentOption` is the whole
token, `body` its text after `--`, `rest` the tokens after it. Returns the
tokens from the cursor on at the end of the iteration, and the state. -/
def parseLong (reset : cmdLineIntSequence → cmdLineIntSequence) (stripping : Bool)
    (currentOption body : CStr) (rest : List CStr) (st : ParseState) :
    List CStr × ParseState :=
  let sp := findEq body
  let argv := match sp.2 with
    | some v => v :: rest
    | none => rest
  match getReadableByLongName st.params sp.1 with
  | some (i, opt) =>
    if opt.expectsArg then
      let p := opt.read reset argv
      (argv.drop p.2.toNat, { st with params := st.params.set i p.1 })
    else if sp.2.isSome then (argv, st)
    else (argv, { st with params := st.params.set i opt.markSet })
  | none =>
    let st1 := if stripping then { st with strippedArgs := st.strippedArgs ++ [currentOption] }
               else st
    (if sp.2.isSome then argv.drop 1 else argv, st1)

/-- The short-option branch: the inner `while` over the characters `cs` that
follow the current position in the token, then the advance after it. -/
def parseShort (reset : cmdLineIntSequence → cmdLineIntSequence) (stripping : Bool) :
    CStr → List CStr → ParseState → List CStr × ParseState
  | [], rest, st => (rest, st)
  | c :: cs, rest, st =>
    match getReadableByShortName st.params c with
    | some (i, opt) =>
      if !opt.expectsArg then
        parseShort reset stripping cs rest { st with params := st.params.set i opt.markSet }
      else
        let argv := if cs ≠ [] then cs :: rest else rest
        let p := opt.read reset argv
        (argv.drop p.2.toNat, { st with params := st.params.set i p.1 })
    | none =>
      parseShort reset stripping cs rest
        (if stripping then { st with strippedArgs := st.strippedArgs ++ [['-', c]] } else st)

/-- One iteration of the `while (argc > 0)` loop on the token at the cursor
and the tokens after it. -/
def parseStep (reset : cmdLineIntSequence → cmdLineIntSequence) (stripping : Bool)
    (tok : CStr) (rest : List CStr) (st : ParseState) : List CStr × ParseState :=
  let plain : List CStr × ParseState :=
    (rest, if stripping then { st with strippedArgs := st.strippedArgs ++ [tok] }
           else { st with nonoptArgs := st.nonoptArgs ++ [tok] })
  match tok with
  | [] => plain
  | c0 :: t1 =>
    if c0 = '-' then
      match t1 with
      | [] => parseShort reset stripping [] rest st
      | c1 :: body =>
        if c1 = '-' then parseLong reset stripping tok body rest st
        else parseShort reset stripping (c1 :: body) rest st
    else plain

/-- The `while (argc > 0)` loop, bounded by `fuel` iterations: `none` when
the bound is reached before the tokens are used up. -/
def scan (reset : cmdLineIntSequence → cmdLineIntSequence) (stripping : Bool) :
    Nat → List CStr → ParseState → Option ParseState
  | _, [], st => some st
  | 0, _ :: _, _ => none
  | fuel + 1, tok :: rest, st =>
    let p := parseStep reset stripping tok rest st
    scan reset stripping fuel p.1 p.2

/-- A number of iterations that suffices for `argv`: its characters and
tokens. -/
def scanFuel (argv : List CStr) : Nat := (argv.map (fun t => t.length + 1)).sum

/-- The loop run with the bound `scanFuel`. -/
def run (reset : cmdLineIntSequence → cmdLineIntSequence) (stripping : Bool)
    (argv : List CStr) (st : ParseState) : Option ParseState :=
  scan reset stripping (scanFuel argv) argv st

/-- Function `cmdLineParse`. `stripping` tells whether `argcStripped` is
non-null; the result holds the descriptors, `nonoptArgs` and, when stripping,
the vector copied to `argvStripped`. It is `none` where the C code reads
`argv[0]` of an empty vector, or if the loop bound were to run out. -/
def cmdLineParse (reset : cmdLineIntSequence → cmdLineIntSequence) (stripping : Bool)
    (argv : List CStr) (params : List Readable) (nonoptArgs : List CStr) :
    Option ParseState :=
  match argv with
  | [] => if stripping then none else some ⟨params, nonoptArgs, []⟩
  | path :: rest =>
    run reset stripping rest ⟨params, nonoptArgs, if stripping then [path] else []⟩

/-! ## The scan with an explicit cursor

The functions above follow the pointer `argv` by the list of tokens from it
on. Below, the same loop keeps the pointer and the counter `argc` as the C
code does, with integer arithmetic, and every access to the argument vector
is checked: a run is `fault` as soon as the counter is negative at the loop
head, an entry outside the vector is read, a read is offered entries outside
the vector, or a read reports more tokens consumed than it was offered. The
characters of a token are read by walking its text, which ends where the
terminating NUL is: each character access of the C code follows a character
that was not NUL. -/

/-- The element reads `argv[i]`, `argv[i+1]`, ... of a counted sequence, `n`
of them: `none` if one is outside the slice. -/
def elements (argv : List CStr) : Nat → Nat → Option (List CStr)
  | _, 0 => some []
  | i, n + 1 =>
    match argv[i]? with
    | some t => (elements argv (i + 1) n).map (fun ts => t :: ts)
    | none => none

/-- Method `cmdLineInts::read` with checked element reads `argv[i+1]`. -/
def cmdLineInts.readChecked (d : cmdLineInts) (argv : List CStr) :
    Option (cmdLineInts × Int) :=
  match argv with
  | a :: _ =>
    let d1 := { d with count := atoi a }
    if d1.count ≤ 0 ∨ (argv.length : Int) ≤ d1.count then some (d1, 1)
    else
      match elements argv 1 d1.count.toNat with
      | some ts => some ({ d1 with values := ts.map atoi, set := true }, d1.count + 1)
      | none => none
  | [] => some (d, 0)

/-- Method `cmdLineStrings::read` with checked element reads `argv[i+1]`. -/
def cmdLineStrings.readChecked (d : cmdLineStrings) (argv : List CStr) :
    Option (cmdLineStrings × Int) :=
  match argv with
  | a :: _ =>
    let d1 := { d with count := atoi a }
    if d1.count ≤ 0 ∨ (argv.length : Int) ≤ d1.count then some (d1, 1)
    else
      match elements argv 1 d1.count.toNat with
      | some ts => some ({ d1 with values := ts, set := true }, d1.count + 1)
      | none => none
  | [] => some (d, 0)

/-- The virtual call `opt->read(argv, argc)` on the `argc` entries `argv`,
with the element reads of the counted sequences checked. -/
def Readable.readChecked (reset : cmdLineIntSequence → cmdLineIntSequence)
    (r : Readable) (argv : List CStr) : Option (Readable × Int) :=
  match r with
  | .ints d => (d.readChecked argv).map (fun p => (.ints p.1, p.2))
  | .strings d => (d.readChecked argv).map (fun p => (.strings p.1, p.2))
  | r => some (r.read reset argv)

/-- The cursor of the scan: `mem` holds, for each entry of the argument
vector, the text its pointer points to; `argv` is the position in the vector
of the pointer `argv`, `argc` the counter; `st` is the rest of the state. -/
structure Machine where
  mem : List CStr
  argv : Int
  argc : Int
  st : ParseState
deriving DecidableEq, Repr

/-- The read of the entry `argv[0]`: `none` outside the vector. -/
def Machine.entry (m : Machine) : Option CStr :=
  if 0 ≤ m.argv then m.mem[m.argv.toNat]? else none

/-- The assignment of a new pointer to the entry `argv[0]`. -/
def Machine.point (m : Machine) (text : CStr) : Machine :=
  { m with mem := m.mem.set m.argv.toNat text }

/-- The statement `argv += k, argc -= k`. -/
def Machine.advance (m : Machine) (k : Int) : Machine :=
  { m with argv := m.argv + k, argc := m.argc - k }

/-- The `argc` entries from `argv` on that a read is offered: `none` unless
the counter is not negative and they all lie within the vector. -/
def Machine.offered (m : Machine) : Option (List CStr) :=
  if 0 ≤ m.argc ∧ 0 ≤ m.argv ∧ m.argv + m.argc ≤ (m.mem.length : Int) then
    some ((m.mem.drop m.argv.toNat).take m.argc.toNat)
  else none

/-- The call `opt->read(argv, argc)`: `none` if the offered entries are not
within the vector, an element read is outside the offered entries, or the
reported count is negative or exceeds the number offered. -/
def Machine.call (reset : cmdLineIntSequence → cmdLineIntSequence) (m : Machine)
    (opt : Readable) : Option (Readable × Int) :=
  match m.offered with
  | none => none
  | some slice =>
    match opt.readChecked reset slice with
    | none => none
    | some p => if 0 ≤ p.2 ∧ p.2 ≤ m.argc then some p else none

/-- The long-option branch with the explicit cursor. -/
def longChecked (reset : cmdLineIntSequence → cmdLineIntSequence) (stripping : Bool)
    (currentOption body : CStr) (m : Machine) : Option Machine :=
  let sp := findEq body
  let m1 : Machine := match sp.2 with
    | some v => m.point v
    | none => (m.point body).advance 1
  match getReadableByLongName m1.st.params sp.1 with
  | some (i, opt) =>
    if opt.expectsArg then
      match m1.call reset opt with
      | none => none
      | some p =>
        some ({ m1 with st := { m1.st with params := m1.st.params.set i p.1 } }.advance p.2)
    else if sp.2.isSome then some m1
    else some { m1 with st := { m1.st with params := m1.st.params.set i opt.markSet } }
  | none =>
    let m2 : Machine :=
      if stripping then
        { m1 with st := { m1.st with strippedArgs := m1.st.strippedArgs ++ [currentOption] } }
      else m1
    some (if sp.2.isSome then m2.advance 1 else m2)

/-- The short-option branch with the explicit cursor; `cs` is the text after
the current position in the token. -/
def shortChecked (reset : cmdLineIntSequence → cmdLineIntSequence) (stripping : Bool) :
    CStr → Machine → Option Machine
  | [], m => some (m.advance 1)
  | c :: cs, m =>
    match getReadableByShortName m.st.params c with
    | some (i, opt) =>
      if !opt.expectsArg then
        shortChecked reset stripping cs
          { m with st := { m.st with params := m.st.params.set i opt.markSet } }
      else
        let m1 : Machine := if cs ≠ [] then m.point cs else (m.point cs).advance 1
        match m1.call reset opt with
        | none => none
        | some p =>
          some ((({ m1 with st := { m1.st with params := m1.st.params.set i p.1 } }).advance
            (p.2 - 1)).advance 1)
    | none =>
      shortChecked reset stripping cs
        (if stripping then
          { m with st := { m.st with strippedArgs := m.st.strippedArgs ++ [['-', c]] } }
         else m)

/-- One iteration of the loop with the explicit cursor: `none` on a
fault. -/
def stepChecked (reset : cmdLineIntSequence → cmdLineIntSequence) (stripping : Bool)
    (m : Machine) : Option Machine :=
  match m.entry with
  | none => none
  | some tok =>
    let plain : Machine :=
      ({ m with st :=
          if stripping then { m.st with strippedArgs := m.st.strippedArgs ++ [tok] }
          else { m.st with nonoptArgs := m.st.nonoptArgs ++ [tok] } }).advance 1
    match tok with
    | [] => some plain
    | c0 :: t1 =>
      if c0 = '-' then
        match t1 with
        | [] => shortChecked reset stripping [] m
        | c1 :: body =>
          if c1 = '-' then longChecked reset stripping tok body m
          else shortChecked reset stripping (c1 :: body) m
      else some plain

/-- How a run with the explicit cursor ends. -/
inductive Checked where
  | done (st : ParseState)
  | fault
  | timeout
deriving DecidableEq, Repr

/-- The loop with the explicit cursor, bounded by `fuel` iterations. -/
def scanChecked (reset : cmdLineIntSequence → cmdLineIntSequence) (stripping : Bool) :
    Nat → Machine → Checked
  | 0, m => if m.argc < 0 then .fault else if m.argc = 0 then .done m.st else .timeout
  | fuel + 1, m =>
    if m.argc < 0 then .fault
    else if m.argc = 0 then .done m.st
    else
      match stepChecked reset stripping m with
      | none => .fault
      | some m1 => scanChecked reset stripping fuel m1

/-- Function `cmdLineParse` with the explicit cursor: the copy of `argv[0]`
when stripping, `--argc, ++argv`, then the loop. -/
def cmdLineParseChecked (reset : cmdLineIntSequence → cmdLineIntSequence) (stripping : Bool)
    (argv : List CStr) (params : List Readable) (nonoptArgs : List CStr) : Checked :=
  let start : Machine := ⟨argv, 0, argv.length, ⟨params, nonoptArgs, []⟩⟩
  if stripping then
    match start.entry with
    | none => .fault
    | some path =>
      scanChecked reset stripping (scanFuel (argv.drop 1))
        ({ start with st := { start.st with strippedArgs := [path] } }.advance 1)
  else scanChecked reset stripping (scanFuel (argv.drop 1)) (start.advance 1)

/-! ## Vocabulary of the properties -/

/-- No two descriptors of the registry have the same long name. -/
def UniqueLongNames (params : List Readable) : Prop :=
  params.Pairwise (fun a b => a.name ≠ b.name)

/-- No two descriptors of the registry that declare a short name have the
same one. -/
def UniqueShortNames (params : List Readable) : Prop :=
  params.Pairwise (fun a b => a.shortName = b.shortName → a.shortName = noShortName)

instance (params : List Readable) : Decidable (UniqueLongNames params) := by
  unfold UniqueLongNames
  infer_instance

instance (params : List Readable) : Decidable (UniqueShortNames params) := by
  unfold UniqueShortNames
  infer_instance

/-- The descriptor is a `cmdLineInt` or a `cmdLineString`. -/
def Readable.isIntOrString : Readable → Bool
  | .int _ => true
  | .string _ => true
  | _ => false

/-- The descriptor is a scalar: a `cmdLineInt`, `cmdLineFloat` or
`cmdLineString`. -/
def Readable.isScalar : Readable → Bool
  | .int _ => true
  | .float _ => true
  | .string _ => true
  | _ => false

/-- A scalar descriptor once it is set with the parsed form of the text `v`:
`atoi v` for a `cmdLineInt`, `atof v` for a `cmdLineFloat`, `v` itself for a
`cmdLineString`. -/
def Readable.withText : Readable → CStr → Readable
  | .int d, v => .int { d with set := true, value := atoi v }
  | .float d, v => .float { d with set := true, value := FloatValue.atof v }
  | .string d, v => .string { d with set := true, value := some v }
  | r, _ => r

/-- Some character of `cs` is resolved by the short-name lookup to the
descriptor at position `k` of the registry. -/
def resolvesTo (params : List Readable) (cs : List Char) (k : Nat) : Bool :=
  cs.any (fun x => (getReadableByShortName params x).map Prod.fst == some k)

/-- The registry in which every descriptor that a character of `cs` resolves
to is marked set, the others as they were. -/
def markShort (cs : List Char) (params : List Readable) : List Readable :=
  params.mapIdx (fun k e => if resolvesTo params cs k then e.markSet else e)

/-- The registry in which every descriptor whose short name is among `fs` is
marked set, the others as they were. -/
def markFlags (fs : List Char) (params : List Readable) : List Readable :=
  params.map (fun e => if e.shortName ∈ fs then e.markSet else e)

/-- The standalone tokens `-x` of the characters of `cs` that the registry
does not resolve, in order. -/
def unknownShort (params : List Readable) (cs : List Char) : List CStr :=
  (cs.filter (fun x => (getReadableByShortName params x).isNone)).map (fun x => ['-', x])

/-- The tokens of a run of occurrences of one option, each written `--n v`
(first component true) or `-s v` (first component false). -/
def occurrences (n : CStr) (s : Char) : List (Bool × CStr) → List CStr
  | [] => []
  | o :: os => (if o.1 then '-' :: '-' :: n else ['-', s]) :: o.2 :: occurrences n s os

/-- What a token none of whose names is registered leaves in the stripped
output: itself if it starts with `--`, one `-c` for each character `c` after
the dash if it starts with a single `-`, itself if it does not start with
`-`. -/
def reencode (t : CStr) : List CStr :=
  if t.take 2 = ['-', '-'] then [t]
  else if t.head? = some '-' then t.tail.map (fun c => ['-', c])
  else [t]

/-- The in-order concatenation of `reencode` over the tokens. -/
def strippedOf : List CStr → List CStr
  | [] => []
  | t :: ts => reencode t ++ strippedOf ts

/-- The decimal writing of an integer: `-` for a negative one, then its
digits. -/
def decimal (a : Int) : CStr :=
  if a < 0 then '-' :: Nat.toDigits 10 a.natAbs else Nat.toDigits 10 a.natAbs

/-- The integer is a value of the 32-bit type `int`. -/
def IsInt (a : Int) : Prop := INT_MIN ≤ a ∧ a ≤ INT_MAX

instance (a : Int) : Decidable (IsInt a) := by
  unfold IsInt
  infer_instance

/-- What is assumed of the member `reset()` of `cmdLineIntSequence`: it
leaves the set flag and the range (start, end, increment) as they are. -/
def KeepsRange (reset : cmdLineIntSequence → cmdLineIntSequence) : Prop :=
  ∀ d, (reset d).set = d.set ∧ (reset d).start = d.start ∧ (reset d).end_ = d.end_ ∧
    (reset d).increment = d.increment

/-- The text does not go on with a digit. -/
def NoDigitAhead (s : CStr) : Prop := ∀ c cs, s = c :: cs → isdigit c = false

/-- The token does not start with `-`. -/
def isPlain (t : CStr) : Bool := t.head? != some '-'

/-- The text `t` begins with the text `p`. -/
def startsWith : CStr → CStr → Bool
  | [], _ => true
  | _ :: _, [] => false
  | a :: p, b :: t => a == b && startsWith p t

/-- The text `p` occurs somewhere in the text `t`. -/
def occursIn (p : CStr) : CStr → Bool
  | [] => startsWith p []
  | c :: cs => startsWith p (c :: cs) || occursIn p cs

/-- The text `--n=`, with which the `=` form of the long option `n` begins. -/
def eqForm (n : CStr) : CStr := '-' :: '-' :: (n ++ ['='])

/-- The token nowhere contains `--n=` for a name `n` among `ns`. -/
def NoEqForm (ns : List CStr) (t : CStr) : Prop := ∀ n ∈ ns, occursIn (eqForm n) t = false

instance (ns : List CStr) (t : CStr) : Decidable (NoEqForm ns t) := by
  unfold NoEqForm
  infer_instance

/-- Every descriptor of the registry is a no-argument flag. -/
def AllFlags (params : List Readable) : Prop := ∀ d ∈ params, d.expectsArg = false

instance (params : List Readable) : Decidable (AllFlags params) := by
  unfold AllFlags
  infer_instance

/-- Every descriptor of the registry is a flag with a long name among
`ns`. -/
def FlagRegistry (ns : List CStr) (params : List Readable) : Prop :=
  ∀ d ∈ params, d.name ∈ ns ∧ d.expectsArg = false

/-- The descriptor is a `cmdLineIntSequence` (a range). -/
def Readable.isRange : Readable → Bool
  | .intSequence _ => true
  | _ => false

/-- The descriptor `d1` is a later state of `d` in which the set flag has not
been reset: it is of the same class as far as ranges go and, unless it is a
range, set if `d` was set. -/
def StaysSet (d d1 : Readable) : Prop :=
  d1.isRange = d.isRange ∧ (d.isRange = false → d.set = true → d1.set = true)

/-- Position by position, the registry `ps1` holds later states of the
descriptors of `ps` in which no set flag has been reset. -/
def RegistryStaysSet (ps ps1 : List Readable) : Prop :=
  ∀ (i : Nat) (d : Readable), ps[i]? = some d → ∃ d1, ps1[i]? = some d1 ∧ StaysSet d d1

/-- What is assumed of the member `reset()` of `cmdLineIntSequence` where
names matter: it leaves the long and the short name as they are. -/
def KeepsNames (reset : cmdLineIntSequence → cmdLineIntSequence) : Prop :=
  ∀ d : cmdLineIntSequence, (reset d).name = d.name ∧ (reset d).shortName = d.shortName

/-- The registries have the same long names and the same short names,
position by position. -/
def SameKeys (ps qs : List Readable) : Prop :=
  qs.map Readable.name = ps.map Readable.name ∧
    qs.map Readable.shortName = ps.map Readable.shortName

/-- No descriptor of the registry has the empty long name. -/
def NonEmptyNames (ps : List Readable) : Prop := [] ∉ ps.map Readable.name

instance (ps : List Readable) : Decidable (NonEmptyNames ps) := by
  unfold NonEmptyNames
  infer_instance

/-- A token that matches nothing in the registry and is its own
re-encoding: a plain token, a `--` token whose option name is not
registered, or `-c` for a character `c` that is not registered. -/
def Inert (ps : List Readable) (t : CStr) : Prop :=
  isPlain t = true ∨
    (∃ body, t = '-' :: '-' :: body ∧ getReadableByLongName ps (findEq body).1 = none) ∨
    (∃ c, t = ['-', c] ∧ c ≠ '-' ∧ getReadableByShortName ps c = none)

/-- The cursor `m` stands on the tokens `l`: the pointer is within the
vector, the counter is the number of entries from it to the end of the
vector, and these entries point to the tokens `l`. -/
def Tracks (m : Machine) (l : List CStr) : Prop :=
  0 ≤ m.argv ∧ m.argc = (l.length : Int) ∧ m.argv + m.argc = (m.mem.length : Int) ∧
    m.mem.drop m.argv.toNat = l

/-! ## Sequences of counted reads -/

/-- Successive calls of `cmdLineInts::read` on one descriptor, one call for
each argument slice of `slices`, in order. -/
def cmdLineInts.reads (d : cmdLineInts) : List (List CStr) → cmdLineInts
  | [] => d
  | argv :: more => cmdLineInts.reads (d.read argv).1 more

/-- Successive calls of `cmdLineStrings::read` on one descriptor, one call
for each argument slice of `slices`, in order. -/
def cmdLineStrings.reads (d : cmdLineStrings) : List (List CStr) → cmdLineStrings
  | [] => d
  | argv :: more => cmdLineStrings.reads (d.read argv).1 more

/-- The counted read of the slice `argv` goes past both of its early
returns: `argc > 0`, and not `count <= 0 || argc <= count`. -/
def readSucceeds (argv : List CStr) : Bool :=
  match argv with
  | a :: _ => !decide (atoi a ≤ 0 ∨ (argv.length : Int) ≤ atoi a)
  | [] => false

/-- The element tokens `argv[1] .. argv[count]` of a slice. -/
def elementTokens (argv : List CStr) : List CStr :=
  match argv with
  | a :: rest => rest.take (atoi a).toNat
  | [] => []

/-- The latest slice of a sequence of reads on which the read succeeds. -/
def lastSuccess : List (List CStr) → Option (List CStr)
  | [] => none
  | argv :: more =>
    match lastSuccess more with
    | some b => some b
    | none => if readSucceeds argv then some argv else none

/-! ## The single pass aligned with the two passes -/

/-- The stripping pass with the registry `Rt` hands the token `t` on as it
is: `t` is plain, or a `--` token whose looked-up name is not in `Rt`, or
`-c` for a character `c` that is no short name of `Rt`. -/
def handedOn (Rt : List Readable) (t : CStr) : Bool :=
  match t with
  | [] => true
  | c0 :: t1 =>
    if c0 = '-' then
      match t1 with
      | [] => false
      | c1 :: body =>
        if c1 = '-' then (getReadableByLongName Rt (findEq body).1).isNone
        else body.isEmpty && (getReadableByShortName Rt c1).isNone
    else true

/-- The number of tokens of the slice `argv` that the read of `d` asks for:
the one value of a scalar, or the count and the declared number of elements
of a counted sequence, as far as the slice reaches. -/
def Readable.asks (d : Readable) (argv : List CStr) : Nat :=
  match argv with
  | [] => 0
  | a :: _ =>
    match d with
    | .ints _ => min argv.length (max 1 (atoi a + 1).toNat)
    | .strings _ => min argv.length (max 1 (atoi a + 1).toNat)
    | _ => 1

/-- The tokens of `rest` that the read of `opt` asks for, after the inline
text if there is one, are handed on by the stripping pass with `Rt`. -/
def valuesHandedOn (Rt : List Readable) (opt : Readable) (inline : Option CStr)
    (rest : List CStr) : Bool :=
  match inline with
  | some v => (rest.take (opt.asks (v :: rest) - 1)).all (handedOn Rt)
  | none => (rest.take (opt.asks rest)).all (handedOn Rt)

/-- The long-option branch of the single pass with `Rt ++ Rx` agrees with the
two passes: an option found in `Rx` only is not a flag written with `=`, and
the value tokens it asks for are handed on by the stripping pass. -/
def alignedLong (Rt Rx : List Readable) (body : CStr) (rest : List CStr) : Bool :=
  match getReadableByLongName Rt (findEq body).1 with
  | some _ => true
  | none =>
    match getReadableByLongName Rx (findEq body).1 with
    | some (_, opt) =>
      if opt.expectsArg then valuesHandedOn Rt opt (findEq body).2 rest
      else (findEq body).2.isNone
    | none => true

/-- The short-option branch of the single pass with `Rt ++ Rx` agrees with
the two passes: a value-taking option found in `Rx` only ends its cluster and
the value tokens it asks for are handed on by the stripping pass; a `-` that
`Rt` does not match is matched by nothing in `Rx`, by short name or by the
empty long name. -/
def alignedShort (Rt Rx : List Readable) : CStr → List CStr → Bool
  | [], _ => true
  | c :: cs, rest =>
    match getReadableByShortName Rt c with
    | some (i, opt) =>
      if !opt.expectsArg then alignedShort (Rt.set i opt.markSet) Rx cs rest
      else true
    | none =>
      (c ≠ '-' || ((getReadableByShortName Rx '-').isNone &&
        (getReadableByLongName Rx []).isNone)) &&
      match getReadableByShortName Rx c with
      | some (j, opt) =>
        if !opt.expectsArg then alignedShort Rt (Rx.set j opt.markSet) cs rest
        else cs.isEmpty && valuesHandedOn Rt opt none rest
      | none => alignedShort Rt Rx cs rest

/-- The condition on one iteration of the single pass on the token `tok`. -/
def alignedStep (Rt Rx : List Readable) (tok : CStr) (rest : List CStr) : Bool :=
  match tok with
  | [] => true
  | c0 :: t1 =>
    if c0 = '-' then
      match t1 with
      | [] => true
      | c1 :: body =>
        if c1 = '-' then alignedLong Rt Rx body rest
        else alignedShort Rt Rx (c1 :: body) rest
    else true

/-- The condition along the single collecting pass over `argv` with the
registry `Rt ++ Rx`, bounded as `scan` is. -/
def aligned (reset : cmdLineIntSequence → cmdLineIntSequence) :
    Nat → List CStr → List Readable → List Readable → Bool
  | _, [], _, _ => true
  | 0, _ :: _, _, _ => false
  | fuel + 1, tok :: rest, Rt, Rx =>
    alignedStep Rt Rx tok rest &&
      (let p := parseStep reset false tok rest ⟨Rt ++ Rx, [], []⟩
       aligned reset fuel p.1 (p.2.params.take Rt.length) (p.2.params.drop Rt.length))

/-- The single collecting pass of `V[1..] = rest` with `R ++ R'` gives an
option of `R'` only value tokens that the stripping pass with `R` hands on. -/
def Aligned (reset : cmdLineIntSequence → cmdLineIntSequence) (R R' : List Readable)
    (rest : List CStr) : Prop :=
  aligned reset (scanFuel rest) rest R R' = true

instance (reset : cmdLineIntSequence → cmdLineIntSequence) (R R' : List Readable)
    (rest : List CStr) : Decidable (Aligned reset R R' rest) := by
  unfold Aligned
  infer_instance

/-! ## The loop bound is never reached -/

section Fuel

variable (reset : cmdLineIntSequence → cmdLineIntSequence) (stripping : Bool)

theorem scanFuel_cons (t : CStr) (l : List CStr) :
    scanFuel (t :: l) = t.length + 1 + scanFuel l := by
  simp [scanFuel]

theorem scanFuel_drop_le (n : Nat) (l : List CStr) : scanFuel (l.drop n) ≤ scanFuel l := by
  induction l generalizing n with
  | nil => simp
  | cons t l ih =>
    cases n with
    | zero => simp
    | succ n =>
      have := ih n
      simp only [List.drop_succ_cons, scanFuel_cons]
      omega

theorem findEq_length (body v : CStr) (h : (findEq body).2 = some v) :
    v.length < body.length := by
  induction body with
  | nil => simp [findEq] at h
  | cons c cs ih =>
    unfold findEq at h
    split at h
    · simp only [Option.some.injEq] at h
      subst h
      simp
    · have := ih h
      simp only [List.length_cons]
      omega

theorem parseLong_fuel (tok body : CStr) (rest : List CStr) (st : ParseState) :
    scanFuel (parseLong reset stripping tok body rest st).1 ≤ body.length + scanFuel rest := by
  have key : scanFuel (match (findEq body).2 with
      | some v => v :: rest
      | none => rest) ≤ body.length + scanFuel rest := by
    cases h : (findEq body).2 with
    | none => simp
    | some v =>
      have := findEq_length body v h
      simp only [scanFuel_cons]
      omega
  unfold parseLong
  simp only
  split
  · split
    · exact le_trans (scanFuel_drop_le _ _) key
    · split <;> exact key
  · split
    · exact le_trans (scanFuel_drop_le _ _) key
    · exact key

theorem parseShort_fuel (cs : CStr) (rest : List CStr) (st : ParseState) :
    scanFuel (parseShort reset stripping cs rest st).1 ≤ cs.length + scanFuel rest := by
  induction cs generalizing st with
  | nil => simp [parseShort]
  | cons c cs ih =>
    unfold parseShort
    split
    · split
      · exact le_trans (ih _) (by simp only [List.length_cons]; omega)
      · simp only
        refine le_trans (scanFuel_drop_le _ _) ?_
        split
        · simp only [scanFuel_cons, List.length_cons]
          omega
        · simp only [List.length_cons]
          omega
    · exact le_trans (ih _) (by simp only [List.length_cons]; omega)

theorem parseStep_fuel (tok : CStr) (rest : List CStr) (st : ParseState) :
    scanFuel (parseStep reset stripping tok rest st).1 < scanFuel (tok :: rest) := by
  rw [scanFuel_cons]
  unfold parseStep
  simp only
  split
  · simp
  · split
    · split
      · have := parseShort_fuel reset stripping [] rest st
        simp only [List.length_nil, List.length_cons] at *
        omega
      · split
        · exact lt_of_le_of_lt (parseLong_fuel _ _ _ _ _ _)
            (by simp only [List.length_cons]; omega)
        · exact lt_of_le_of_lt (parseShort_fuel _ _ _ _ _)
            (by simp only [List.length_cons]; omega)
    · simp only [List.length_cons]
      omega

theorem scan_nil (f : Nat) (st : ParseState) : scan reset stripping f [] st = some st := by
  cases f <;> rfl

theorem scan_fuel_irrelevant (f1 f2 : Nat) (argv : List CStr) (st : ParseState)
    (h1 : scanFuel argv ≤ f1) (h2 : scanFuel argv ≤ f2) :
    scan reset stripping f1 argv st = scan reset stripping f2 argv st := by
  induction f1 generalizing f2 argv st with
  | zero =>
    cases argv with
    | nil => simp [scan_nil]
    | cons t l => simp [scanFuel_cons] at h1
  | succ f1 ih =>
    cases argv with
    | nil => simp [scan_nil]
    | cons t l =>
      cases f2 with
      | zero => simp [scanFuel_cons] at h2
      | succ f2 =>
        have hlt := parseStep_fuel reset stripping t l st
        simp only [scan]
        exact ih _ _ _ (by omega) (by omega)

theorem run_nil (st : ParseState) : run reset stripping [] st = some st := by
  simp [run, scan_nil]

/-- The loop unrolled once. -/
theorem run_cons (tok : CStr) (rest : List CStr) (st : ParseState) :
    run reset stripping (tok :: rest) st =
      run reset stripping (parseStep reset stripping tok rest st).1
        (parseStep reset stripping tok rest st).2 := by
  have hlt := parseStep_fuel reset stripping tok rest st
  unfold run
  cases h : scanFuel (tok :: rest) with
  | zero => simp [scanFuel_cons] at h
  | succ f =>
    simp only [scan]
    exact scan_fuel_irrelevant reset stripping _ _ _ _ (by omega) (le_refl _)

/-- The loop always ends within its bound. -/
theorem run_total (argv : List CStr) (st : ParseState) :
    ∃ r, run reset stripping argv st = some r := by
  generalize hn : scanFuel argv = n
  induction n using Nat.strong_induction_on generalizing argv st with
  | _ n ih =>
    cases argv with
    | nil => exact ⟨st, run_nil reset stripping st⟩
    | cons t l =>
      rw [run_cons]
      have hlt := parseStep_fuel reset stripping t l st
      exact ih _ (by omega) _ _ rfl

end Fuel

/-! ## Registry lookup: basic facts -/

theorem getReadableByLongName_of_unique (params : List Readable) (i : Nat) (d : Readable)
    (hu : UniqueLongNames params) (hi : params[i]? = some d) :
    getReadableByLongName params d.name = some (i, d) := by
  induction params generalizing i with
  | nil => simp at hi
  | cons p ps ih =>
    unfold UniqueLongNames at hu
    rw [List.pairwise_cons] at hu
    cases i with
    | zero =>
      simp only [List.getElem?_cons_zero, Option.some.injEq] at hi
      subst hi
      simp [getReadableByLongName]
    | succ i =>
      simp only [List.getElem?_cons_succ] at hi
      have hne : d.name ≠ p.name := fun h => hu.1 d (List.getElem?_mem hi) h.symm
      simp [getReadableByLongName, hne, ih i hu.2 hi]

theorem getReadableByShortName_of_unique (params : List Readable) (i : Nat) (d : Readable)
    (hu : UniqueShortNames params) (hi : params[i]? = some d)
    (hs : d.shortName ≠ noShortName) :
    getReadableByShortName params d.shortName = some (i, d) := by
  induction params generalizing i with
  | nil => simp at hi
  | cons p ps ih =>
    unfold UniqueShortNames at hu
    rw [List.pairwise_cons] at hu
    cases i with
    | zero =>
      simp only [List.getElem?_cons_zero, Option.some.injEq] at hi
      subst hi
      simp [getReadableByShortName]
    | succ i =>
      simp only [List.getElem?_cons_succ] at hi
      have hne : p.shortName ≠ d.shortName :=
        fun h => hs (h ▸ hu.1 d (List.getElem?_mem hi) h)
      simp [getReadableByShortName, hne, ih i hu.2 hi]

theorem getReadableByLongName_set (params : List Readable) (n : CStr) (i : Nat)
    (d d1 : Readable) (h : getReadableByLongName params n = some (i, d))
    (hn : d1.name = d.name) :
    getReadableByLongName (params.set i d1) n = some (i, d1) := by
  induction params generalizing i with
  | nil => simp [getReadableByLongName] at h
  | cons p ps ih =>
    unfold getReadableByLongName at h
    split at h
    · next hp =>
      simp only [Option.some.injEq, Prod.mk.injEq] at h
      obtain ⟨rfl, rfl⟩ := h
      simp [getReadableByLongName, hn, hp]
    · next hp =>
      cases hq : getReadableByLongName ps n with
      | none => simp [hq] at h
      | some r =>
        obtain ⟨j, e⟩ := r
        simp only [hq, Option.map_some', Option.some.injEq, Prod.mk.injEq] at h
        obtain ⟨rfl, rfl⟩ := h
        simp [getReadableByLongName, hp, ih j hq]

theorem getReadableByShortName_set (params : List Readable) (c : Char) (i : Nat)
    (d d1 : Readable) (h : getReadableByShortName params c = some (i, d))
    (hn : d1.shortName = d.shortName) :
    getReadableByShortName (params.set i d1) c = some (i, d1) := by
  induction params generalizing i with
  | nil => simp [getReadableByShortName] at h
  | cons p ps ih =>
    unfold getReadableByShortName at h
    split at h
    · next hp =>
      simp only [Option.some.injEq, Prod.mk.injEq] at h
      obtain ⟨rfl, rfl⟩ := h
      simp [getReadableByShortName, hn, hp]
    · next hp =>
      cases hq : getReadableByShortName ps c with
      | none => simp [hq] at h
      | some r =>
        obtain ⟨j, e⟩ := r
        simp only [hq, Option.map_some', Option.some.injEq, Prod.mk.injEq] at h
        obtain ⟨rfl, rfl⟩ := h
        simp [getReadableByShortName, hp, ih j hq]

theorem findEq_of_not_mem (n : CStr) (h : '=' ∉ n) : findEq n = (n, none) := by
  induction n with
  | nil => rfl
  | cons c cs ih =>
    simp only [List.mem_cons, not_or] at h
    have hc : c ≠ '=' := fun e => h.1 e.symm
    simp [findEq, hc, ih h.2]

/-! ## Scalar options given as `--name value` or `-s value` -/

theorem withText_name (d : Readable) (v : CStr) : (d.withText v).name = d.name := by
  cases d <;> rfl

theorem withText_shortName (d : Readable) (v : CStr) :
    (d.withText v).shortName = d.shortName := by
  cases d <;> rfl

theorem withText_withText (d : Readable) (v w : CStr) :
    (d.withText v).withText w = d.withText w := by
  cases d <;> rfl

theorem withText_isIntOrString (d : Readable) (v : CStr) :
    (d.withText v).isIntOrString = d.isIntOrString := by
  cases d <;> rfl

theorem parseStep_long_scalar (reset : cmdLineIntSequence → cmdLineIntSequence)
    (stripping : Bool) (n v : CStr) (more : List CStr) (st : ParseState) (i : Nat)
    (d : Readable) (hn : '=' ∉ n) (hL : getReadableByLongName st.params n = some (i, d))
    (hd : d.isIntOrString = true) :
    parseStep reset stripping ('-' :: '-' :: n) (v :: more) st =
      (more, { st with params := st.params.set i (d.withText v) }) := by
  cases d <;> simp [Readable.isIntOrString] at hd <;>
    simp [parseStep, parseLong, findEq_of_not_mem n hn, hL, Readable.expectsArg, Readable.read,
      cmdLineInt.read, cmdLineString.read, Readable.withText]

theorem parseStep_short_scalar (reset : cmdLineIntSequence → cmdLineIntSequence)
    (stripping : Bool) (s : Char) (v : CStr) (more : List CStr) (st : ParseState) (i : Nat)
    (d : Readable) (hs : s ≠ '-') (hS : getReadableByShortName st.params s = some (i, d))
    (hd : d.isIntOrString = true) :
    parseStep reset stripping ['-', s] (v :: more) st =
      (more, { st with params := st.params.set i (d.withText v) }) := by
  cases d <;> simp [Readable.isIntOrString] at hd <;>
    simp [parseStep, parseShort, hs, hS, Readable.expectsArg, Readable.read,
      cmdLineInt.read, cmdLineString.read, Readable.withText]

theorem run_occurrences (reset : cmdLineIntSequence → cmdLineIntSequence) (stripping : Bool)
    (n : CStr) (s : Char) (hn : '=' ∉ n) (hs : s ≠ '-') (i : Nat)
    (os : List (Bool × CStr)) (o : Bool × CStr) (d : Readable) (st : ParseState)
    (hL : getReadableByLongName st.params n = some (i, d))
    (hS : getReadableByShortName st.params s = some (i, d))
    (hd : d.isIntOrString = true) :
    run reset stripping (occurrences n s (os ++ [o])) st =
      some { st with params := st.params.set i (d.withText o.2) } := by
  have step : ∀ (o1 : Bool × CStr) (more : List CStr) (st1 : ParseState) (d1 : Readable),
      getReadableByLongName st1.params n = some (i, d1) →
      getReadableByShortName st1.params s = some (i, d1) →
      d1.isIntOrString = true →
      parseStep reset stripping (if o1.1 then '-' :: '-' :: n else ['-', s]) (o1.2 :: more) st1 =
        (more, { st1 with params := st1.params.set i (d1.withText o1.2) }) := by
    intro o1 more st1 d1 h1 h2 h3
    cases h : o1.1
    · simpa [h] using parseStep_short_scalar reset stripping s o1.2 more st1 i d1 hs h2 h3
    · simpa [h] using parseStep_long_scalar reset stripping n o1.2 more st1 i d1 hn h1 h3
  induction os generalizing d st with
  | nil =>
    simp only [List.nil_append, occurrences]
    rw [run_cons, step o [] st d hL hS hd, run_nil]
  | cons o1 os ih =>
    have e : occurrences n s (o1 :: os ++ [o]) =
        (if o1.1 then '-' :: '-' :: n else ['-', s]) :: o1.2 :: occurrences n s (os ++ [o]) := rfl
    rw [e, run_cons, step o1 _ st d hL hS hd]
    have h := ih (d.withText o1.2) { st with params := st.params.set i (d.withText o1.2) }
      (getReadableByLongName_set _ _ _ _ _ hL (withText_name d _))
      (getReadableByShortName_set _ _ _ _ _ hS (withText_shortName d _))
      (by rw [withText_isIntOrString]; exact hd)
    simpa [List.set_set, withText_withText] using h

/-- C1: in a registry with unique long and short names, for an Int or String
descriptor `d` at position `i` whose long name has no `=` and whose short
name is declared and is not `-`, parsing the invocation path followed by one
or more occurrences `--n v` or `-s v` ends normally with `d` set and holding
the parsed form of the last value (whatever its text), every other descriptor
unchanged, no non-option argument added, and nothing but the path in the
stripped output. -/
theorem cmdLineParse_scalar_last_value (reset : cmdLineIntSequence → cmdLineIntSequence)
    (stripping : Bool) (params : List Readable) (i : Nat) (d : Readable) (path : CStr)
    (nonoptArgs : List CStr) (os : List (Bool × CStr)) (o : Bool × CStr)
    (hlong : UniqueLongNames params) (hshort : UniqueShortNames params)
    (hi : params[i]? = some d) (hd : d.isIntOrString = true)
    (hn : '=' ∉ d.name) (hs : d.shortName ≠ '-') (hs1 : d.shortName ≠ noShortName) :
    cmdLineParse reset stripping (path :: occurrences d.name d.shortName (os ++ [o]))
        params nonoptArgs =
      some ⟨params.set i (d.withText o.2), nonoptArgs, if stripping then [path] else []⟩ := by
  unfold cmdLineParse
  simp only
  rw [run_occurrences reset stripping d.name d.shortName hn hs i os o d _
    (getReadableByLongName_of_unique params i d hlong hi)
    (getReadableByShortName_of_unique params i d hshort hi hs1) hd]

/-- Instance of C1: an Int option `num`/`n` given three times, the last time
with a value that starts with `-`. -/
theorem cmdLineParse_scalar_last_value_witness :
    cmdLineParse id false
        ("prog".toList :: occurrences "num".toList 'n'
          ([(true, "1".toList), (false, "22".toList)] ++ [(true, "-7".toList)]))
        [Readable.flag (cmdLineReadable.new "verbose".toList 'v'),
         Readable.int (cmdLineInt.new "num".toList 0 'n')] [] =
      some ⟨[Readable.flag (cmdLineReadable.new "verbose".toList 'v'),
             Readable.int { set := true, name := "num".toList, shortName := 'n', value := -7 }],
            [], []⟩ :=
  cmdLineParse_scalar_last_value id false
    [Readable.flag (cmdLineReadable.new "verbose".toList 'v'),
     Readable.int (cmdLineInt.new "num".toList 0 'n')] 1
    (Readable.int (cmdLineInt.new "num".toList 0 'n')) "prog".toList []
    [(true, "1".toList), (false, "22".toList)] (true, "-7".toList)
    (by decide) (by decide) (by decide) (by decide) (by decide) (by decide) (by decide)

/-! ## `--name=value` against `--name value` -/

theorem findEq_append (n v : CStr) (h : '=' ∉ n) : findEq (n ++ '=' :: v) = (n, some v) := by
  induction n with
  | nil => simp [findEq]
  | cons c cs ih =>
    simp only [List.mem_cons, not_or] at h
    have hc : c ≠ '=' := fun e => h.1 e.symm
    simp [findEq, hc, ih h.2]

/-- C2, as stated, fails: with the Int descriptor named `a=b`, the token
`--a=b=5` and the tokens `--a=b 5` do not end in the same result (the second
collects `5` as a non-option argument). -/
theorem long_forms_differ_counterexample :
    (Readable.int (cmdLineInt.new "a=b".toList 0 noShortName)).expectsArg = true ∧
    (Readable.int (cmdLineInt.new "a=b".toList 0 noShortName)).name = "a=b".toList ∧
    cmdLineParse id false ["prog".toList, "--a=b".toList ++ '=' :: "5".toList]
        [Readable.int (cmdLineInt.new "a=b".toList 0 noShortName)] [] =
      some ⟨[Readable.int (cmdLineInt.new "a=b".toList 0 noShortName)], [], []⟩ ∧
    cmdLineParse id false ["prog".toList, "--a=b".toList, "5".toList]
        [Readable.int (cmdLineInt.new "a=b".toList 0 noShortName)] [] =
      some ⟨[Readable.int (cmdLineInt.new "a=b".toList 0 noShortName)], ["5".toList], []⟩ := by
  decide

/-- C2, amended: when the long name `n` has no `=` and the registry lookup of
`n` finds the value-taking descriptor `d` (as it does for every descriptor
named `n` when long names are unique), `--n=v` followed by `rest` and `--n v`
followed by `rest` give the same result from the same state, in both modes:
the same descriptors, non-option arguments and stripped output. -/
theorem cmdLineParse_eq_form_same (reset : cmdLineIntSequence → cmdLineIntSequence)
    (stripping : Bool) (params : List Readable) (nonoptArgs : List CStr) (path n v : CStr)
    (rest : List CStr) (i : Nat) (d : Readable) (hn : '=' ∉ n)
    (hfound : getReadableByLongName params n = some (i, d)) (hd : d.expectsArg = true) :
    cmdLineParse reset stripping (path :: ('-' :: '-' :: (n ++ '=' :: v)) :: rest)
        params nonoptArgs =
      cmdLineParse reset stripping (path :: ('-' :: '-' :: n) :: v :: rest)
        params nonoptArgs := by
  unfold cmdLineParse
  simp only
  rw [run_cons, run_cons]
  have e : ∀ st : ParseState, st.params = params →
      parseStep reset stripping ('-' :: '-' :: (n ++ '=' :: v)) rest st =
        parseStep reset stripping ('-' :: '-' :: n) (v :: rest) st := by
    intro st hst
    simp [parseStep, parseLong, findEq_append n v hn, findEq_of_not_mem n hn, hst, hfound, hd]
  rw [e _ rfl]

/-- Instance of the amended C2: the counted sequence `ints`, given as
`--ints=2 10 20 p` and as `--ints 2 10 20 p`. -/
theorem cmdLineParse_eq_form_same_witness :
    cmdLineParse id false
        ("prog".toList :: ('-' :: '-' :: ("ints".toList ++ '=' :: "2".toList)) ::
          ["10".toList, "20".toList, "p".toList])
        [Readable.ints (cmdLineInts.new "ints".toList noShortName)] [] =
      cmdLineParse id false
        ("prog".toList :: ('-' :: '-' :: "ints".toList) :: "2".toList ::
          ["10".toList, "20".toList, "p".toList])
        [Readable.ints (cmdLineInts.new "ints".toList noShortName)] [] :=
  cmdLineParse_eq_form_same id false
    [Readable.ints (cmdLineInts.new "ints".toList noShortName)] [] "prog".toList
    "ints".toList "2".toList ["10".toList, "20".toList, "p".toList] 0
    (Readable.ints (cmdLineInts.new "ints".toList noShortName))
    (by decide) (by decide) (by decide)

/-! ## Short-option clusters -/

theorem markSet_shortName (e : Readable) : e.markSet.shortName = e.shortName := by
  cases e <;> rfl

theorem markSet_name (e : Readable) : e.markSet.name = e.name := by
  cases e <;> rfl

theorem markSet_expectsArg (e : Readable) : e.markSet.expectsArg = e.expectsArg := by
  cases e <;> rfl

theorem markSet_markSet (e : Readable) : e.markSet.markSet = e.markSet := by
  cases e <;> rfl

theorem getReadableByShortName_some (params : List Readable) (c : Char) (j : Nat)
    (d : Readable) (h : getReadableByShortName params c = some (j, d)) :
    params[j]? = some d ∧ d.shortName = c := by
  induction params generalizing j with
  | nil => simp [getReadableByShortName] at h
  | cons p ps ih =>
    unfold getReadableByShortName at h
    split at h
    · next hp =>
      simp only [Option.some.injEq, Prod.mk.injEq] at h
      obtain ⟨rfl, rfl⟩ := h
      exact ⟨by simp, hp⟩
    · cases hq : getReadableByShortName ps c with
      | none => simp [hq] at h
      | some r =>
        obtain ⟨k, e⟩ := r
        simp only [hq, Option.map_some', Option.some.injEq, Prod.mk.injEq] at h
        obtain ⟨rfl, rfl⟩ := h
        simpa using ih k hq

theorem getReadableByShortName_congr (ps qs : List Readable) (c : Char)
    (h : qs.map Readable.shortName = ps.map Readable.shortName) :
    (getReadableByShortName qs c).map Prod.fst = (getReadableByShortName ps c).map Prod.fst := by
  induction ps generalizing qs with
  | nil =>
    cases qs with
    | nil => rfl
    | cons q qs => simp at h
  | cons p ps ih =>
    cases qs with
    | nil => simp at h
    | cons q qs =>
      simp only [List.map_cons, List.cons.injEq] at h
      unfold getReadableByShortName
      rw [h.1]
      split
      · rfl
      · have := ih qs h.2
        simp only [Option.map_map]
        cases h1 : getReadableByShortName qs c <;> cases h2 : getReadableByShortName ps c <;>
          simp_all

theorem getReadableByShortName_same_keys_some (ps qs : List Readable) (c : Char) (j : Nat)
    (d : Readable) (hk : qs.map Readable.shortName = ps.map Readable.shortName)
    (h : getReadableByShortName ps c = some (j, d)) :
    ∃ e, getReadableByShortName qs c = some (j, e) ∧ qs[j]? = some e := by
  have hc := getReadableByShortName_congr ps qs c hk
  rw [h] at hc
  cases hq : getReadableByShortName qs c with
  | none => simp [hq] at hc
  | some r =>
    obtain ⟨k, e⟩ := r
    simp only [hq, Option.map_some', Option.some.injEq] at hc
    subst hc
    exact ⟨e, rfl, (getReadableByShortName_some qs c k e hq).1⟩

theorem getReadableByShortName_same_keys_none (ps qs : List Readable) (c : Char)
    (hk : qs.map Readable.shortName = ps.map Readable.shortName)
    (h : getReadableByShortName ps c = none) :
    getReadableByShortName qs c = none := by
  have hc := getReadableByShortName_congr ps qs c hk
  rw [h] at hc
  cases hq : getReadableByShortName qs c with
  | none => rfl
  | some r => simp [hq] at hc

theorem markShort_getElem? (cs : List Char) (ps : List Readable) (k : Nat) :
    (markShort cs ps)[k]? =
      ps[k]?.map (fun e => if resolvesTo ps cs k then e.markSet else e) := by
  simp [markShort]

theorem markShort_shortName (cs : List Char) (ps : List Readable) :
    (markShort cs ps).map Readable.shortName = ps.map Readable.shortName := by
  apply List.ext_getElem?
  intro k
  simp only [List.getElem?_map, markShort_getElem?, Option.map_map]
  cases ps[k]? with
  | none => rfl
  | some e =>
    simp only [Option.map_some', Function.comp_apply, Option.some.injEq]
    split
    · exact markSet_shortName e
    · rfl

theorem resolvesTo_append (ps : List Readable) (done : List Char) (x : Char) (k : Nat) :
    resolvesTo ps (done ++ [x]) k =
      (resolvesTo ps done k || ((getReadableByShortName ps x).map Prod.fst == some k)) := by
  simp [resolvesTo]

theorem markShort_unknown (ps : List Readable) (done : List Char) (x : Char)
    (h : getReadableByShortName ps x = none) :
    markShort (done ++ [x]) ps = markShort done ps := by
  apply List.ext_getElem?
  intro k
  simp [markShort_getElem?, resolvesTo_append, h]

theorem markShort_known (ps : List Readable) (done : List Char) (x : Char) (j : Nat)
    (d e : Readable) (h : getReadableByShortName ps x = some (j, d))
    (he : (markShort done ps)[j]? = some e) :
    (markShort done ps).set j e.markSet = markShort (done ++ [x]) ps := by
  have hd := (getReadableByShortName_some ps x j d h).1
  have hlen : j < ps.length := (List.getElem?_eq_some.1 hd).1
  apply List.ext_getElem?
  intro k
  rw [List.getElem?_set]
  by_cases hjk : j = k
  · subst hjk
    rw [markShort_getElem?, hd] at he
    simp only [Option.map_some', Option.some.injEq] at he
    subst he
    simp only [markShort, List.length_mapIdx, hlen, if_true]
    rw [← markShort, markShort_getElem?, hd, resolvesTo_append, h]
    simp only [Option.map_some', beq_self_eq_true, Bool.or_true, if_true, Option.some.injEq]
    split
    · exact markSet_markSet d
    · rfl
  · rw [if_neg hjk, markShort_getElem?, markShort_getElem?, resolvesTo_append, h]
    have : ((some (j, d) : Option (Nat × Readable)).map Prod.fst == some k) = false := by
      simp [hjk]
    rw [this, Bool.or_false]

/-- The inner loop over a run `cs` of characters that are each a registered
flag or not registered: the flags they resolve to are marked, the others are
re-encoded when stripping, and the loop goes on with `tail`. -/
theorem parseShort_flags (reset : cmdLineIntSequence → cmdLineIntSequence) (stripping : Bool)
    (ps : List Readable) (nonopt : List CStr) (cs tail : CStr) (rest : List CStr)
    (hcs : ∀ x ∈ cs, ∀ j d, getReadableByShortName ps x = some (j, d) → d.expectsArg = false)
    (done : List Char) (stripped : List CStr) :
    parseShort reset stripping (cs ++ tail) rest ⟨markShort done ps, nonopt, stripped⟩ =
      parseShort reset stripping tail rest
        ⟨markShort (done ++ cs) ps, nonopt,
          stripped ++ (if stripping then unknownShort ps cs else [])⟩ := by
  induction cs generalizing done stripped with
  | nil => cases stripping <;> simp [unknownShort]
  | cons x cs ih =>
    have hcs1 : ∀ y ∈ cs, ∀ j d, getReadableByShortName ps y = some (j, d) →
        d.expectsArg = false := fun y hy => hcs y (List.mem_cons_of_mem _ hy)
    have happ : done ++ x :: cs = (done ++ [x]) ++ cs := by simp
    rw [List.cons_append, parseShort]
    cases hx : getReadableByShortName ps x with
    | none =>
      rw [getReadableByShortName_same_keys_none ps _ x (markShort_shortName done ps) hx]
      have hm := markShort_unknown ps done x hx
      rw [happ]
      cases stripping
      · simp only [Bool.false_eq_true, if_false]
        rw [← hm, ih hcs1 (done ++ [x])]
        simp
      · simp only [if_true]
        rw [← hm, ih hcs1 (done ++ [x])]
        simp [unknownShort, hx]
    | some r =>
      obtain ⟨j, d⟩ := r
      obtain ⟨e, he, hej⟩ :=
        getReadableByShortName_same_keys_some ps _ x j d (markShort_shortName done ps) hx
      have hflag : e.expectsArg = false := by
        have hd := (getReadableByShortName_some ps x j d hx).1
        rw [markShort_getElem?, hd] at hej
        simp only [Option.map_some', Option.some.injEq] at hej
        rw [← hej]
        split
        · rw [markSet_expectsArg]; exact hcs x (List.mem_cons_self _ _) j d hx
        · exact hcs x (List.mem_cons_self _ _) j d hx
      rw [he]
      simp only [hflag, Bool.not_false, if_true]
      rw [markShort_known ps done x j d e hx hej, happ, ih hcs1 (done ++ [x]) stripped]
      cases stripping <;> simp [unknownShort, hx]

theorem markShort_nil (ps : List Readable) : markShort [] ps = ps := by
  apply List.ext_getElem?
  intro k
  simp [markShort_getElem?, resolvesTo]

theorem resolvesTo_iff (ps : List Readable) (cs : List Char) (k : Nat) (e : Readable)
    (hu : UniqueShortNames ps) (hcs : ∀ f ∈ cs, f ≠ noShortName) (he : ps[k]? = some e) :
    resolvesTo ps cs k = true ↔ e.shortName ∈ cs := by
  simp only [resolvesTo, List.any_eq_true, beq_iff_eq]
  constructor
  · rintro ⟨x, hx, h⟩
    cases hq : getReadableByShortName ps x with
    | none => simp [hq] at h
    | some r =>
      obtain ⟨j, d⟩ := r
      simp only [hq, Option.map_some', Option.some.injEq] at h
      subst h
      have := getReadableByShortName_some ps x j d hq
      rw [he] at this
      simp only [Option.some.injEq] at this
      rw [this.1, this.2]
      exact hx
  · intro h
    exact ⟨e.shortName, h, by
      rw [getReadableByShortName_of_unique ps k e hu he (hcs _ h)]; rfl⟩

theorem markShort_eq_markFlags (ps : List Readable) (fs : List Char)
    (hu : UniqueShortNames ps) (hfs : ∀ f ∈ fs, f ≠ noShortName) :
    markShort fs ps = markFlags fs ps := by
  apply List.ext_getElem?
  intro k
  rw [markShort_getElem?]
  simp only [markFlags, List.getElem?_map]
  cases he : ps[k]? with
  | none => rfl
  | some e =>
    simp only [Option.map_some', Option.some.injEq]
    have := resolvesTo_iff ps fs k e hu hfs he
    by_cases hm : e.shortName ∈ fs
    · rw [if_pos (this.2 hm), if_pos hm]
    · rw [if_neg (fun h => hm (this.1 h)), if_neg hm]

theorem unknownShort_eq_nil (ps : List Readable) (cs : List Char)
    (h : ∀ x ∈ cs, (getReadableByShortName ps x).isSome = true) : unknownShort ps cs = [] := by
  simp only [unknownShort, List.map_eq_nil_iff, List.filter_eq_nil_iff]
  intro x hx
  have := h x hx
  cases hq : getReadableByShortName ps x <;> simp_all

theorem read_scalar (reset : cmdLineIntSequence → cmdLineIntSequence) (d : Readable)
    (v : CStr) (more : List CStr) (hd : d.isScalar = true) :
    d.read reset (v :: more) = (d.withText v, 1) := by
  cases d <;> simp [Readable.isScalar] at hd <;>
    simp [Readable.read, cmdLineInt.read, cmdLineFloat.read, cmdLineString.read,
      Readable.withText]

theorem isScalar_expectsArg (d : Readable) (hd : d.isScalar = true) : d.expectsArg = true := by
  cases d <;> simp [Readable.isScalar] at hd <;> rfl

/-- C4: in a registry with unique short names, for a cluster token
`-f1...fk c w` (not starting with `--`) where every `f_i` is the declared
short name of a registered flag and `c` that of a registered scalar option
`dc`, one iteration of the scan marks every descriptor whose short name is
among the `f_i`, sets `dc` with the parsed form of `w` when `w` is not empty
and of the next token otherwise, changes nothing else, and leaves the cursor
on the token right after the value. -/
theorem parseStep_cluster_value (reset : cmdLineIntSequence → cmdLineIntSequence)
    (stripping : Bool) (st : ParseState) (fs : List Char) (w val : CStr)
    (rest more : List CStr) (ic : Nat) (dc : Readable)
    (hshort : UniqueShortNames st.params)
    (hfs : ∀ f ∈ fs, f ≠ noShortName ∧
      ∃ d ∈ st.params, d.shortName = f ∧ d.expectsArg = false)
    (hc : st.params[ic]? = some dc) (hscalar : dc.isScalar = true)
    (hcs : dc.shortName ≠ noShortName)
    (hdash : (fs ++ [dc.shortName]).head? ≠ some '-')
    (hval : (w ≠ [] ∧ val = w ∧ more = rest) ∨ (w = [] ∧ rest = val :: more)) :
    parseStep reset stripping ('-' :: (fs ++ dc.shortName :: w)) rest st =
      (more, { st with params := (markFlags fs st.params).set ic (dc.withText val) }) := by
  obtain ⟨ps, nonopt, stripped⟩ := st
  simp only at hshort hfs hc ⊢
  have hstep : parseStep reset stripping ('-' :: (fs ++ dc.shortName :: w)) rest
      ⟨ps, nonopt, stripped⟩ =
      parseShort reset stripping (fs ++ dc.shortName :: w) rest ⟨ps, nonopt, stripped⟩ := by
    cases fs with
    | nil =>
      have : dc.shortName ≠ '-' := by simpa using hdash
      simp [parseStep, this]
    | cons f fs =>
      have : f ≠ '-' := by simpa using hdash
      simp [parseStep, this]
  have hflags : ∀ x ∈ fs, ∀ j d, getReadableByShortName ps x = some (j, d) →
      d.expectsArg = false := by
    intro x hx j d hq
    obtain ⟨hne, d1, hmem, hname, hflag⟩ := hfs x hx
    obtain ⟨k, hk⟩ := List.getElem?_of_mem hmem
    have := getReadableByShortName_of_unique ps k d1 hshort hk (by rw [hname]; exact hne)
    rw [hname, hq] at this
    simp only [Option.some.injEq, Prod.mk.injEq] at this
    rw [this.2]
    exact hflag
  have hsome : ∀ x ∈ fs, (getReadableByShortName ps x).isSome = true := by
    intro x hx
    obtain ⟨hne, d1, hmem, hname, _⟩ := hfs x hx
    obtain ⟨k, hk⟩ := List.getElem?_of_mem hmem
    have := getReadableByShortName_of_unique ps k d1 hshort hk (by rw [hname]; exact hne)
    rw [hname] at this
    rw [this]
    rfl
  have hlook := getReadableByShortName_of_unique ps ic dc hshort hc hcs
  have hnot : resolvesTo ps fs ic = false := by
    cases hr : resolvesTo ps fs ic with
    | false => rfl
    | true =>
      exfalso
      have hmem := (resolvesTo_iff ps fs ic dc hshort (fun f hf => (hfs f hf).1) hc).1 hr
      have := hflags _ hmem ic dc hlook
      rw [isScalar_expectsArg dc hscalar] at this
      exact absurd this (by decide)
  obtain ⟨e, he, hej⟩ := getReadableByShortName_same_keys_some ps (markShort fs ps)
    dc.shortName ic dc (markShort_shortName fs ps) hlook
  have hedc : e = dc := by
    rw [markShort_getElem?, hc] at hej
    simpa [hnot] using hej.symm
  subst hedc
  have hpre := parseShort_flags reset stripping ps nonopt fs (e.shortName :: w) rest hflags
    [] stripped
  rw [markShort_nil, List.nil_append, unknownShort_eq_nil ps fs hsome] at hpre
  rw [hstep, hpre, parseShort, he]
  simp only [isScalar_expectsArg e hscalar, Bool.not_true, Bool.false_eq_true, if_false]
  rw [markShort_eq_markFlags ps fs hshort (fun f hf => (hfs f hf).1)]
  rcases hval with ⟨hw, rfl, rfl⟩ | ⟨rfl, rfl⟩
  · simp [hw, read_scalar reset e val more hscalar]
  · simp [read_scalar reset e val more hscalar]

/-- Instance of C4: `-abc 5` with flags `a`, `b` and the Int option `c`; the
second part runs the whole parse with a further token `x`, which is the next
one scanned. -/
theorem parseStep_cluster_value_witness :
    parseStep id false "-abc".toList ["5".toList]
        ⟨[Readable.flag (cmdLineReadable.new "all".toList 'a'),
          Readable.flag (cmdLineReadable.new "brief".toList 'b'),
          Readable.int (cmdLineInt.new "count".toList 0 'c')], [], []⟩ =
      ([], ⟨[Readable.flag { set := true, name := "all".toList, shortName := 'a' },
             Readable.flag { set := true, name := "brief".toList, shortName := 'b' },
             Readable.int { set := true, name := "count".toList, shortName := 'c', value := 5 }],
            [], []⟩) ∧
    cmdLineParse id false ["prog".toList, "-abc".toList, "5".toList, "x".toList]
        [Readable.flag (cmdLineReadable.new "all".toList 'a'),
         Readable.flag (cmdLineReadable.new "brief".toList 'b'),
         Readable.int (cmdLineInt.new "count".toList 0 'c')] [] =
      some ⟨[Readable.flag { set := true, name := "all".toList, shortName := 'a' },
             Readable.flag { set := true, name := "brief".toList, shortName := 'b' },
             Readable.int { set := true, name := "count".toList, shortName := 'c', value := 5 }],
            ["x".toList], []⟩ :=
  ⟨parseStep_cluster_value id false
      ⟨[Readable.flag (cmdLineReadable.new "all".toList 'a'),
        Readable.flag (cmdLineReadable.new "brief".toList 'b'),
        Readable.int (cmdLineInt.new "count".toList 0 'c')], [], []⟩
      ['a', 'b'] [] "5".toList ["5".toList] [] 2
      (Readable.int (cmdLineInt.new "count".toList 0 'c'))
      (by decide) (by decide) (by decide) (by decide) (by decide) (by decide) (by decide),
    by decide⟩

theorem markShort_none (ps : List Readable) (cs : List Char)
    (h : ∀ x ∈ cs, getReadableByShortName ps x = none) : markShort cs ps = ps := by
  apply List.ext_getElem?
  intro k
  rw [markShort_getElem?]
  have : resolvesTo ps cs k = false := by
    simp only [resolvesTo, List.any_eq_false, beq_iff_eq]
    intro x hx
    simp [h x hx]
  simp [this]

theorem unknownShort_all (ps : List Readable) (cs : List Char)
    (h : ∀ x ∈ cs, getReadableByShortName ps x = none) :
    unknownShort ps cs = cs.map (fun x => ['-', x]) := by
  have : cs.filter (fun x => (getReadableByShortName ps x).isNone) = cs := by
    rw [List.filter_eq_self]
    intro x hx
    simp [h x hx]
  simp [unknownShort, this]

/-- One iteration on a cluster token whose characters are each a registered
flag or not registered. -/
theorem parseStep_flags (reset : cmdLineIntSequence → cmdLineIntSequence)
    (stripping : Bool) (st : ParseState) (cs : CStr) (rest : List CStr)
    (hcs : ∀ x ∈ cs, ∀ j d,
      getReadableByShortName st.params x = some (j, d) → d.expectsArg = false)
    (hdash : cs.head? ≠ some '-') :
    parseStep reset stripping ('-' :: cs) rest st =
      (rest, { st with
        params := markShort cs st.params,
        strippedArgs :=
          st.strippedArgs ++ (if stripping then unknownShort st.params cs else []) }) := by
  obtain ⟨ps, nonopt, stripped⟩ := st
  have hstep : parseStep reset stripping ('-' :: cs) rest ⟨ps, nonopt, stripped⟩ =
      parseShort reset stripping cs rest ⟨ps, nonopt, stripped⟩ := by
    cases cs with
    | nil => simp [parseStep]
    | cons c cs =>
      have : c ≠ '-' := by simpa using hdash
      simp [parseStep, this]
  have hpre := parseShort_flags reset stripping ps nonopt cs [] rest hcs [] stripped
  rw [markShort_nil, List.nil_append, List.append_nil] at hpre
  rw [hstep, hpre, parseShort]

/-- C5: for a cluster token (not starting with `--`) whose characters are
each resolved to a registered flag or not registered at all, one iteration of
the scan, in both modes, marks exactly the flags the characters resolve to,
adds no non-option argument, moves to the next token, and adds to the
stripped output, when stripping, exactly one `-x` for each unregistered
character `x`, in cluster order (nothing when collecting). -/
theorem parseStep_cluster_unknown (reset : cmdLineIntSequence → cmdLineIntSequence)
    (stripping : Bool) (st : ParseState) (cs : CStr) (rest : List CStr)
    (hcs : ∀ x ∈ cs, ∀ j d,
      getReadableByShortName st.params x = some (j, d) → d.expectsArg = false)
    (hdash : cs.head? ≠ some '-') :
    parseStep reset stripping ('-' :: cs) rest st =
      (rest, { params := markShort cs st.params,
               nonoptArgs := st.nonoptArgs,
               strippedArgs := st.strippedArgs ++
                 (if stripping then
                    (cs.filter (fun x => (getReadableByShortName st.params x).isNone)).map
                      (fun x => ['-', x])
                  else []) }) :=
  parseStep_flags reset stripping st cs rest hcs hdash

/-- Instance of C5: `-axz` with flags `a` and `z` and no `x`, when
stripping. -/
theorem parseStep_cluster_unknown_witness :
    parseStep id true "-axz".toList ["p".toList]
        ⟨[Readable.flag (cmdLineReadable.new "all".toList 'a'),
          Readable.flag (cmdLineReadable.new "zip".toList 'z')], [], ["prog".toList]⟩ =
      (["p".toList],
        ⟨[Readable.flag { set := true, name := "all".toList, shortName := 'a' },
          Readable.flag { set := true, name := "zip".toList, shortName := 'z' }],
         [], ["prog".toList, "-x".toList]⟩) :=
  parseStep_cluster_unknown id true
    ⟨[Readable.flag (cmdLineReadable.new "all".toList 'a'),
      Readable.flag (cmdLineReadable.new "zip".toList 'z')], [], ["prog".toList]⟩
    "axz".toList ["p".toList]
    (by
      intro x hx j d h
      have key : ∀ y ∈ "axz".toList,
          (getReadableByShortName
            [Readable.flag (cmdLineReadable.new "all".toList 'a'),
             Readable.flag (cmdLineReadable.new "zip".toList 'z')] y).all
            (fun r => !r.2.expectsArg) = true := by decide
      have hk := key x hx
      rw [h] at hk
      simpa using hk)
    (by decide)

/-! ## Stripping when nothing matches -/

theorem parseStep_strip_unmatched (reset : cmdLineIntSequence → cmdLineIntSequence)
    (st : ParseState) (t : CStr) (rest : List CStr)
    (hlong : ∀ body, t = '-' :: '-' :: body →
      getReadableByLongName st.params (findEq body).1 = none)
    (hshort : ∀ c cs, t = '-' :: c :: cs → c ≠ '-' →
      ∀ x ∈ c :: cs, getReadableByShortName st.params x = none) :
    parseStep reset true t rest st =
      (rest, { st with strippedArgs := st.strippedArgs ++ reencode t }) := by
  cases t with
  | nil => simp [parseStep, reencode]
  | cons c0 t1 =>
    by_cases h0 : c0 = '-'
    · subst h0
      cases t1 with
      | nil => simp [parseStep, parseShort, reencode]
      | cons c1 body =>
        by_cases h1 : c1 = '-'
        · subst h1
          have hl := hlong body rfl
          cases he : (findEq body).2 <;>
            simp [parseStep, parseLong, hl, he, reencode]
        · have hs := hshort c1 body rfl h1
          have hflags : ∀ x ∈ c1 :: body, ∀ j d,
              getReadableByShortName st.params x = some (j, d) → d.expectsArg = false := by
            intro x hx j d hq
            rw [hs x hx] at hq
            exact absurd hq (by simp)
          rw [parseStep_flags reset true st (c1 :: body) rest hflags (by simpa using h1),
            markShort_none _ _ hs, unknownShort_all _ _ hs]
          simp [reencode, h1]
    · simp [parseStep, reencode, h0]

/-- C6: when no option name of a `--` token (its text up to the first `=`)
and no character of a single-dash token of `V[1..]` is registered, the
stripping-mode parse of `V` ends normally, changes no descriptor and no
non-option argument, and returns `V[0]` followed by the in-order
concatenation of `reencode t` over the tokens `t` of `V[1..]`. -/
theorem cmdLineParse_strip_unmatched (reset : cmdLineIntSequence → cmdLineIntSequence)
    (params : List Readable) (nonoptArgs : List CStr) (path : CStr) (rest : List CStr)
    (hlong : ∀ t ∈ rest, ∀ body, t = '-' :: '-' :: body →
      getReadableByLongName params (findEq body).1 = none)
    (hshort : ∀ t ∈ rest, ∀ c cs, t = '-' :: c :: cs → c ≠ '-' →
      ∀ x ∈ c :: cs, getReadableByShortName params x = none) :
    cmdLineParse reset true (path :: rest) params nonoptArgs =
      some ⟨params, nonoptArgs, path :: strippedOf rest⟩ := by
  have key : ∀ (l : List CStr) (stripped : List CStr),
      (∀ t ∈ l, ∀ body, t = '-' :: '-' :: body →
        getReadableByLongName params (findEq body).1 = none) →
      (∀ t ∈ l, ∀ c cs, t = '-' :: c :: cs → c ≠ '-' →
        ∀ x ∈ c :: cs, getReadableByShortName params x = none) →
      run reset true l ⟨params, nonoptArgs, stripped⟩ =
        some ⟨params, nonoptArgs, stripped ++ strippedOf l⟩ := by
    intro l
    induction l with
    | nil =>
      intro stripped _ _
      simp [run_nil, strippedOf]
    | cons t l ih =>
      intro stripped h1 h2
      rw [run_cons, parseStep_strip_unmatched reset _ t l
        (h1 t (List.mem_cons_self _ _)) (h2 t (List.mem_cons_self _ _))]
      simp only
      rw [ih _ (fun u hu => h1 u (List.mem_cons_of_mem _ hu))
        (fun u hu => h2 u (List.mem_cons_of_mem _ hu))]
      simp [strippedOf]
  unfold cmdLineParse
  simp only
  rw [key rest _ hlong hshort]
  simp

/-- Instance of C6: the empty registry. -/
theorem cmdLineParse_strip_unmatched_witness :
    cmdLineParse id true
        ["prog".toList, "--foo=1".toList, "-xy".toList, "p".toList, "-".toList,
         "--bar".toList, "q".toList, "".toList]
        [] [] =
      some ⟨[], [],
        ["prog".toList, "--foo=1".toList, "-x".toList, "-y".toList, "p".toList,
         "--bar".toList, "q".toList, "".toList]⟩ :=
  cmdLineParse_strip_unmatched id [] [] "prog".toList
    ["--foo=1".toList, "-xy".toList, "p".toList, "-".toList, "--bar".toList, "q".toList,
     "".toList]
    (fun _ _ _ _ => rfl) (fun _ _ _ _ _ _ _ _ => rfl)

/-! ## Counted sequences -/

/-- C7: when the first token of the slice parses to the count `N >= 1` and
the `N` tokens `taken` follow it (then `later`), `cmdLineInts::read` returns
`N + 1`, marks the descriptor set with count `N`, stores exactly the integers
parsed from `taken`, in order, and the tokens left after the consumed ones
are `later`; a scan iteration on `--name` before such a slice, with `name`
resolved to the descriptor, leaves the cursor on the first token of
`later`. -/
theorem cmdLineInts_read_success (d : cmdLineInts) (a : CStr) (taken later : List CStr)
    (hpos : 1 ≤ atoi a) (hcount : (taken.length : Int) = atoi a) :
    d.read (a :: (taken ++ later)) =
        ({ d with count := (taken.length : Int), values := taken.map atoi, set := true },
          (taken.length : Int) + 1) ∧
      (a :: (taken ++ later)).drop (d.read (a :: (taken ++ later))).2.toNat = later ∧
      ∀ (reset : cmdLineIntSequence → cmdLineIntSequence) (stripping : Bool)
        (st : ParseState) (name : CStr) (i : Nat), '=' ∉ name →
        getReadableByLongName st.params name = some (i, Readable.ints d) →
        parseStep reset stripping ('-' :: '-' :: name) (a :: (taken ++ later)) st =
          (later, { st with params := (st.params.set i
            (Readable.ints { d with count := (taken.length : Int),
                                    values := taken.map atoi, set := true })) }) := by
  have hread : d.read (a :: (taken ++ later)) =
      ({ d with count := (taken.length : Int), values := taken.map atoi, set := true },
        (taken.length : Int) + 1) := by
    have h1 : ¬ (atoi a ≤ 0 ∨ ((a :: (taken ++ later)).length : Int) ≤ atoi a) := by
      simp only [List.length_cons, List.length_append, Nat.cast_add, Nat.cast_one]
      omega
    simp only [cmdLineInts.read, h1, if_false]
    rw [← hcount]
    simp
  have hdrop : (a :: (taken ++ later)).drop ((taken.length : Int) + 1).toNat = later := by
    have : ((taken.length : Int) + 1).toNat = taken.length + 1 := by omega
    rw [this]
    simp
  refine ⟨hread, by rw [hread]; exact hdrop, ?_⟩
  intro reset stripping st name i hname hfound
  simp only [parseStep, parseLong, findEq_of_not_mem name hname, hfound, Readable.expectsArg,
    Readable.read, hread, if_true]
  simp only [hdrop]

/-- Instance of C7: the slice `3 10 20 30 extra`. -/
theorem cmdLineInts_read_success_witness :
    (cmdLineInts.new "ints".toList 'i').read
        ["3".toList, "10".toList, "20".toList, "30".toList, "extra".toList] =
      ({ set := true, name := "ints".toList, shortName := 'i', values := [10, 20, 30],
         count := 3 }, 4) ∧
    parseStep id false "--ints".toList
        ["3".toList, "10".toList, "20".toList, "30".toList, "extra".toList]
        ⟨[Readable.ints (cmdLineInts.new "ints".toList 'i')], [], []⟩ =
      (["extra".toList],
        ⟨[Readable.ints { set := true, name := "ints".toList, shortName := 'i',
                          values := [10, 20, 30], count := 3 }], [], []⟩) :=
  have h := cmdLineInts_read_success (cmdLineInts.new "ints".toList 'i') "3".toList
    ["10".toList, "20".toList, "30".toList] ["extra".toList] (by decide) (by decide)
  ⟨h.1, h.2.2 id false ⟨[Readable.ints (cmdLineInts.new "ints".toList 'i')], [], []⟩
    "ints".toList 0 (by decide) (by decide)⟩

/-- C8: when the first token of a non-empty slice parses to a count `N <= 0`,
or fewer than `N` tokens follow it, `cmdLineInts::read` and
`cmdLineStrings::read` return 1 and leave the stored elements and the set
flag as they were (only the stored count becomes `N`); on the empty slice
they return 0 and change nothing. -/
theorem counted_read_failure (di : cmdLineInts) (ds : cmdLineStrings) (a : CStr)
    (rest : List CStr) (h : atoi a ≤ 0 ∨ (rest.length : Int) < atoi a) :
    di.read (a :: rest) = ({ di with count := atoi a }, 1) ∧
      ds.read (a :: rest) = ({ ds with count := atoi a }, 1) ∧
      (di.read (a :: rest)).1.values = di.values ∧
      (di.read (a :: rest)).1.set = di.set ∧
      (ds.read (a :: rest)).1.values = ds.values ∧
      (ds.read (a :: rest)).1.set = ds.set ∧
      di.read [] = (di, 0) ∧ ds.read [] = (ds, 0) := by
  have h1 : atoi a ≤ 0 ∨ ((a :: rest).length : Int) ≤ atoi a := by
    simp only [List.length_cons, Nat.cast_add, Nat.cast_one]
    omega
  have e1 : di.read (a :: rest) = ({ di with count := atoi a }, 1) := by
    simp only [cmdLineInts.read, h1, if_true]
  have e2 : ds.read (a :: rest) = ({ ds with count := atoi a }, 1) := by
    simp only [cmdLineStrings.read, h1, if_true]
  refine ⟨e1, e2, ?_, ?_, ?_, ?_, rfl, rfl⟩ <;> simp [e1, e2]

/-- Instance of C8: the count 3 followed by two tokens only. -/
theorem counted_read_failure_witness :
    (cmdLineInts.new "ints".toList 'i').read ["3".toList, "10".toList, "20".toList] =
        ({ set := false, name := "ints".toList, shortName := 'i', values := [], count := 3 }, 1) ∧
      (cmdLineStrings.new "strs".toList 's').read ["3".toList, "10".toList, "20".toList] =
        ({ set := false, name := "strs".toList, shortName := 's', values := [], count := 3 }, 1) :=
  have h := counted_read_failure (cmdLineInts.new "ints".toList 'i')
    (cmdLineStrings.new "strs".toList 's') "3".toList ["10".toList, "20".toList] (by decide)
  ⟨h.1, h.2.1⟩

/-! ## Reading decimal numbers -/

theorem digitChar_isdigit (m : Nat) (h : m < 10) :
    isdigit (Nat.digitChar m) = true ∧ digitVal (Nat.digitChar m) = m := by
  interval_cases m <;> decide

theorem scanDigits_toDigitsCore (f n : Nat) (acc rest : CStr) (h : n < f) :
    scanDigits (Nat.toDigitsCore 10 f n acc ++ rest) 0 = scanDigits (acc ++ rest) n := by
  induction f generalizing n acc with
  | zero => omega
  | succ f ih =>
    have hd := digitChar_isdigit (n % 10) (Nat.mod_lt _ (by decide))
    simp only [Nat.toDigitsCore]
    split
    · next h0 =>
      simp only [List.cons_append, scanDigits, hd.1, if_true, hd.2]
      congr 1
      omega
    · next h0 =>
      rw [ih (n / 10) _ (by omega)]
      simp only [List.cons_append, scanDigits, hd.1, if_true, hd.2]
      congr 1
      omega

theorem toDigitsCore_head (f n : Nat) (acc : CStr)
    (h : ∃ c cs, acc = c :: cs ∧ isdigit c = true) :
    ∃ c cs, Nat.toDigitsCore 10 f n acc = c :: cs ∧ isdigit c = true := by
  induction f generalizing n acc with
  | zero => simpa [Nat.toDigitsCore] using h
  | succ f ih =>
    have hd := digitChar_isdigit (n % 10) (Nat.mod_lt _ (by decide))
    simp only [Nat.toDigitsCore]
    split
    · exact ⟨_, _, rfl, hd.1⟩
    · exact ih _ _ ⟨_, _, rfl, hd.1⟩

theorem toDigits_head (n : Nat) :
    ∃ c cs, Nat.toDigits 10 n = c :: cs ∧ isdigit c = true := by
  have hd := digitChar_isdigit (n % 10) (Nat.mod_lt _ (by decide))
  simp only [Nat.toDigits, Nat.toDigitsCore]
  split
  · exact ⟨_, _, rfl, hd.1⟩
  · exact toDigitsCore_head _ _ _ ⟨_, _, rfl, hd.1⟩

theorem scanDigits_stop (rest : CStr) (n : Nat) (h : NoDigitAhead rest) :
    scanDigits rest n = (n, rest) := by
  cases rest with
  | nil => rfl
  | cons c cs => simp [scanDigits, h c cs rfl]

theorem scanDigits_toDigits (n : Nat) (rest : CStr) (h : NoDigitAhead rest) :
    scanDigits (Nat.toDigits 10 n ++ rest) 0 = (n, rest) := by
  rw [Nat.toDigits, scanDigits_toDigitsCore _ _ _ _ (Nat.lt_succ_self n)]
  exact scanDigits_stop rest n h

theorem isdigit_not_special (c : Char) (h : isdigit c = true) :
    isspace c = false ∧ c ≠ '-' ∧ c ≠ '+' := by
  simp only [isdigit, Bool.and_eq_true, decide_eq_true_eq] at h
  refine ⟨?_, ?_, ?_⟩
  · simp only [isspace, Bool.or_eq_false_iff, decide_eq_false_iff_not]
    refine ⟨⟨⟨⟨⟨?_, ?_⟩, ?_⟩, ?_⟩, ?_⟩, ?_⟩ <;>
      · intro e
        subst e
        revert h
        decide
  · intro e
    subst e
    revert h
    decide
  · intro e
    subst e
    revert h
    decide

theorem toInt32_of_IsInt (a : Int) (h : IsInt a) : toInt32 a = a := by
  unfold IsInt INT_MIN INT_MAX at h
  unfold toInt32
  omega

theorem scanInt_digits (c : Char) (cs : CStr) (hd : isdigit c = true) :
    scanInt (c :: cs) =
      some (toInt32 ((scanDigits (c :: cs) 0).1 : Int), (scanDigits (c :: cs) 0).2) := by
  obtain ⟨hsp, hm, hp⟩ := isdigit_not_special c hd
  simp [scanInt, skipSpace, hsp, scanSign, hm, hp, hd]

theorem scanInt_minus_digits (c : Char) (cs : CStr) (hd : isdigit c = true) :
    scanInt ('-' :: c :: cs) =
      some (toInt32 (-((scanDigits (c :: cs) 0).1 : Int)), (scanDigits (c :: cs) 0).2) := by
  have hsp : isspace '-' = false := by decide
  simp [scanInt, skipSpace, hsp, scanSign, hd]

theorem scanInt_decimal (a : Int) (rest : CStr) (ha : IsInt a) (h : NoDigitAhead rest) :
    scanInt (decimal a ++ rest) = some (a, rest) := by
  obtain ⟨c, cs, hc, hdig⟩ := toDigits_head a.natAbs
  have hscan : scanDigits (c :: (cs ++ rest)) 0 = (a.natAbs, rest) := by
    have := scanDigits_toDigits a.natAbs rest h
    rwa [hc] at this
  unfold decimal
  split
  · next hneg =>
    rw [hc]
    show scanInt ('-' :: c :: (cs ++ rest)) = _
    rw [scanInt_minus_digits _ _ hdig, hscan]
    have e : -((a.natAbs : Nat) : Int) = a := by omega
    simp only [e, toInt32_of_IsInt a ha]
  · next hpos =>
    rw [hc]
    show scanInt (c :: (cs ++ rest)) = _
    rw [scanInt_digits _ _ hdig, hscan]
    have e : ((a.natAbs : Nat) : Int) = a := by omega
    simp only [e, toInt32_of_IsInt a ha]

theorem noDigitAhead_nil : NoDigitAhead [] := by
  intro c cs h
  cases h

theorem noDigitAhead_colon (s : CStr) : NoDigitAhead (':' :: s) := by
  intro c cs h
  simp only [List.cons.injEq] at h
  rw [← h.1]
  decide

/-! ## `cmdLineIntSequence::read` -/

theorem sscanf_three (a s e : Int) (ha : IsInt a) (hs : IsInt s) (he : IsInt e) :
    sscanf_d_d_d (decimal a ++ ':' :: (decimal s ++ ':' :: decimal e)) =
      ⟨3, some a, some s, some e⟩ := by
  have h3 : scanInt (decimal e) = some (e, []) := by
    simpa using scanInt_decimal e [] he noDigitAhead_nil
  simp [sscanf_d_d_d, scanInt_decimal a _ ha (noDigitAhead_colon _),
    scanInt_decimal s _ hs (noDigitAhead_colon _), h3]

theorem sscanf_two (a e : Int) (ha : IsInt a) (he : IsInt e) :
    sscanf_d_d_d (decimal a ++ ':' :: decimal e) = ⟨2, some a, some e, none⟩ ∧
      sscanf_d_d (decimal a ++ ':' :: decimal e) = ⟨2, some a, some e, none⟩ := by
  have h3 : scanInt (decimal e) = some (e, []) := by
    simpa using scanInt_decimal e [] he noDigitAhead_nil
  simp [sscanf_d_d_d, sscanf_d_d, scanInt_decimal a _ ha (noDigitAhead_colon _), h3]

theorem sscanf_one (a : Int) (ha : IsInt a) :
    sscanf_d_d_d (decimal a) = ⟨1, some a, none, none⟩ ∧
      sscanf_d_d (decimal a) = ⟨1, some a, none, none⟩ ∧
      sscanf_d (decimal a) = ⟨1, some a, none, none⟩ := by
  have h3 : scanInt (decimal a) = some (a, []) := by
    simpa using scanInt_decimal a [] ha noDigitAhead_nil
  simp [sscanf_d_d_d, sscanf_d_d, sscanf_d, h3]

/-- C9: with `reset()` leaving the set flag and the range alone, and `a`,
`s`, `e` values of type `int` written in decimal, `cmdLineIntSequence::read`
on a slice whose first token is `a:s:e` gives start `a`, increment `s` and
end `e`; on `a:e` start `a`, increment 1 and end `e`; on `a` start and end
`a` and increment 1; each time it marks the descriptor set and returns 1. -/
theorem cmdLineIntSequence_read_wellformed
    (reset : cmdLineIntSequence → cmdLineIntSequence) (hreset : KeepsRange reset)
    (d : cmdLineIntSequence) (a s e : Int) (more : List CStr)
    (ha : IsInt a) (hs : IsInt s) (he : IsInt e) :
    ((d.read reset ((decimal a ++ ':' :: (decimal s ++ ':' :: decimal e)) :: more)).2 = 1 ∧
      (d.read reset ((decimal a ++ ':' :: (decimal s ++ ':' :: decimal e)) :: more)).1.set
        = true ∧
      (d.read reset ((decimal a ++ ':' :: (decimal s ++ ':' :: decimal e)) :: more)).1.start
        = a ∧
      (d.read reset
        ((decimal a ++ ':' :: (decimal s ++ ':' :: decimal e)) :: more)).1.increment = s ∧
      (d.read reset ((decimal a ++ ':' :: (decimal s ++ ':' :: decimal e)) :: more)).1.end_
        = e) ∧
    ((d.read reset ((decimal a ++ ':' :: decimal e) :: more)).2 = 1 ∧
      (d.read reset ((decimal a ++ ':' :: decimal e) :: more)).1.set = true ∧
      (d.read reset ((decimal a ++ ':' :: decimal e) :: more)).1.start = a ∧
      (d.read reset ((decimal a ++ ':' :: decimal e) :: more)).1.increment = 1 ∧
      (d.read reset ((decimal a ++ ':' :: decimal e) :: more)).1.end_ = e) ∧
    ((d.read reset (decimal a :: more)).2 = 1 ∧
      (d.read reset (decimal a :: more)).1.set = true ∧
      (d.read reset (decimal a :: more)).1.start = a ∧
      (d.read reset (decimal a :: more)).1.increment = 1 ∧
      (d.read reset (decimal a :: more)).1.end_ = a) := by
  have h3 := sscanf_three a s e ha hs he
  have h2 := sscanf_two a e ha he
  have h1 := sscanf_one a ha
  refine ⟨?_, ?_, ?_⟩
  · simp only [cmdLineIntSequence.read, h3]
    simp [assign, (hreset _).1, (hreset _).2.1, (hreset _).2.2.1, (hreset _).2.2.2]
  · simp only [cmdLineIntSequence.read, h2.1, h2.2]
    simp [assign, (hreset _).1, (hreset _).2.1, (hreset _).2.2.1, (hreset _).2.2.2]
  · simp only [cmdLineIntSequence.read, h1.1, h1.2.1, h1.2.2]
    simp [assign, (hreset _).1, (hreset _).2.1, (hreset _).2.2.1, (hreset _).2.2.2]

/-- Instance of C9: the tokens `2:3:10`, `2:10` and `5`. -/
theorem cmdLineIntSequence_read_wellformed_witness :
    (((cmdLineIntSequence.new "seq".toList 0 's').read id ["2:3:10".toList]).2 = 1 ∧
      ((cmdLineIntSequence.new "seq".toList 0 's').read id ["2:3:10".toList]).1.set = true ∧
      ((cmdLineIntSequence.new "seq".toList 0 's').read id ["2:3:10".toList]).1.start = 2 ∧
      ((cmdLineIntSequence.new "seq".toList 0 's').read id ["2:3:10".toList]).1.increment = 3 ∧
      ((cmdLineIntSequence.new "seq".toList 0 's').read id ["2:3:10".toList]).1.end_ = 10) ∧
    (((cmdLineIntSequence.new "seq".toList 0 's').read id ["2:10".toList]).2 = 1 ∧
      ((cmdLineIntSequence.new "seq".toList 0 's').read id ["2:10".toList]).1.set = true ∧
      ((cmdLineIntSequence.new "seq".toList 0 's').read id ["2:10".toList]).1.start = 2 ∧
      ((cmdLineIntSequence.new "seq".toList 0 's').read id ["2:10".toList]).1.increment = 1 ∧
      ((cmdLineIntSequence.new "seq".toList 0 's').read id ["2:10".toList]).1.end_ = 10) ∧
    (((cmdLineIntSequence.new "seq".toList 0 's').read id ["5".toList]).2 = 1 ∧
      ((cmdLineIntSequence.new "seq".toList 0 's').read id ["5".toList]).1.set = true ∧
      ((cmdLineIntSequence.new "seq".toList 0 's').read id ["5".toList]).1.start = 5 ∧
      ((cmdLineIntSequence.new "seq".toList 0 's').read id ["5".toList]).1.increment = 1 ∧
      ((cmdLineIntSequence.new "seq".toList 0 's').read id ["5".toList]).1.end_ = 5) :=
  ⟨(cmdLineIntSequence_read_wellformed id (fun _ => ⟨rfl, rfl, rfl, rfl⟩)
      (cmdLineIntSequence.new "seq".toList 0 's') 2 3 10 []
      (by decide) (by decide) (by decide)).1,
    (cmdLineIntSequence_read_wellformed id (fun _ => ⟨rfl, rfl, rfl, rfl⟩)
      (cmdLineIntSequence.new "seq".toList 0 's') 2 3 10 []
      (by decide) (by decide) (by decide)).2.1,
    (cmdLineIntSequence_read_wellformed id (fun _ => ⟨rfl, rfl, rfl, rfl⟩)
      (cmdLineIntSequence.new "seq".toList 0 's') 5 3 10 []
      (by decide) (by decide) (by decide)).2.2⟩

/-- C10, what the code does: with `reset()` leaving the set flag and the
range alone, on a token that does not begin with an integer
`cmdLineIntSequence::read` returns 1 and leaves the descriptor unset with
increment 1, but its end is the start it had before the call (not the
constructed default), and its start is the content of `value`. -/
theorem cmdLineIntSequence_read_malformed
    (reset : cmdLineIntSequence → cmdLineIntSequence) (hreset : KeepsRange reset)
    (d : cmdLineIntSequence) (tok : CStr) (more : List CStr) (htok : scanInt tok = none) :
    (d.read reset (tok :: more)).2 = 1 ∧
      (d.read reset (tok :: more)).1.set = false ∧
      (d.read reset (tok :: more)).1.increment = 1 ∧
      (d.read reset (tok :: more)).1.end_ = d.start ∧
      (d.read reset (tok :: more)).1.start = d.value := by
  have hf3 : scanFailure tok ≠ 3 := by unfold scanFailure; split <;> decide
  have hf2 : scanFailure tok ≠ 2 := by unfold scanFailure; split <;> decide
  have hf1 : scanFailure tok ≠ 1 := by unfold scanFailure; split <;> decide
  simp only [cmdLineIntSequence.read, sscanf_d_d_d, sscanf_d_d, sscanf_d, htok]
  simp [assign, hf3, hf2, hf1, (hreset _).1, (hreset _).2.1, (hreset _).2.2.1,
    (hreset _).2.2.2]

/-- C10 at the failing input: a descriptor constructed with default 0 reads
`2:3:10` and then `abc`; it ends unset with increment 1 and start 0 but with
end 2. -/
theorem cmdLineIntSequence_read_malformed_witness :
    (((cmdLineIntSequence.new "seq".toList 0 's').read id ["2:3:10".toList]).1.read id
        ["abc".toList]).2 = 1 ∧
      (((cmdLineIntSequence.new "seq".toList 0 's').read id ["2:3:10".toList]).1.read id
        ["abc".toList]).1.set = false ∧
      (((cmdLineIntSequence.new "seq".toList 0 's').read id ["2:3:10".toList]).1.read id
        ["abc".toList]).1.increment = 1 ∧
      (((cmdLineIntSequence.new "seq".toList 0 's').read id ["2:3:10".toList]).1.read id
        ["abc".toList]).1.end_ = 2 ∧
      (((cmdLineIntSequence.new "seq".toList 0 's').read id ["2:3:10".toList]).1.read id
        ["abc".toList]).1.start = 0 :=
  cmdLineIntSequence_read_malformed id (fun _ => ⟨rfl, rfl, rfl, rfl⟩)
    ((cmdLineIntSequence.new "seq".toList 0 's').read id ["2:3:10".toList]).1
    "abc".toList [] (by decide)

/-! ## Two passes: stripping, then collecting -/

theorem startsWith_append (p r : CStr) : startsWith p (p ++ r) = true := by
  induction p with
  | nil => rfl
  | cons a p ih => simp [startsWith, ih]

theorem startsWith_length (p t : CStr) (h : startsWith p t = true) : p.length ≤ t.length := by
  induction p generalizing t with
  | nil => simp
  | cons a p ih =>
    cases t with
    | nil => simp [startsWith] at h
    | cons b t =>
      simp only [startsWith, Bool.and_eq_true] at h
      have := ih t h.2
      simp only [List.length_cons]
      omega

theorem occursIn_of_startsWith (p t : CStr) (h : startsWith p t = true) :
    occursIn p t = true := by
  cases t with
  | nil => simpa [occursIn] using h
  | cons c cs => simp [occursIn, h]

theorem occursIn_append_left (p l u : CStr) (h : occursIn p u = true) :
    occursIn p (l ++ u) = true := by
  induction l with
  | nil => simpa using h
  | cons c l ih => simp [occursIn, ih]

theorem occursIn_short (p t : CStr) (h : t.length < p.length) : occursIn p t = false := by
  induction t with
  | nil =>
    cases hs : startsWith p [] with
    | false => simpa [occursIn] using hs
    | true =>
      have := startsWith_length p [] hs
      omega
  | cons c cs ih =>
    have h1 : startsWith p (c :: cs) = false := by
      cases hs : startsWith p (c :: cs) with
      | false => rfl
      | true =>
        have := startsWith_length p (c :: cs) hs
        omega
    have h2 := ih (by simp only [List.length_cons] at h; omega)
    simp [occursIn, h1, h2]

theorem findEq_some_eq (body v : CStr) (h : (findEq body).2 = some v) :
    body = (findEq body).1 ++ '=' :: v := by
  induction body with
  | nil => simp [findEq] at h
  | cons c cs ih =>
    unfold findEq at h ⊢
    split
    · next hc =>
      simp only [hc, if_true, Option.some.injEq] at h
      subst h
      simp [hc]
    · next hc =>
      simp only [hc, if_false] at h
      have := ih h
      simp only [List.cons_append, List.cons.injEq, true_and]
      exact this

theorem NoEqForm_suffix (ns : List CStr) (l u : CStr) (h : NoEqForm ns (l ++ u)) :
    NoEqForm ns u := by
  intro n hn
  cases hu : occursIn (eqForm n) u with
  | false => rfl
  | true =>
    have := occursIn_append_left (eqForm n) l u hu
    rw [h n hn] at this
    exact absurd this (by decide)

theorem NoEqForm_two (ns : List CStr) (c : Char) : NoEqForm ns ['-', c] := by
  intro n _
  apply occursIn_short
  simp [eqForm]

theorem NoEqForm_name (ns : List CStr) (body v : CStr)
    (h : NoEqForm ns ('-' :: '-' :: body)) (hv : (findEq body).2 = some v) :
    (findEq body).1 ∉ ns := by
  intro hn
  have hb := findEq_some_eq body v hv
  have : '-' :: '-' :: body = eqForm (findEq body).1 ++ v := by
    conv => lhs; rw [hb]
    simp [eqForm]
  have ho := occursIn_of_startsWith _ _ (startsWith_append (eqForm (findEq body).1) v)
  rw [← this, h _ hn] at ho
  exact absurd ho (by decide)

theorem getReadableByLongName_some (params : List Readable) (n : CStr) (j : Nat)
    (d : Readable) (h : getReadableByLongName params n = some (j, d)) :
    params[j]? = some d ∧ d.name = n := by
  induction params generalizing j with
  | nil => simp [getReadableByLongName] at h
  | cons p ps ih =>
    unfold getReadableByLongName at h
    split at h
    · next hp =>
      simp only [Option.some.injEq, Prod.mk.injEq] at h
      obtain ⟨rfl, rfl⟩ := h
      exact ⟨by simp, hp.symm⟩
    · cases hq : getReadableByLongName ps n with
      | none => simp [hq] at h
      | some r =>
        obtain ⟨k, e⟩ := r
        simp only [hq, Option.map_some', Option.some.injEq, Prod.mk.injEq] at h
        obtain ⟨rfl, rfl⟩ := h
        simpa using ih k hq

theorem getReadableByLongName_append_some (ps qs : List Readable) (n : CStr) (r : Nat × Readable)
    (h : getReadableByLongName ps n = some r) :
    getReadableByLongName (ps ++ qs) n = some r := by
  induction ps generalizing r with
  | nil => simp [getReadableByLongName] at h
  | cons p ps ih =>
    simp only [List.cons_append]
    unfold getReadableByLongName at h ⊢
    split
    · next hp => simpa [hp] using h
    · next hp =>
      simp only [hp, if_false] at h
      cases hq : getReadableByLongName ps n with
      | none => simp [hq] at h
      | some r1 =>
        rw [ih r1 hq]
        simpa [hq] using h

theorem getReadableByLongName_append_none (ps qs : List Readable) (n : CStr)
    (h : getReadableByLongName ps n = none) :
    getReadableByLongName (ps ++ qs) n =
      (getReadableByLongName qs n).map (fun r => (r.1 + ps.length, r.2)) := by
  induction ps with
  | nil => simp
  | cons p ps ih =>
    simp only [List.cons_append, getReadableByLongName] at h ⊢
    split
    · next hp => simp [hp] at h
    · next hp =>
      simp only [hp, if_false, Option.map_eq_none'] at h
      have e : ps.append qs = ps ++ qs := rfl
      rw [e, ih h]
      cases getReadableByLongName qs n <;> simp [Nat.add_assoc]

theorem getReadableByShortName_append_some (ps qs : List Readable) (c : Char)
    (r : Nat × Readable) (h : getReadableByShortName ps c = some r) :
    getReadableByShortName (ps ++ qs) c = some r := by
  induction ps generalizing r with
  | nil => simp [getReadableByShortName] at h
  | cons p ps ih =>
    simp only [List.cons_append]
    unfold getReadableByShortName at h ⊢
    split
    · next hp => simpa [hp] using h
    · next hp =>
      simp only [hp, if_false] at h
      cases hq : getReadableByShortName ps c with
      | none => simp [hq] at h
      | some r1 =>
        rw [ih r1 hq]
        simpa [hq] using h

theorem getReadableByShortName_append_none (ps qs : List Readable) (c : Char)
    (h : getReadableByShortName ps c = none) :
    getReadableByShortName (ps ++ qs) c =
      (getReadableByShortName qs c).map (fun r => (r.1 + ps.length, r.2)) := by
  induction ps with
  | nil => simp
  | cons p ps ih =>
    simp only [List.cons_append, getReadableByShortName] at h ⊢
    split
    · next hp => simp [hp] at h
    · next hp =>
      simp only [hp, if_false, Option.map_eq_none'] at h
      have e : ps.append qs = ps ++ qs := rfl
      rw [e, ih h]
      cases getReadableByShortName qs c <;> simp [Nat.add_assoc]

theorem FlagRegistry_set (ns : List CStr) (ps : List Readable) (j : Nat) (d : Readable)
    (h : FlagRegistry ns ps) (hd : d ∈ ps) : FlagRegistry ns (ps.set j d.markSet) := by
  intro e he
  rcases List.mem_or_eq_of_mem_set he with hm | rfl
  · exact h e hm
  · rw [markSet_name, markSet_expectsArg]
    exact h d hd

theorem FlagRegistry_markShort (ns : List CStr) (cs : List Char) (ps : List Readable)
    (h : FlagRegistry ns ps) : FlagRegistry ns (markShort cs ps) := by
  intro d hd
  obtain ⟨k, hk⟩ := List.getElem?_of_mem hd
  rw [markShort_getElem?] at hk
  cases he : ps[k]? with
  | none => simp [he] at hk
  | some e =>
    simp only [he, Option.map_some', Option.some.injEq] at hk
    have hmem := List.getElem?_mem he
    rw [← hk]
    split
    · rw [markSet_name, markSet_expectsArg]
      exact h e hmem
    · exact h e hmem

/-- One iteration of a collecting pass over a registry of flags, on a token
that is not the `=` form of one of them: the token is collected if it is
plain, and the cursor moves to the next token. -/
theorem parseStep_collect_flags (reset : cmdLineIntSequence → cmdLineIntSequence)
    (ns : List CStr) (Rx : List Readable) (N X : List CStr) (t : CStr) (rest : List CStr)
    (hreg : FlagRegistry ns Rx) (hform : NoEqForm ns t) :
    ∃ Rx1, parseStep reset false t rest ⟨Rx, N, X⟩ =
        (rest, ⟨Rx1, N ++ (if isPlain t then [t] else []), X⟩) ∧
      FlagRegistry ns Rx1 := by
  cases t with
  | nil => exact ⟨Rx, by simp [parseStep, isPlain], hreg⟩
  | cons c0 t1 =>
    by_cases h0 : c0 = '-'
    · subst h0
      cases t1 with
      | nil => exact ⟨Rx, by simp [parseStep, parseShort, isPlain], hreg⟩
      | cons c1 body =>
        by_cases h1 : c1 = '-'
        · subst h1
          cases hl : getReadableByLongName Rx (findEq body).1 with
          | none =>
            exact ⟨Rx, by cases he : (findEq body).2 <;>
              simp [parseStep, parseLong, hl, he, isPlain], hreg⟩
          | some r =>
            obtain ⟨i, d⟩ := r
            obtain ⟨hget, hname⟩ := getReadableByLongName_some Rx _ i d hl
            have hmem : d ∈ Rx := List.getElem?_mem hget
            have hflag := (hreg d hmem).2
            cases he : (findEq body).2 with
            | some v =>
              exfalso
              apply NoEqForm_name ns body v hform he
              rw [← hname]
              exact (hreg d hmem).1
            | none =>
              exact ⟨Rx.set i d.markSet,
                by simp [parseStep, parseLong, hl, he, hflag, isPlain],
                FlagRegistry_set ns Rx i d hreg hmem⟩
        · have hcs : ∀ x ∈ c1 :: body, ∀ j d,
              getReadableByShortName Rx x = some (j, d) → d.expectsArg = false := by
            intro x _ j d hq
            exact (hreg d (List.getElem?_mem (getReadableByShortName_some Rx x j d hq).1)).2
          refine ⟨markShort (c1 :: body) Rx, ?_, FlagRegistry_markShort ns _ Rx hreg⟩
          rw [parseStep_flags reset false ⟨Rx, N, X⟩ (c1 :: body) rest hcs (by simpa using h1)]
          simp [isPlain]
    · exact ⟨Rx, by simp [parseStep, isPlain, h0], hreg⟩

/-- A collecting pass over a registry of flags, on tokens none of which is
the `=` form of one of them, collects exactly the plain tokens. -/
theorem run_collect_flags (reset : cmdLineIntSequence → cmdLineIntSequence)
    (ns : List CStr) (T : List CStr) (hT : ∀ t ∈ T, NoEqForm ns t) (Rx : List Readable)
    (N X : List CStr) (hreg : FlagRegistry ns Rx) :
    ∃ Rx1, run reset false T ⟨Rx, N, X⟩ = some ⟨Rx1, N ++ T.filter isPlain, X⟩ ∧
      FlagRegistry ns Rx1 := by
  induction T generalizing Rx N with
  | nil => exact ⟨Rx, by simp [run_nil], hreg⟩
  | cons t T ih =>
    obtain ⟨Rx1, hstep, hreg1⟩ :=
      parseStep_collect_flags reset ns Rx N X t T hreg (hT t (List.mem_cons_self _ _))
    obtain ⟨Rx2, hrun, hreg2⟩ :=
      ih (fun u hu => hT u (List.mem_cons_of_mem _ hu)) Rx1
        (N ++ (if isPlain t then [t] else [])) hreg1
    refine ⟨Rx2, ?_, hreg2⟩
    rw [run_cons, hstep]
    simp only
    rw [hrun]
    cases hp : isPlain t <;> simp [List.filter_cons, hp]

/-- The inner loop of a short cluster, run when stripping with the registry
`Rt` and when collecting with `Rt ++ Rx`, `Rx` holding flags only: the cursor
and the `Rt` part end the same, and the stripping run emits only tokens
`-c`. -/
theorem parseShort_two_pass (reset : cmdLineIntSequence → cmdLineIntSequence)
    (ns : List CStr) (N N1 X : List CStr) (rest : List CStr) (cs : CStr)
    (Rt Rx : List Readable) (S : List CStr) (hreg : FlagRegistry ns Rx) :
    ∃ T Rt1 Rx1 argv1,
      parseShort reset true cs rest ⟨Rt, N1, S⟩ = (argv1, ⟨Rt1, N1, S ++ T⟩) ∧
      parseShort reset false cs rest ⟨Rt ++ Rx, N, X⟩ = (argv1, ⟨Rt1 ++ Rx1, N, X⟩) ∧
      FlagRegistry ns Rx1 ∧ (∀ t ∈ T, ∃ c, t = ['-', c]) ∧
      (∀ u ∈ argv1, u ∈ rest ∨ ∃ l, cs = l ++ u) := by
  induction cs generalizing Rt Rx S with
  | nil =>
    exact ⟨[], Rt, Rx, rest, by simp [parseShort], by simp [parseShort], hreg, by simp,
      fun u hu => Or.inl hu⟩
  | cons c cs ih =>
    cases hl : getReadableByShortName Rt c with
    | some r =>
      obtain ⟨i, d⟩ := r
      have happ := getReadableByShortName_append_some Rt Rx c _ hl
      have hi : i < Rt.length :=
        (List.getElem?_eq_some.1 (getReadableByShortName_some Rt c i d hl).1).1
      cases hexp : d.expectsArg with
      | true =>
        refine ⟨[], Rt.set i (d.read reset (if cs ≠ [] then cs :: rest else rest)).1, Rx,
          (if cs ≠ [] then cs :: rest else rest).drop
            (d.read reset (if cs ≠ [] then cs :: rest else rest)).2.toNat,
          by simp [parseShort, hl, hexp],
          by simp [parseShort, happ, hexp, List.set_append_left _ _ hi],
          hreg, by simp, ?_⟩
        intro u hu
        have hu1 := List.mem_of_mem_drop hu
        split at hu1
        · rcases List.mem_cons.1 hu1 with rfl | h
          · exact Or.inr ⟨[c], rfl⟩
          · exact Or.inl h
        · exact Or.inl hu1
      | false =>
        obtain ⟨T, Rt1, Rx1, argv1, h1, h2, h3, h4, h5⟩ := ih (Rt.set i d.markSet) Rx S hreg
        refine ⟨T, Rt1, Rx1, argv1, ?_, ?_, h3, h4, ?_⟩
        · rw [parseShort, hl]
          simpa [hexp] using h1
        · rw [parseShort, happ]
          simpa [hexp, List.set_append_left _ _ hi] using h2
        · intro u hu
          rcases h5 u hu with h | ⟨l, rfl⟩
          · exact Or.inl h
          · exact Or.inr ⟨c :: l, rfl⟩
    | none =>
      have happ := getReadableByShortName_append_none Rt Rx c hl
      cases hx : getReadableByShortName Rx c with
      | none =>
        obtain ⟨T, Rt1, Rx1, argv1, h1, h2, h3, h4, h5⟩ := ih Rt Rx (S ++ [['-', c]]) hreg
        refine ⟨['-', c] :: T, Rt1, Rx1, argv1, ?_, ?_, h3, ?_, ?_⟩
        · rw [parseShort, hl]
          simpa using h1
        · rw [parseShort, happ, hx]
          simpa using h2
        · intro t ht
          rcases List.mem_cons.1 ht with rfl | h
          · exact ⟨c, rfl⟩
          · exact h4 t h
        · intro u hu
          rcases h5 u hu with h | ⟨l, rfl⟩
          · exact Or.inl h
          · exact Or.inr ⟨c :: l, rfl⟩
      | some r =>
        obtain ⟨j, d⟩ := r
        have hmem : d ∈ Rx := List.getElem?_mem (getReadableByShortName_some Rx c j d hx).1
        have hflag := (hreg d hmem).2
        obtain ⟨T, Rt1, Rx1, argv1, h1, h2, h3, h4, h5⟩ :=
          ih Rt (Rx.set j d.markSet) (S ++ [['-', c]]) (FlagRegistry_set ns Rx j d hreg hmem)
        refine ⟨['-', c] :: T, Rt1, Rx1, argv1, ?_, ?_, h3, ?_, ?_⟩
        · rw [parseShort, hl]
          simpa using h1
        · rw [parseShort, happ, hx]
          simpa [hflag, List.set_append_right] using h2
        · intro t ht
          rcases List.mem_cons.1 ht with rfl | h
          · exact ⟨c, rfl⟩
          · exact h4 t h
        · intro u hu
          rcases h5 u hu with h | ⟨l, rfl⟩
          · exact Or.inl h
          · exact Or.inr ⟨c :: l, rfl⟩

theorem filter_isPlain_dash (T : List CStr) (h : ∀ t ∈ T, ∃ c, t = ['-', c]) :
    T.filter isPlain = [] := by
  rw [List.filter_eq_nil_iff]
  intro t ht
  obtain ⟨c, rfl⟩ := h t ht
  simp [isPlain]

/-- One iteration of the scan, run when stripping with the registry `Rt` and
when collecting with `Rt ++ Rx`, `Rx` holding flags only, on a token that is
not the `=` form of one of them: the cursor and the `Rt` part end the same,
and the collecting run collects exactly the plain tokens that the stripping
run emits. -/
theorem parseStep_two_pass (reset : cmdLineIntSequence → cmdLineIntSequence)
    (ns : List CStr) (N N1 X S : List CStr) (Rt Rx : List Readable) (tok : CStr)
    (rest : List CStr) (hreg : FlagRegistry ns Rx) (hform : NoEqForm ns tok) :
    ∃ T Rt1 Rx1 argv1,
      parseStep reset true tok rest ⟨Rt, N1, S⟩ = (argv1, ⟨Rt1, N1, S ++ T⟩) ∧
      parseStep reset false tok rest ⟨Rt ++ Rx, N, X⟩ =
        (argv1, ⟨Rt1 ++ Rx1, N ++ T.filter isPlain, X⟩) ∧
      FlagRegistry ns Rx1 ∧ (∀ t ∈ T, NoEqForm ns t) ∧
      (∀ u ∈ argv1, u ∈ rest ∨ ∃ l, tok = l ++ u) := by
  have hplain : ∀ t : CStr, isPlain t = true → NoEqForm ns t →
      (parseStep reset true t rest ⟨Rt, N1, S⟩ = (rest, ⟨Rt, N1, S ++ [t]⟩) →
       parseStep reset false t rest ⟨Rt ++ Rx, N, X⟩ = (rest, ⟨Rt ++ Rx, N ++ [t], X⟩) →
       ∃ T Rt1 Rx1 argv1,
        parseStep reset true t rest ⟨Rt, N1, S⟩ = (argv1, ⟨Rt1, N1, S ++ T⟩) ∧
        parseStep reset false t rest ⟨Rt ++ Rx, N, X⟩ =
          (argv1, ⟨Rt1 ++ Rx1, N ++ T.filter isPlain, X⟩) ∧
        FlagRegistry ns Rx1 ∧ (∀ u ∈ T, NoEqForm ns u) ∧
        (∀ u ∈ argv1, u ∈ rest ∨ ∃ l, t = l ++ u)) := by
    intro t hp hf e1 e2
    refine ⟨[t], Rt, Rx, rest, e1, ?_, hreg, ?_, fun u hu => Or.inl hu⟩
    · rw [e2]
      simp [List.filter_cons, hp]
    · intro u hu
      rw [List.mem_singleton.1 hu]
      exact hf
  cases tok with
  | nil =>
    exact hplain [] (by decide) hform (by simp [parseStep]) (by simp [parseStep])
  | cons c0 t1 =>
    by_cases h0 : c0 = '-'
    · subst h0
      cases t1 with
      | nil =>
        exact ⟨[], Rt, Rx, rest, by simp [parseStep, parseShort],
          by simp [parseStep, parseShort], hreg, by simp, fun u hu => Or.inl hu⟩
      | cons c1 body =>
        by_cases h1 : c1 = '-'
        · subst h1
          have hargv : ∀ u ∈ (match (findEq body).2 with
              | some v => v :: rest
              | none => rest), u ∈ rest ∨ ∃ l, '-' :: '-' :: body = l ++ u := by
            intro u hu
            cases he : (findEq body).2 with
            | none =>
              rw [he] at hu
              exact Or.inl hu
            | some v =>
              rw [he] at hu
              rcases List.mem_cons.1 hu with rfl | h
              · refine Or.inr ⟨'-' :: '-' :: ((findEq body).1 ++ ['=']), ?_⟩
                conv => lhs; rw [findEq_some_eq body u he]
                simp
              · exact Or.inl h
          cases hl : getReadableByLongName Rt (findEq body).1 with
          | some r =>
            obtain ⟨i, d⟩ := r
            have happ := getReadableByLongName_append_some Rt Rx _ _ hl
            have hi : i < Rt.length :=
              (List.getElem?_eq_some.1 (getReadableByLongName_some Rt _ i d hl).1).1
            cases hexp : d.expectsArg with
            | true =>
              refine ⟨[], _, Rx, _,
                by simp only [parseStep, parseLong, hl, hexp, if_true, List.append_nil]; rfl,
                by simp only [parseStep, parseLong, happ, hexp, if_true,
                    List.set_append_left _ _ hi, List.filter_nil, List.append_nil],
                hreg, by simp, ?_⟩
              intro u hu
              exact hargv u (List.mem_of_mem_drop hu)
            | false =>
              cases he : (findEq body).2 with
              | some v =>
                refine ⟨[], Rt, Rx, v :: rest,
                  by simp [parseStep, parseLong, hl, hexp, he],
                  by simp [parseStep, parseLong, happ, hexp, he],
                  hreg, by simp, ?_⟩
                intro u hu
                have := hargv u
                rw [he] at this
                exact this hu
              | none =>
                refine ⟨[], Rt.set i d.markSet, Rx, rest,
                  by simp [parseStep, parseLong, hl, hexp, he],
                  by simp [parseStep, parseLong, happ, hexp, he, List.set_append_left _ _ hi],
                  hreg, by simp, fun u hu => Or.inl hu⟩
          | none =>
            have happ := getReadableByLongName_append_none Rt Rx (findEq body).1 hl
            have hnp : isPlain ('-' :: '-' :: body) = false := by simp [isPlain]
            have hT : ∀ t ∈ ['-' :: '-' :: body], NoEqForm ns t := by
              intro t ht
              rw [List.mem_singleton.1 ht]
              exact hform
            cases hx : getReadableByLongName Rx (findEq body).1 with
            | none =>
              refine ⟨['-' :: '-' :: body], Rt, Rx, rest,
                by cases he : (findEq body).2 <;> simp [parseStep, parseLong, hl, he],
                by cases he : (findEq body).2 <;>
                  simp [parseStep, parseLong, happ, hx, he, List.filter_cons, hnp],
                hreg, hT, fun u hu => Or.inl hu⟩
            | some r =>
              obtain ⟨j, d⟩ := r
              obtain ⟨hget, hname⟩ := getReadableByLongName_some Rx _ j d hx
              have hmem : d ∈ Rx := List.getElem?_mem hget
              have hflag := (hreg d hmem).2
              cases he : (findEq body).2 with
              | some v =>
                exfalso
                apply NoEqForm_name ns body v hform he
                rw [← hname]
                exact (hreg d hmem).1
              | none =>
                refine ⟨['-' :: '-' :: body], Rt, Rx.set j d.markSet, rest,
                  by simp [parseStep, parseLong, hl, he],
                  by simp [parseStep, parseLong, happ, hx, he, hflag, List.filter_cons, hnp,
                    List.set_append_right],
                  FlagRegistry_set ns Rx j d hreg hmem, hT, fun u hu => Or.inl hu⟩
        · obtain ⟨T, Rt1, Rx1, argv1, e1, e2, h3, h4, h5⟩ :=
            parseShort_two_pass reset ns N N1 X rest (c1 :: body) Rt Rx S hreg
          refine ⟨T, Rt1, Rx1, argv1, by simpa [parseStep, h1] using e1, ?_, h3, ?_, ?_⟩
          · rw [filter_isPlain_dash T h4]
            simpa [parseStep, h1] using e2
          · intro t ht
            obtain ⟨c, rfl⟩ := h4 t ht
            exact NoEqForm_two ns c
          · intro u hu
            rcases h5 u hu with h | ⟨l, hl⟩
            · exact Or.inl h
            · exact Or.inr ⟨'-' :: l, by rw [hl]; rfl⟩
    · exact hplain (c0 :: t1) (by simp [isPlain, h0]) hform
        (by simp [parseStep, h0]) (by simp [parseStep, h0])

/-- The whole loop, run when stripping with `Rt` and when collecting with
`Rt ++ Rx`: the collecting run collects exactly the plain tokens of what the
stripping run emits. -/
theorem run_two_pass (reset : cmdLineIntSequence → cmdLineIntSequence) (ns : List CStr)
    (N1 X : List CStr) (n : Nat) :
    ∀ (argv : List CStr), scanFuel argv = n → (∀ u ∈ argv, NoEqForm ns u) →
    ∀ (Rt Rx : List Readable) (S N : List CStr), FlagRegistry ns Rx →
    ∃ T Rt1 Rx1,
      run reset true argv ⟨Rt, N1, S⟩ = some ⟨Rt1, N1, S ++ T⟩ ∧
      run reset false argv ⟨Rt ++ Rx, N, X⟩ = some ⟨Rt1 ++ Rx1, N ++ T.filter isPlain, X⟩ ∧
      (∀ t ∈ T, NoEqForm ns t) := by
  induction n using Nat.strong_induction_on with
  | _ n ih =>
    intro argv hn hform Rt Rx S N hreg
    cases argv with
    | nil => exact ⟨[], Rt, Rx, by simp [run_nil], by simp [run_nil], by simp⟩
    | cons tok rest =>
      obtain ⟨T, Rt1, Rx1, argv1, e1, e2, h3, h4, h5⟩ :=
        parseStep_two_pass reset ns N N1 X S Rt Rx tok rest hreg
          (hform tok (List.mem_cons_self _ _))
      have hlt := parseStep_fuel reset true tok rest ⟨Rt, N1, S⟩
      rw [e1] at hlt
      have hform1 : ∀ u ∈ argv1, NoEqForm ns u := by
        intro u hu
        rcases h5 u hu with h | ⟨l, hl⟩
        · exact hform u (List.mem_cons_of_mem _ h)
        · exact NoEqForm_suffix ns l u (hl ▸ hform tok (List.mem_cons_self _ _))
      obtain ⟨T2, Rt2, Rx2, r1, r2, r3⟩ :=
        ih (scanFuel argv1) (by simp only at hlt; omega) argv1 rfl hform1 Rt1 Rx1 (S ++ T)
          (N ++ T.filter isPlain) h3
      refine ⟨T ++ T2, Rt2, Rx2, ?_, ?_, ?_⟩
      · rw [run_cons, e1]
        simp only
        rw [r1]
        simp
      · rw [run_cons, e2]
        simp only
        rw [r2]
        simp
      · intro t ht
        rcases List.mem_append.1 ht with h | h
        · exact h4 t h
        · exact r3 t h

/-- C3, as stated, fails: with the flag `x` in `R` and the Int option `n` in
`R'`, on `prog --n -x p` the stripping pass consumes `-x` and leaves
`prog --n p`, whose collecting pass gives `p` to `n` and collects nothing,
while the single pass gives `-x` to `n` and collects `p`. -/
theorem two_pass_counterexample :
    cmdLineParse id true ["prog".toList, "--n".toList, "-x".toList, "p".toList]
        [Readable.flag (cmdLineReadable.new "x".toList 'x')] [] =
      some ⟨[Readable.flag { set := true, name := "x".toList, shortName := 'x' }], [],
            ["prog".toList, "--n".toList, "p".toList]⟩ ∧
    (cmdLineParse id false ["prog".toList, "--n".toList, "p".toList]
        [Readable.int (cmdLineInt.new "n".toList 0 'n')] []).map ParseState.nonoptArgs =
      some [] ∧
    (cmdLineParse id false ["prog".toList, "--n".toList, "-x".toList, "p".toList]
        ([Readable.flag (cmdLineReadable.new "x".toList 'x')] ++
          [Readable.int (cmdLineInt.new "n".toList 0 'n')]) []).map ParseState.nonoptArgs =
      some ["p".toList] := by
  decide

/-- The two passes with flags only in the second registry: when `R'` holds
only no-argument flags and no token of `V[1..]` contains the text `--f=` for
a long name `f` of `R'`, the stripping pass of `V` with `R`, the collecting
pass of its stripped output with `R'`, and the single collecting pass of `V`
with `R` followed by `R'` all end normally, and the two-pass run yields the
same non-option argument sequence as the single pass. -/
theorem strip_then_collect_flags (reset : cmdLineIntSequence → cmdLineIntSequence)
    (R R' : List Readable) (path : CStr) (rest : List CStr) (nonopt0 nonoptArgs : List CStr)
    (hflags : AllFlags R')
    (hform : ∀ t ∈ rest, NoEqForm (R'.map Readable.name) t) :
    ∃ s1 s2 s3,
      cmdLineParse reset true (path :: rest) R nonopt0 = some s1 ∧
      cmdLineParse reset false s1.strippedArgs R' nonoptArgs = some s2 ∧
      cmdLineParse reset false (path :: rest) (R ++ R') nonoptArgs = some s3 ∧
      s2.nonoptArgs = s3.nonoptArgs := by
  have hreg : FlagRegistry (R'.map Readable.name) R' :=
    fun d hd => ⟨List.mem_map_of_mem _ hd, hflags d hd⟩
  obtain ⟨T, Rt1, Rx1, r1, r2, r3⟩ :=
    run_two_pass reset (R'.map Readable.name) nonopt0 [] (scanFuel rest) rest rfl hform
      R R' [path] nonoptArgs hreg
  obtain ⟨Rx2, r4, _⟩ :=
    run_collect_flags reset (R'.map Readable.name) T r3 R' nonoptArgs [] hreg
  refine ⟨⟨Rt1, nonopt0, path :: T⟩, ⟨Rx2, nonoptArgs ++ T.filter isPlain, []⟩,
    ⟨Rt1 ++ Rx1, nonoptArgs ++ T.filter isPlain, []⟩, ?_, ?_, ?_, rfl⟩
  · simpa [cmdLineParse] using r1
  · simpa [cmdLineParse] using r4
  · simpa [cmdLineParse] using r2

/-- Instance with the Int option `n` in `R` and the flag `v` in `R'`. -/
theorem strip_then_collect_flags_witness :
    ∃ s1 s2 s3,
      cmdLineParse id true
        ["prog".toList, "--n".toList, "5".toList, "-v".toList, "p".toList, "--v".toList,
         "q".toList]
        [Readable.int (cmdLineInt.new "n".toList 0 'n')] [] = some s1 ∧
      cmdLineParse id false s1.strippedArgs
        [Readable.flag (cmdLineReadable.new "v".toList 'v')] [] = some s2 ∧
      cmdLineParse id false
        ["prog".toList, "--n".toList, "5".toList, "-v".toList, "p".toList, "--v".toList,
         "q".toList]
        ([Readable.int (cmdLineInt.new "n".toList 0 'n')] ++
          [Readable.flag (cmdLineReadable.new "v".toList 'v')]) [] = some s3 ∧
      s2.nonoptArgs = s3.nonoptArgs :=
  strip_then_collect_flags id [Readable.int (cmdLineInt.new "n".toList 0 'n')]
    [Readable.flag (cmdLineReadable.new "v".toList 'v')] "prog".toList
    ["--n".toList, "5".toList, "-v".toList, "p".toList, "--v".toList, "q".toList] [] []
    (by decide) (by decide)

/-! ## Registry lookup: first match -/

theorem getReadableByLongName_iff (params : List Readable) (name : CStr) (i : Nat)
    (d : Readable) :
    getReadableByLongName params name = some (i, d) ↔
      params[i]? = some d ∧ d.name = name ∧
        ∀ j, j < i → ∀ e, params[j]? = some e → e.name ≠ name := by
  induction params generalizing i with
  | nil => simp [getReadableByLongName]
  | cons p ps ih =>
    simp only [getReadableByLongName]
    split
    · next hp =>
      constructor
      · intro h
        simp only [Option.some.injEq, Prod.mk.injEq] at h
        obtain ⟨rfl, rfl⟩ := h
        exact ⟨by simp, hp.symm, fun j hj => absurd hj (Nat.not_lt_zero j)⟩
      · rintro ⟨h1, _, h3⟩
        cases i with
        | zero =>
          simp only [List.getElem?_cons_zero, Option.some.injEq] at h1
          rw [h1]
        | succ i => exact absurd hp.symm (h3 0 (Nat.succ_pos i) p (by simp))
    · next hp =>
      constructor
      · intro h
        cases hq : getReadableByLongName ps name with
        | none => simp [hq] at h
        | some r =>
          obtain ⟨k, e⟩ := r
          simp only [hq, Option.map_some', Option.some.injEq, Prod.mk.injEq] at h
          obtain ⟨rfl, rfl⟩ := h
          obtain ⟨h1, h2, h3⟩ := (ih k).1 hq
          refine ⟨by simpa using h1, h2, ?_⟩
          intro j hj e1 he1
          cases j with
          | zero =>
            simp only [List.getElem?_cons_zero, Option.some.injEq] at he1
            rw [← he1]
            exact fun h => hp h.symm
          | succ j =>
            simp only [List.getElem?_cons_succ] at he1
            exact h3 j (by omega) e1 he1
      · rintro ⟨h1, h2, h3⟩
        cases i with
        | zero =>
          simp only [List.getElem?_cons_zero, Option.some.injEq] at h1
          rw [h1] at hp
          exact absurd h2.symm hp
        | succ i =>
          simp only [List.getElem?_cons_succ] at h1
          have := (ih i).2 ⟨h1, h2, fun j hj e he => h3 (j + 1) (by omega) e (by simpa using he)⟩
          simp [this]

theorem getReadableByLongName_eq_none (params : List Readable) (name : CStr) :
    getReadableByLongName params name = none ↔ ∀ d ∈ params, d.name ≠ name := by
  induction params with
  | nil => simp [getReadableByLongName]
  | cons p ps ih =>
    simp only [getReadableByLongName, List.mem_cons, forall_eq_or_imp]
    split
    · next hp => simp [hp]
    · next hp =>
      simp only [Option.map_eq_none', ih]
      exact ⟨fun h => ⟨fun e => hp e.symm, h⟩, fun h => h.2⟩

theorem getReadableByShortName_iff (params : List Readable) (c : Char) (i : Nat)
    (d : Readable) :
    getReadableByShortName params c = some (i, d) ↔
      params[i]? = some d ∧ d.shortName = c ∧
        ∀ j, j < i → ∀ e, params[j]? = some e → e.shortName ≠ c := by
  induction params generalizing i with
  | nil => simp [getReadableByShortName]
  | cons p ps ih =>
    simp only [getReadableByShortName]
    split
    · next hp =>
      constructor
      · intro h
        simp only [Option.some.injEq, Prod.mk.injEq] at h
        obtain ⟨rfl, rfl⟩ := h
        exact ⟨by simp, hp, fun j hj => absurd hj (Nat.not_lt_zero j)⟩
      · rintro ⟨h1, _, h3⟩
        cases i with
        | zero =>
          simp only [List.getElem?_cons_zero, Option.some.injEq] at h1
          rw [h1]
        | succ i => exact absurd hp (h3 0 (Nat.succ_pos i) p (by simp))
    · next hp =>
      constructor
      · intro h
        cases hq : getReadableByShortName ps c with
        | none => simp [hq] at h
        | some r =>
          obtain ⟨k, e⟩ := r
          simp only [hq, Option.map_some', Option.some.injEq, Prod.mk.injEq] at h
          obtain ⟨rfl, rfl⟩ := h
          obtain ⟨h1, h2, h3⟩ := (ih k).1 hq
          refine ⟨by simpa using h1, h2, ?_⟩
          intro j hj e1 he1
          cases j with
          | zero =>
            simp only [List.getElem?_cons_zero, Option.some.injEq] at he1
            rw [← he1]
            exact hp
          | succ j =>
            simp only [List.getElem?_cons_succ] at he1
            exact h3 j (by omega) e1 he1
      · rintro ⟨h1, h2, h3⟩
        cases i with
        | zero =>
          simp only [List.getElem?_cons_zero, Option.some.injEq] at h1
          rw [h1] at hp
          exact absurd h2 hp
        | succ i =>
          simp only [List.getElem?_cons_succ] at h1
          have := (ih i).2 ⟨h1, h2, fun j hj e he => h3 (j + 1) (by omega) e (by simpa using he)⟩
          simp [this]

theorem getReadableByShortName_eq_none (params : List Readable) (c : Char) :
    getReadableByShortName params c = none ↔ ∀ d ∈ params, d.shortName ≠ c := by
  induction params with
  | nil => simp [getReadableByShortName]
  | cons p ps ih =>
    simp only [getReadableByShortName, List.mem_cons, forall_eq_or_imp]
    split
    · next hp => simp [hp]
    · next hp =>
      simp only [Option.map_eq_none', ih]
      exact ⟨fun h => ⟨hp, h⟩, fun h => h.2⟩

/-- C14: `getReadableByLongName` returns the position and the descriptor of
the first entry, in registry order, whose long name is exactly `name`, and
returns NULL (`none`) if and only if no descriptor has that name;
`getReadableByShortName` does the same for a short-name character. Both are
functions of the registry and the key alone: they return no new registry, so
no descriptor changes. -/
theorem registry_lookup_first_match (params : List Readable) (name : CStr) (c : Char) :
    (∀ i d, getReadableByLongName params name = some (i, d) ↔
      params[i]? = some d ∧ d.name = name ∧
        ∀ j, j < i → ∀ e, params[j]? = some e → e.name ≠ name) ∧
    (getReadableByLongName params name = none ↔ ∀ d ∈ params, d.name ≠ name) ∧
    (∀ i d, getReadableByShortName params c = some (i, d) ↔
      params[i]? = some d ∧ d.shortName = c ∧
        ∀ j, j < i → ∀ e, params[j]? = some e → e.shortName ≠ c) ∧
    (getReadableByShortName params c = none ↔ ∀ d ∈ params, d.shortName ≠ c) :=
  ⟨getReadableByLongName_iff params name, getReadableByLongName_eq_none params name,
    getReadableByShortName_iff params c, getReadableByShortName_eq_none params c⟩

/-! ## Plain tokens -/

theorem parseStep_plain (reset : cmdLineIntSequence → cmdLineIntSequence) (stripping : Bool)
    (t : CStr) (rest : List CStr) (st : ParseState) (h : isPlain t = true) :
    parseStep reset stripping t rest st =
      (rest, if stripping then { st with strippedArgs := st.strippedArgs ++ [t] }
             else { st with nonoptArgs := st.nonoptArgs ++ [t] }) := by
  cases t with
  | nil => simp [parseStep]
  | cons c0 t1 =>
    have h0 : c0 ≠ '-' := by simpa [isPlain] using h
    simp [parseStep, h0]

/-- C15: when no token after the invocation path starts with `-`, the
collecting-mode parse ends normally, appends exactly the tokens `V[1..]` to
the non-option argument sequence, in their order and without `V[0]`, and
changes no descriptor. -/
theorem cmdLineParse_plain_collect (reset : cmdLineIntSequence → cmdLineIntSequence)
    (params : List Readable) (nonoptArgs : List CStr) (path : CStr) (rest : List CStr)
    (h : ∀ t ∈ rest, isPlain t = true) :
    cmdLineParse reset false (path :: rest) params nonoptArgs =
      some ⟨params, nonoptArgs ++ rest, []⟩ := by
  have key : ∀ (l : List CStr) (N : List CStr), (∀ t ∈ l, isPlain t = true) →
      run reset false l ⟨params, N, []⟩ = some ⟨params, N ++ l, []⟩ := by
    intro l
    induction l with
    | nil =>
      intro N _
      simp [run_nil]
    | cons t l ih =>
      intro N hl
      rw [run_cons, parseStep_plain reset false t l _ (hl t (List.mem_cons_self _ _))]
      simp only [Bool.false_eq_true, if_false]
      rw [ih _ (fun u hu => hl u (List.mem_cons_of_mem _ hu))]
      simp
  simpa [cmdLineParse] using key rest nonoptArgs h

/-- Instance of C15: three plain tokens, one of them empty. -/
theorem cmdLineParse_plain_collect_witness :
    cmdLineParse id false ["prog".toList, "a".toList, "".toList, "b=c".toList]
        [Readable.flag (cmdLineReadable.new "a".toList 'a')] ["old".toList] =
      some ⟨[Readable.flag (cmdLineReadable.new "a".toList 'a')],
            ["old".toList, "a".toList, "".toList, "b=c".toList], []⟩ :=
  cmdLineParse_plain_collect id [Readable.flag (cmdLineReadable.new "a".toList 'a')]
    ["old".toList] "prog".toList ["a".toList, "".toList, "b=c".toList] (by decide)

/-! ## Termination -/

/-- C18: for every argument vector with at least the invocation path, every
registry and both modes, the scan loop of `cmdLineParse` ends: every loop
iteration strictly decreases the count of remaining characters and tokens,
so the parse has a result, and any loop bound of at least that count gives
this same result. -/
theorem cmdLineParse_terminates (reset : cmdLineIntSequence → cmdLineIntSequence)
    (stripping : Bool) (path : CStr) (rest : List CStr) (params : List Readable)
    (nonoptArgs : List CStr) :
    (∀ (tok : CStr) (more : List CStr) (st : ParseState),
      scanFuel (parseStep reset stripping tok more st).1 < scanFuel (tok :: more)) ∧
    ∃ r, cmdLineParse reset stripping (path :: rest) params nonoptArgs = some r ∧
      ∀ fuel, scanFuel rest ≤ fuel →
        scan reset stripping fuel rest
          ⟨params, nonoptArgs, if stripping then [path] else []⟩ = some r := by
  refine ⟨parseStep_fuel reset stripping, ?_⟩
  obtain ⟨r, hr⟩ := run_total reset stripping rest
    ⟨params, nonoptArgs, if stripping then [path] else []⟩
  refine ⟨r, by simpa [cmdLineParse] using hr, ?_⟩
  intro fuel hf
  rw [← hr]
  exact scan_fuel_irrelevant reset stripping _ _ _ _ hf (le_refl _)

/-! ## Long options: unknown names, flags written with `=`, missing values -/

theorem parseStep_unknown_long (reset : cmdLineIntSequence → cmdLineIntSequence)
    (stripping : Bool) (body : CStr) (rest : List CStr) (st : ParseState)
    (h : getReadableByLongName st.params (findEq body).1 = none) :
    parseStep reset stripping ('-' :: '-' :: body) rest st =
      (rest, if stripping then
          { st with strippedArgs := st.strippedArgs ++ ['-' :: '-' :: body] }
        else st) := by
  cases he : (findEq body).2 <;> cases stripping <;>
    simp [parseStep, parseLong, h, he]

/-- C17, as stated, fails: with nothing registered, after the unknown option
`--zz` in the non-`=` form the following token `y` is collected as a
non-option argument. -/
theorem unknown_long_counterexample :
    cmdLineParse id false ["prog".toList, "--zz".toList, "y".toList] [] [] =
      some ⟨[], ["y".toList], []⟩ := by
  decide

/-- C17, amended: in collecting mode, for a long option whose name (the text
between `--` and the first `=`, if any) is not registered, one iteration of
the scan advances past that one token only, in the `=` form and in the
non-`=` form alike, and changes nothing else; the following token is the next
one scanned. -/
theorem parseStep_unknown_long_collect (reset : cmdLineIntSequence → cmdLineIntSequence)
    (body : CStr) (rest : List CStr) (st : ParseState)
    (h : getReadableByLongName st.params (findEq body).1 = none) :
    parseStep reset false ('-' :: '-' :: body) rest st = (rest, st) ∧
      run reset false (('-' :: '-' :: body) :: rest) st = run reset false rest st := by
  have e := parseStep_unknown_long reset false body rest st h
  simp only [Bool.false_eq_true, if_false] at e
  exact ⟨e, by rw [run_cons, e]⟩

/-- Instance of the amended C17: `--zz=1` and `--zz`, each before `y`. -/
theorem parseStep_unknown_long_collect_witness :
    (parseStep id false "--zz=1".toList ["y".toList]
        ⟨[Readable.flag (cmdLineReadable.new "a".toList 'a')], [], []⟩ =
      (["y".toList], ⟨[Readable.flag (cmdLineReadable.new "a".toList 'a')], [], []⟩)) ∧
    (parseStep id false "--zz".toList ["y".toList]
        ⟨[Readable.flag (cmdLineReadable.new "a".toList 'a')], [], []⟩ =
      (["y".toList], ⟨[Readable.flag (cmdLineReadable.new "a".toList 'a')], [], []⟩)) :=
  ⟨(parseStep_unknown_long_collect id "zz=1".toList ["y".toList]
      ⟨[Readable.flag (cmdLineReadable.new "a".toList 'a')], [], []⟩ (by decide)).1,
    (parseStep_unknown_long_collect id "zz".toList ["y".toList]
      ⟨[Readable.flag (cmdLineReadable.new "a".toList 'a')], [], []⟩ (by decide)).1⟩

theorem parseStep_flag_eq (reset : cmdLineIntSequence → cmdLineIntSequence)
    (stripping : Bool) (n v : CStr) (rest : List CStr) (st : ParseState) (i : Nat)
    (f : Readable) (hn : '=' ∉ n) (hfound : getReadableByLongName st.params n = some (i, f))
    (hflag : f.expectsArg = false) :
    parseStep reset stripping ('-' :: '-' :: (n ++ '=' :: v)) rest st = (v :: rest, st) := by
  simp [parseStep, parseLong, findEq_append n v hn, hfound, hflag]

/-- C12, as stated, fails: after `prog --f=1` the flag `f` is not set (and
`1` has been collected as a non-option argument). -/
theorem flag_eq_counterexample :
    cmdLineParse id false ["prog".toList, "--f=1".toList]
        [Readable.flag (cmdLineReadable.new "f".toList 'f')] [] =
      some ⟨[Readable.flag { set := false, name := "f".toList, shortName := 'f' }],
            ["1".toList], []⟩ := by
  decide

/-- C12, amended: for a no-argument flag `f` that the lookup of its long name
`n` (without `=`) finds, the scan iteration on the token `--n=value` only
warns: it changes no descriptor and collects or emits nothing, so `f` is
still found under `n` and `f.set` is what it was before the token. -/
theorem parseStep_flag_eq_unchanged (reset : cmdLineIntSequence → cmdLineIntSequence)
    (stripping : Bool) (n v : CStr) (rest : List CStr) (st : ParseState) (i : Nat)
    (f : Readable) (hn : '=' ∉ n) (hfound : getReadableByLongName st.params n = some (i, f))
    (hflag : f.expectsArg = false) :
    (parseStep reset stripping ('-' :: '-' :: (n ++ '=' :: v)) rest st).2 = st ∧
      getReadableByLongName
        (parseStep reset stripping ('-' :: '-' :: (n ++ '=' :: v)) rest st).2.params n =
        some (i, f) := by
  have e := parseStep_flag_eq reset stripping n v rest st i f hn hfound hflag
  refine ⟨by rw [e], by rw [e]; exact hfound⟩

/-- Instance of the amended C12: the unset flag `f` and the token `--f=1`. -/
theorem parseStep_flag_eq_unchanged_witness :
    (parseStep id false "--f=1".toList []
        ⟨[Readable.flag (cmdLineReadable.new "f".toList 'f')], [], []⟩).2 =
      ⟨[Readable.flag (cmdLineReadable.new "f".toList 'f')], [], []⟩ :=
  (parseStep_flag_eq_unchanged id false "f".toList "1".toList []
    ⟨[Readable.flag (cmdLineReadable.new "f".toList 'f')], [], []⟩ 0
    (Readable.flag (cmdLineReadable.new "f".toList 'f'))
    (by decide) (by decide) (by decide)).1

/-- C16 at failing inputs: after `--f=...` on the flag `f` the inline text is
scanned as a token of its own: `--f=-x` sets the flag `x`, `--f=foo` collects
`foo` as a non-option argument, and when stripping `foo` is emitted to the
stripped output. -/
theorem flag_eq_value_rescanned :
    cmdLineParse id false ["prog".toList, "--f=-x".toList]
        [Readable.flag (cmdLineReadable.new "f".toList 'f'),
         Readable.flag (cmdLineReadable.new "x".toList 'x')] [] =
      some ⟨[Readable.flag { set := false, name := "f".toList, shortName := 'f' },
             Readable.flag { set := true, name := "x".toList, shortName := 'x' }], [], []⟩ ∧
    cmdLineParse id false ["prog".toList, "--f=foo".toList, "bar".toList]
        [Readable.flag (cmdLineReadable.new "f".toList 'f')] [] =
      some ⟨[Readable.flag { set := false, name := "f".toList, shortName := 'f' }],
            ["foo".toList, "bar".toList], []⟩ ∧
    cmdLineParse id true ["prog".toList, "--f=foo".toList, "bar".toList]
        [Readable.flag (cmdLineReadable.new "f".toList 'f')] [] =
      some ⟨[Readable.flag { set := false, name := "f".toList, shortName := 'f' }],
            [], ["prog".toList, "foo".toList, "bar".toList]⟩ := by
  decide

theorem read_nil (reset : cmdLineIntSequence → cmdLineIntSequence) (d : Readable)
    (h : d.expectsArg = true) : d.read reset [] = (d, 0) := by
  cases d <;> simp [Readable.expectsArg] at h <;> rfl

theorem set_same (l : List Readable) (i : Nat) (d : Readable) (h : l[i]? = some d) :
    l.set i d = l := by
  apply List.ext_getElem?
  intro k
  rw [List.getElem?_set]
  by_cases hik : i = k
  · subst hik
    have hlt : i < l.length := (List.getElem?_eq_some.1 h).1
    simp [hlt, h]
  · simp [hik]

theorem resolvesTo_value_false (ps : List Readable) (cs : List Char) (i : Nat) (d : Readable)
    (hcs : ∀ x ∈ cs, ∀ j e, getReadableByShortName ps x = some (j, e) → e.expectsArg = false)
    (hi : ps[i]? = some d) (hd : d.expectsArg = true) : resolvesTo ps cs i = false := by
  cases hr : resolvesTo ps cs i with
  | false => rfl
  | true =>
    exfalso
    simp only [resolvesTo, List.any_eq_true, beq_iff_eq] at hr
    obtain ⟨x, hx, h⟩ := hr
    cases hq : getReadableByShortName ps x with
    | none => simp [hq] at h
    | some r =>
      obtain ⟨j, e⟩ := r
      simp only [hq, Option.map_some', Option.some.injEq] at h
      subst h
      have he := (getReadableByShortName_some ps x j e hq).1
      rw [hi] at he
      simp only [Option.some.injEq] at he
      have := hcs x hx j e hq
      rw [← he, hd] at this
      exact absurd this (by decide)

/-- C11: when the token at the cursor is the last one and is `--n` (no `=`)
resolved to the value-taking descriptor `d`, or a short cluster of flags and
unregistered characters that ends in a character resolved to `d`, the read of
`d` is offered the empty slice, reports 0 tokens consumed and returns `d` as
it was; the iteration leaves the cursor at the end of the vector, the parse
ends normally, and `d` is in the registry exactly as before the token. -/
theorem missing_value_boundary (reset : cmdLineIntSequence → cmdLineIntSequence)
    (stripping : Bool) (st : ParseState) (i : Nat) (d : Readable)
    (hd : d.expectsArg = true) :
    (d.read reset []).2 = 0 ∧ (d.read reset []).1 = d ∧
    (∀ n : CStr, '=' ∉ n → getReadableByLongName st.params n = some (i, d) →
      parseStep reset stripping ('-' :: '-' :: n) [] st = ([], st) ∧
      run reset stripping ['-' :: '-' :: n] st = some st) ∧
    (∀ (cs : List Char) (s : Char), (cs ++ [s]).head? ≠ some '-' →
      (∀ x ∈ cs, ∀ j e, getReadableByShortName st.params x = some (j, e) →
        e.expectsArg = false) →
      getReadableByShortName st.params s = some (i, d) →
      ∃ st1, parseStep reset stripping ('-' :: (cs ++ [s])) [] st = ([], st1) ∧
        run reset stripping ['-' :: (cs ++ [s])] st = some st1 ∧
        st1.params[i]? = some d ∧ st1.params = markShort cs st.params ∧
        st1.nonoptArgs = st.nonoptArgs) := by
  have hread := read_nil reset d hd
  refine ⟨by rw [hread], by rw [hread], ?_, ?_⟩
  · intro n hn hfound
    have hi := (getReadableByLongName_some st.params n i d hfound).1
    have e : parseStep reset stripping ('-' :: '-' :: n) [] st = ([], st) := by
      simp [parseStep, parseLong, findEq_of_not_mem n hn, hfound, hd, hread,
        set_same st.params i d hi]
    exact ⟨e, by rw [run_cons, e, run_nil]⟩
  · intro cs s hdash hcs hfound
    obtain ⟨ps, nonopt, stripped⟩ := st
    simp only at hcs hfound
    have hi := (getReadableByShortName_some ps s i d hfound).1
    have hstep : parseStep reset stripping ('-' :: (cs ++ [s])) [] ⟨ps, nonopt, stripped⟩ =
        parseShort reset stripping (cs ++ [s]) [] ⟨ps, nonopt, stripped⟩ := by
      cases cs with
      | nil =>
        have : s ≠ '-' := by simpa using hdash
        simp [parseStep, this]
      | cons c cs =>
        have : c ≠ '-' := by simpa using hdash
        simp [parseStep, this]
    have hpre := parseShort_flags reset stripping ps nonopt cs [s] [] hcs [] stripped
    rw [markShort_nil, List.nil_append] at hpre
    obtain ⟨e, he, hej⟩ := getReadableByShortName_same_keys_some ps (markShort cs ps) s i d
      (markShort_shortName cs ps) hfound
    have hed : e = d := by
      rw [markShort_getElem?, hi] at hej
      simpa [resolvesTo_value_false ps cs i d hcs hi hd] using hej.symm
    subst hed
    have hres : parseStep reset stripping ('-' :: (cs ++ [s])) [] ⟨ps, nonopt, stripped⟩ =
        ([], ⟨markShort cs ps, nonopt,
          stripped ++ (if stripping then unknownShort ps cs else [])⟩) := by
      rw [hstep, hpre, parseShort, he]
      simp [hd, hread, set_same _ i e hej]
    exact ⟨_, hres, by rw [run_cons, hres, run_nil], hej, rfl, rfl⟩

/-- Instance of C11: `prog --num` and `prog -vn` with the unset Int option
`num`/`n` and the flag `v`. -/
theorem missing_value_boundary_witness :
    parseStep id false "--num".toList []
        ⟨[Readable.flag (cmdLineReadable.new "verbose".toList 'v'),
          Readable.int (cmdLineInt.new "num".toList 0 'n')], [], []⟩ =
      ([], ⟨[Readable.flag (cmdLineReadable.new "verbose".toList 'v'),
             Readable.int (cmdLineInt.new "num".toList 0 'n')], [], []⟩) ∧
    cmdLineParse id false ["prog".toList, "-vn".toList]
        [Readable.flag (cmdLineReadable.new "verbose".toList 'v'),
         Readable.int (cmdLineInt.new "num".toList 0 'n')] [] =
      some ⟨[Readable.flag { set := true, name := "verbose".toList, shortName := 'v' },
             Readable.int { set := false, name := "num".toList, shortName := 'n', value := 0 }],
            [], []⟩ :=
  ⟨((missing_value_boundary id false
      ⟨[Readable.flag (cmdLineReadable.new "verbose".toList 'v'),
        Readable.int (cmdLineInt.new "num".toList 0 'n')], [], []⟩ 1
      (Readable.int (cmdLineInt.new "num".toList 0 'n')) (by decide)).2.2.1
      "num".toList (by decide) (by decide)).1,
    by decide⟩

/-! ## The set flag -/

theorem staysSet_refl (d : Readable) : StaysSet d d := ⟨rfl, fun _ h => h⟩

theorem staysSet_trans (a b c : Readable) (h1 : StaysSet a b) (h2 : StaysSet b c) :
    StaysSet a c :=
  ⟨h2.1.trans h1.1, fun hr hs => h2.2 (h1.1.trans hr) (h1.2 hr hs)⟩

theorem markSet_staysSet (d : Readable) : StaysSet d d.markSet := by
  cases d <;> exact ⟨rfl, fun _ _ => rfl⟩

theorem read_staysSet (reset : cmdLineIntSequence → cmdLineIntSequence) (d : Readable)
    (argv : List CStr) : StaysSet d (d.read reset argv).1 := by
  cases d with
  | flag d => exact ⟨rfl, fun _ _ => rfl⟩
  | int d => cases argv <;> exact ⟨rfl, fun _ h => by first | exact h | rfl⟩
  | intSequence d => exact ⟨rfl, fun h => by simp [Readable.isRange] at h⟩
  | ints d =>
    refine ⟨rfl, fun _ h => ?_⟩
    cases argv with
    | nil => exact h
    | cons a rest =>
      simp only [Readable.read, cmdLineInts.read]
      split
      · exact h
      · rfl
  | float d => cases argv <;> exact ⟨rfl, fun _ h => by first | exact h | rfl⟩
  | string d => cases argv <;> exact ⟨rfl, fun _ h => by first | exact h | rfl⟩
  | strings d =>
    refine ⟨rfl, fun _ h => ?_⟩
    cases argv with
    | nil => exact h
    | cons a rest =>
      simp only [Readable.read, cmdLineStrings.read]
      split
      · exact h
      · rfl

theorem registryStaysSet_refl (ps : List Readable) : RegistryStaysSet ps ps :=
  fun _ d h => ⟨d, h, staysSet_refl d⟩

theorem registryStaysSet_trans (a b c : List Readable) (h1 : RegistryStaysSet a b)
    (h2 : RegistryStaysSet b c) : RegistryStaysSet a c := by
  intro i d hd
  obtain ⟨d1, hd1, s1⟩ := h1 i d hd
  obtain ⟨d2, hd2, s2⟩ := h2 i d1 hd1
  exact ⟨d2, hd2, staysSet_trans d d1 d2 s1 s2⟩

theorem registryStaysSet_set (ps : List Readable) (i : Nat) (d d1 : Readable)
    (hi : ps[i]? = some d) (h : StaysSet d d1) : RegistryStaysSet ps (ps.set i d1) := by
  intro k e he
  rw [List.getElem?_set]
  by_cases hik : i = k
  · subst hik
    have hlt : i < ps.length := (List.getElem?_eq_some.1 hi).1
    rw [hi] at he
    simp only [Option.some.injEq] at he
    subst he
    exact ⟨d1, by simp [hlt], h⟩
  · exact ⟨e, by simp [hik, he], staysSet_refl e⟩

theorem parseLong_staysSet (reset : cmdLineIntSequence → cmdLineIntSequence)
    (stripping : Bool) (tok body : CStr) (rest : List CStr) (st : ParseState) :
    RegistryStaysSet st.params (parseLong reset stripping tok body rest st).2.params := by
  unfold parseLong
  simp only
  split
  · next i opt hl =>
    have hi := (getReadableByLongName_some st.params _ i opt hl).1
    split
    · exact registryStaysSet_set _ _ _ _ hi (read_staysSet reset opt _)
    · split
      · exact registryStaysSet_refl _
      · exact registryStaysSet_set _ _ _ _ hi (markSet_staysSet opt)
  · cases stripping <;> split <;> exact registryStaysSet_refl _

theorem parseShort_staysSet (reset : cmdLineIntSequence → cmdLineIntSequence)
    (stripping : Bool) (cs : CStr) (rest : List CStr) (st : ParseState) :
    RegistryStaysSet st.params (parseShort reset stripping cs rest st).2.params := by
  induction cs generalizing st with
  | nil => exact registryStaysSet_refl _
  | cons c cs ih =>
    unfold parseShort
    split
    · next i opt hl =>
      have hi := (getReadableByShortName_some st.params c i opt hl).1
      split
      · exact registryStaysSet_trans _ _ _
          (registryStaysSet_set _ _ _ _ hi (markSet_staysSet opt))
          (ih { st with params := st.params.set i opt.markSet })
      · exact registryStaysSet_set _ _ _ _ hi (read_staysSet reset opt _)
    · cases stripping
      · exact ih st
      · exact ih { st with strippedArgs := st.strippedArgs ++ [['-', c]] }

theorem parseStep_staysSet (reset : cmdLineIntSequence → cmdLineIntSequence)
    (stripping : Bool) (tok : CStr) (rest : List CStr) (st : ParseState) :
    RegistryStaysSet st.params (parseStep reset stripping tok rest st).2.params := by
  unfold parseStep
  simp only
  split
  · cases stripping <;> exact registryStaysSet_refl _
  · split
    · split
      · exact parseShort_staysSet _ _ _ _ _
      · split
        · exact parseLong_staysSet _ _ _ _ _ _
        · exact parseShort_staysSet _ _ _ _ _
    · cases stripping <;> exact registryStaysSet_refl _

theorem scan_staysSet (reset : cmdLineIntSequence → cmdLineIntSequence) (stripping : Bool)
    (fuel : Nat) (argv : List CStr) (st r : ParseState)
    (h : scan reset stripping fuel argv st = some r) :
    RegistryStaysSet st.params r.params := by
  induction fuel generalizing argv st with
  | zero =>
    cases argv with
    | nil =>
      simp only [scan_nil, Option.some.injEq] at h
      subst h
      exact registryStaysSet_refl _
    | cons t l => simp [scan] at h
  | succ fuel ih =>
    cases argv with
    | nil =>
      simp only [scan_nil, Option.some.injEq] at h
      subst h
      exact registryStaysSet_refl _
    | cons t l =>
      simp only [scan] at h
      exact registryStaysSet_trans _ _ _ (parseStep_staysSet reset stripping t l st) (ih _ _ h)

/-- C13, as stated, fails: a `cmdLineIntSequence` that is set (holding the
range 2:3:10) is unset after `prog --seq abc`. -/
theorem set_flag_reset_counterexample :
    cmdLineParse id false ["prog".toList, "--seq".toList, "abc".toList]
        [Readable.intSequence
          { set := true, name := "seq".toList, shortName := 's', value := 0, start := 2,
            end_ := 10, increment := 3 }] [] =
      some ⟨[Readable.intSequence
          { set := false, name := "seq".toList, shortName := 's', value := 0, start := 0,
            end_ := 2, increment := 1 }], [], []⟩ := by
  decide

/-- C13, amended: for every descriptor `d` of the registry that is not a
range (`cmdLineIntSequence`), that is a flag, a scalar or a counted sequence,
if `d.set` is true then it is true after any single read of `d`, and the
parse of any vector with the invocation path, in either mode, ends normally
with the descriptor at the position of `d` set. -/
theorem set_flag_kept (reset : cmdLineIntSequence → cmdLineIntSequence) (stripping : Bool)
    (path : CStr) (rest : List CStr) (params : List Readable) (nonoptArgs : List CStr)
    (i : Nat) (d : Readable) (hi : params[i]? = some d) (hrange : d.isRange = false)
    (hset : d.set = true) :
    (∀ argv, (d.read reset argv).1.set = true) ∧
    ∃ r d1, cmdLineParse reset stripping (path :: rest) params nonoptArgs = some r ∧
      r.params[i]? = some d1 ∧ d1.isRange = false ∧ d1.set = true := by
  refine ⟨fun argv => (read_staysSet reset d argv).2 hrange hset, ?_⟩
  obtain ⟨r, hr⟩ := run_total reset stripping rest
    ⟨params, nonoptArgs, if stripping then [path] else []⟩
  obtain ⟨d1, hd1, hs⟩ := scan_staysSet reset stripping _ _ _ _ hr i d hi
  exact ⟨r, d1, by simpa [cmdLineParse] using hr, hd1, hs.1.trans hrange, hs.2 hrange hset⟩

/-- Instance of the amended C13: a set `cmdLineInts` whose option is given
again with a count that fails. -/
theorem set_flag_kept_witness :
    ∃ r d1, cmdLineParse id false ["prog".toList, "--ints".toList, "5".toList, "1".toList]
        [Readable.ints { set := true, name := "ints".toList, shortName := 'i',
                         values := [7], count := 1 }] [] = some r ∧
      r.params[0]? = some d1 ∧ d1.isRange = false ∧ d1.set = true :=
  (set_flag_kept id false "prog".toList ["--ints".toList, "5".toList, "1".toList]
    [Readable.ints { set := true, name := "ints".toList, shortName := 'i',
                     values := [7], count := 1 }] [] 0
    (Readable.ints { set := true, name := "ints".toList, shortName := 'i',
                     values := [7], count := 1 })
    (by decide) (by decide) (by decide)).2

/-! ## Stripping twice -/

theorem getReadableByLongName_congr (ps qs : List Readable) (n : CStr)
    (h : qs.map Readable.name = ps.map Readable.name) :
    (getReadableByLongName qs n).map Prod.fst = (getReadableByLongName ps n).map Prod.fst := by
  induction ps generalizing qs with
  | nil =>
    cases qs with
    | nil => rfl
    | cons q qs => simp at h
  | cons p ps ih =>
    cases qs with
    | nil => simp at h
    | cons q qs =>
      simp only [List.map_cons, List.cons.injEq] at h
      simp only [getReadableByLongName]
      rw [h.1]
      split
      · rfl
      · have := ih qs h.2
        simp only [Option.map_map]
        cases h1 : getReadableByLongName qs n <;> cases h2 : getReadableByLongName ps n <;>
          simp_all

theorem getReadableByLongName_same_keys_none (ps qs : List Readable) (n : CStr)
    (hk : qs.map Readable.name = ps.map Readable.name)
    (h : getReadableByLongName ps n = none) : getReadableByLongName qs n = none := by
  have hc := getReadableByLongName_congr ps qs n hk
  rw [h] at hc
  cases hq : getReadableByLongName qs n with
  | none => rfl
  | some r => simp [hq] at hc

theorem sameKeys_refl (ps : List Readable) : SameKeys ps ps := ⟨rfl, rfl⟩

theorem sameKeys_trans (a b c : List Readable) (h1 : SameKeys a b) (h2 : SameKeys b c) :
    SameKeys a c := ⟨h2.1.trans h1.1, h2.2.trans h1.2⟩

theorem map_set_same {β : Type} (f : Readable → β) (ps : List Readable) (i : Nat)
    (d d1 : Readable) (hi : ps[i]? = some d) (h : f d1 = f d) :
    (ps.set i d1).map f = ps.map f := by
  apply List.ext_getElem?
  intro k
  simp only [List.getElem?_map, List.getElem?_set]
  by_cases hik : i = k
  · subst hik
    have hlt : i < ps.length := (List.getElem?_eq_some.1 hi).1
    simp [hlt, hi, h]
  · simp [hik]

theorem sameKeys_set (ps : List Readable) (i : Nat) (d d1 : Readable) (hi : ps[i]? = some d)
    (hn : d1.name = d.name) (hs : d1.shortName = d.shortName) : SameKeys ps (ps.set i d1) :=
  ⟨map_set_same Readable.name ps i d d1 hi hn, map_set_same Readable.shortName ps i d d1 hi hs⟩

theorem read_keys (reset : cmdLineIntSequence → cmdLineIntSequence) (hreset : KeepsNames reset)
    (d : Readable) (argv : List CStr) :
    (d.read reset argv).1.name = d.name ∧ (d.read reset argv).1.shortName = d.shortName := by
  cases d with
  | flag d => exact ⟨rfl, rfl⟩
  | int d => cases argv <;> exact ⟨rfl, rfl⟩
  | intSequence d =>
    cases argv with
    | nil => exact ⟨rfl, rfl⟩
    | cons a rest =>
      simp only [Readable.read, cmdLineIntSequence.read, Readable.name, Readable.shortName,
        Readable.base]
      rw [(hreset _).1, (hreset _).2]
      refine ⟨?_, ?_⟩ <;> (repeat' split) <;> rfl
  | ints d =>
    cases argv with
    | nil => exact ⟨rfl, rfl⟩
    | cons a rest =>
      simp only [Readable.read, cmdLineInts.read]
      split <;> exact ⟨rfl, rfl⟩
  | float d => cases argv <;> exact ⟨rfl, rfl⟩
  | string d => cases argv <;> exact ⟨rfl, rfl⟩
  | strings d =>
    cases argv with
    | nil => exact ⟨rfl, rfl⟩
    | cons a rest =>
      simp only [Readable.read, cmdLineStrings.read]
      split <;> exact ⟨rfl, rfl⟩

theorem inert_congr (ps qs : List Readable) (t : CStr) (hk : SameKeys ps qs)
    (h : Inert ps t) : Inert qs t := by
  rcases h with h | ⟨body, rfl, h⟩ | ⟨c, rfl, hc, h⟩
  · exact Or.inl h
  · exact Or.inr (Or.inl ⟨body, rfl, getReadableByLongName_same_keys_none ps qs _ hk.1 h⟩)
  · exact Or.inr (Or.inr ⟨c, rfl, hc, getReadableByShortName_same_keys_none ps qs c hk.2 h⟩)

theorem nonEmptyNames_congr (ps qs : List Readable) (hk : SameKeys ps qs)
    (h : NonEmptyNames ps) : NonEmptyNames qs := by
  unfold NonEmptyNames at h ⊢
  rw [hk.1]
  exact h

/-- The inner loop of a short cluster when stripping: the names of the
registry stay, and every emitted token is `-c` for a character `c` that is
not registered. -/
theorem parseShort_emits (reset : cmdLineIntSequence → cmdLineIntSequence)
    (hreset : KeepsNames reset) (N : List CStr) (rest : List CStr) (cs : CStr)
    (ps : List Readable) (S : List CStr) :
    ∃ T ps1 argv1,
      parseShort reset true cs rest ⟨ps, N, S⟩ = (argv1, ⟨ps1, N, S ++ T⟩) ∧
      SameKeys ps ps1 ∧
      ∀ t ∈ T, ∃ c, t = ['-', c] ∧ getReadableByShortName ps c = none := by
  induction cs generalizing ps S with
  | nil => exact ⟨[], ps, rest, by simp [parseShort], sameKeys_refl ps, by simp⟩
  | cons c cs ih =>
    cases hl : getReadableByShortName ps c with
    | some r =>
      obtain ⟨i, opt⟩ := r
      have hi := (getReadableByShortName_some ps c i opt hl).1
      cases hexp : opt.expectsArg with
      | true =>
        have hk := read_keys reset hreset opt (if cs ≠ [] then cs :: rest else rest)
        exact ⟨[], ps.set i (opt.read reset (if cs ≠ [] then cs :: rest else rest)).1,
          (if cs ≠ [] then cs :: rest else rest).drop
            (opt.read reset (if cs ≠ [] then cs :: rest else rest)).2.toNat,
          by simp [parseShort, hl, hexp],
          sameKeys_set ps i opt _ hi hk.1 hk.2, by simp⟩
      | false =>
        have hk := sameKeys_set ps i opt opt.markSet hi (markSet_name opt)
          (markSet_shortName opt)
        obtain ⟨T, ps1, argv1, h1, h2, h3⟩ := ih (ps.set i opt.markSet) S
        refine ⟨T, ps1, argv1, ?_, sameKeys_trans _ _ _ hk h2, ?_⟩
        · rw [parseShort, hl]
          simpa [hexp] using h1
        · intro t ht
          obtain ⟨c1, rfl, hc1⟩ := h3 t ht
          exact ⟨c1, rfl, getReadableByShortName_same_keys_none _ ps c1
            (by rw [hk.2]) hc1⟩
    | none =>
      obtain ⟨T, ps1, argv1, h1, h2, h3⟩ := ih ps (S ++ [['-', c]])
      refine ⟨['-', c] :: T, ps1, argv1, ?_, h2, ?_⟩
      · rw [parseShort, hl]
        simpa using h1
      · intro t ht
        rcases List.mem_cons.1 ht with rfl | h
        · exact ⟨c, rfl, hl⟩
        · exact h3 t h

theorem inert_dash (ps : List Readable) (hne : NonEmptyNames ps) (c : Char)
    (h : getReadableByShortName ps c = none) : Inert ps ['-', c] := by
  by_cases hc : c = '-'
  · subst hc
    refine Or.inr (Or.inl ⟨[], rfl, ?_⟩)
    rw [getReadableByLongName_eq_none]
    intro d hd e
    have e1 : d.name = [] := e
    exact hne (by rw [← e1]; exact List.mem_map_of_mem _ hd)
  · exact Or.inr (Or.inr ⟨c, rfl, hc, h⟩)

/-- One iteration when stripping: the names of the registry stay, the
non-option arguments stay, and every emitted token is inert. -/
theorem parseStep_emits (reset : cmdLineIntSequence → cmdLineIntSequence)
    (hreset : KeepsNames reset) (N S : List CStr) (ps : List Readable)
    (hne : NonEmptyNames ps) (tok : CStr) (rest : List CStr) :
    ∃ T ps1 argv1,
      parseStep reset true tok rest ⟨ps, N, S⟩ = (argv1, ⟨ps1, N, S ++ T⟩) ∧
      SameKeys ps ps1 ∧ ∀ t ∈ T, Inert ps t := by
  by_cases hp : isPlain tok = true
  · refine ⟨[tok], ps, rest, ?_, sameKeys_refl ps, ?_⟩
    · rw [parseStep_plain reset true tok rest _ hp]
      simp
    · intro t ht
      rw [List.mem_singleton.1 ht]
      exact Or.inl hp
  · cases tok with
    | nil => exact absurd (by decide) hp
    | cons c0 t1 =>
      have h0 : c0 = '-' := by
        by_contra h
        exact hp (by simp [isPlain, h])
      subst h0
      have hshort : ∀ cs : CStr, ∃ T ps1 argv1,
          parseShort reset true cs rest ⟨ps, N, S⟩ = (argv1, ⟨ps1, N, S ++ T⟩) ∧
          SameKeys ps ps1 ∧ ∀ t ∈ T, Inert ps t := by
        intro cs
        obtain ⟨T, ps1, argv1, h1, h2, h3⟩ := parseShort_emits reset hreset N rest cs ps S
        refine ⟨T, ps1, argv1, h1, h2, ?_⟩
        intro t ht
        obtain ⟨c, rfl, hc⟩ := h3 t ht
        exact inert_dash ps hne c hc
      cases t1 with
      | nil =>
        obtain ⟨T, ps1, argv1, h1, h2, h3⟩ := hshort []
        exact ⟨T, ps1, argv1, by simpa [parseStep] using h1, h2, h3⟩
      | cons c1 body =>
        by_cases h1 : c1 = '-'
        · subst h1
          cases hl : getReadableByLongName ps (findEq body).1 with
          | none =>
            refine ⟨['-' :: '-' :: body], ps, rest, ?_, sameKeys_refl ps, ?_⟩
            · rw [parseStep_unknown_long reset true body rest _ hl]
              simp
            · intro t ht
              rw [List.mem_singleton.1 ht]
              exact Or.inr (Or.inl ⟨body, rfl, hl⟩)
          | some r =>
            obtain ⟨i, opt⟩ := r
            have hi := (getReadableByLongName_some ps _ i opt hl).1
            cases hexp : opt.expectsArg with
            | true =>
              have hk := read_keys reset hreset opt (match (findEq body).2 with
                | some v => v :: rest
                | none => rest)
              exact ⟨[], ps.set i (opt.read reset (match (findEq body).2 with
                  | some v => v :: rest
                  | none => rest)).1,
                (match (findEq body).2 with
                  | some v => v :: rest
                  | none => rest).drop (opt.read reset (match (findEq body).2 with
                  | some v => v :: rest
                  | none => rest)).2.toNat,
                by simp [parseStep, parseLong, hl, hexp],
                sameKeys_set ps i opt _ hi hk.1 hk.2, by simp⟩
            | false =>
              cases he : (findEq body).2 with
              | some v =>
                exact ⟨[], ps, v :: rest, by simp [parseStep, parseLong, hl, hexp, he],
                  sameKeys_refl ps, by simp⟩
              | none =>
                exact ⟨[], ps.set i opt.markSet, rest,
                  by simp [parseStep, parseLong, hl, hexp, he],
                  sameKeys_set ps i opt _ hi (markSet_name opt) (markSet_shortName opt),
                  by simp⟩
        · obtain ⟨T, ps1, argv1, e1, h2, h3⟩ := hshort (c1 :: body)
          exact ⟨T, ps1, argv1, by simpa [parseStep, h1] using e1, h2, h3⟩

/-- The whole loop when stripping: the names of the registry and the
non-option arguments stay, and every emitted token is inert. -/
theorem run_emits (reset : cmdLineIntSequence → cmdLineIntSequence)
    (hreset : KeepsNames reset) (N : List CStr) (n : Nat) :
    ∀ (argv : List CStr), scanFuel argv = n →
    ∀ (ps : List Readable) (S : List CStr), NonEmptyNames ps →
    ∃ T ps1,
      run reset true argv ⟨ps, N, S⟩ = some ⟨ps1, N, S ++ T⟩ ∧
      SameKeys ps ps1 ∧ ∀ t ∈ T, Inert ps t := by
  induction n using Nat.strong_induction_on with
  | _ n ih =>
    intro argv hn ps S hne
    cases argv with
    | nil => exact ⟨[], ps, by simp [run_nil], sameKeys_refl ps, by simp⟩
    | cons tok rest =>
      obtain ⟨T, ps1, argv1, e1, h2, h3⟩ := parseStep_emits reset hreset N S ps hne tok rest
      have hlt := parseStep_fuel reset true tok rest ⟨ps, N, S⟩
      rw [e1] at hlt
      obtain ⟨T2, ps2, r1, r2, r3⟩ :=
        ih (scanFuel argv1) (by simp only at hlt; omega) argv1 rfl ps1 (S ++ T)
          (nonEmptyNames_congr ps ps1 h2 hne)
      refine ⟨T ++ T2, ps2, ?_, sameKeys_trans _ _ _ h2 r2, ?_⟩
      · rw [run_cons, e1]
        simp only
        rw [r1]
        simp
      · intro t ht
        rcases List.mem_append.1 ht with h | h
        · exact h3 t h
        · exact inert_congr ps1 ps t ⟨h2.1.symm, h2.2.symm⟩ (r3 t h)

/-- A stripping pass over inert tokens returns them unchanged and changes
nothing else. -/
theorem run_inert (reset : cmdLineIntSequence → cmdLineIntSequence) (qs : List Readable)
    (N : List CStr) (T : List CStr) (hT : ∀ t ∈ T, Inert qs t) (S : List CStr) :
    run reset true T ⟨qs, N, S⟩ = some ⟨qs, N, S ++ T⟩ := by
  induction T generalizing S with
  | nil => simp [run_nil]
  | cons t T ih =>
    have hstep : parseStep reset true t T ⟨qs, N, S⟩ = (T, ⟨qs, N, S ++ [t]⟩) := by
      rcases hT t (List.mem_cons_self _ _) with h | ⟨body, rfl, h⟩ | ⟨c, rfl, hc, h⟩
      · rw [parseStep_plain reset true t T _ h]
        simp
      · rw [parseStep_unknown_long reset true body T _ h]
        simp
      · rw [parseStep_strip_unmatched reset ⟨qs, N, S⟩ ['-', c] T
          (by intro body hb; simp only [List.cons.injEq, true_and] at hb; exact absurd hb.1 hc)
          (by
            intro c1 cs hb _ x hx
            simp only [List.cons.injEq, true_and] at hb
            obtain ⟨rfl, rfl⟩ := hb
            rw [List.mem_singleton.1 hx]
            exact h)]
        simp [reencode, hc]
    rw [run_cons, hstep]
    simp only
    rw [ih (fun u hu => hT u (List.mem_cons_of_mem _ hu))]
    simp

/-- C19: with `reset()` leaving names alone, for every argument vector with
the invocation path and every registry without an empty long name, the
stripping pass ends normally, and a second stripping pass over its stripped
output, with the same registry as the first pass left it, ends normally,
returns that same stripped output and changes no descriptor (nor the
non-option arguments). -/
theorem strip_idempotent (reset : cmdLineIntSequence → cmdLineIntSequence)
    (hreset : KeepsNames reset) (R : List Readable) (hnames : NonEmptyNames R)
    (path : CStr) (rest : List CStr) (nonoptArgs nonoptArgs2 : List CStr) :
    ∃ s1, cmdLineParse reset true (path :: rest) R nonoptArgs = some s1 ∧
      cmdLineParse reset true s1.strippedArgs s1.params nonoptArgs2 =
        some ⟨s1.params, nonoptArgs2, s1.strippedArgs⟩ := by
  obtain ⟨T, ps1, r1, r2, r3⟩ :=
    run_emits reset hreset nonoptArgs (scanFuel rest) rest rfl R [path] hnames
  refine ⟨⟨ps1, nonoptArgs, path :: T⟩, by simpa [cmdLineParse] using r1, ?_⟩
  have := run_inert reset ps1 nonoptArgs2 T (fun t ht => inert_congr R ps1 t r2 (r3 t ht)) [path]
  simpa [cmdLineParse] using this

/-- Instance of C19: a vector with matched, unmatched and plain tokens. -/
theorem strip_idempotent_witness :
    ∃ s1, cmdLineParse id true
        ["prog".toList, "-axz".toList, "--num".toList, "5".toList, "p".toList,
         "--other=1".toList, "-a-".toList]
        [Readable.flag (cmdLineReadable.new "all".toList 'a'),
         Readable.int (cmdLineInt.new "num".toList 0 'n')] [] = some s1 ∧
      cmdLineParse id true s1.strippedArgs s1.params [] =
        some ⟨s1.params, [], s1.strippedArgs⟩ :=
  strip_idempotent id (fun _ => ⟨rfl, rfl⟩)
    [Readable.flag (cmdLineReadable.new "all".toList 'a'),
     Readable.int (cmdLineInt.new "num".toList 0 'n')] (by decide) "prog".toList
    ["-axz".toList, "--num".toList, "5".toList, "p".toList, "--other=1".toList,
     "-a-".toList] [] []

/-! ## Cursor safety -/

theorem elements_eq (argv : List CStr) (i n : Nat) (h : i + n ≤ argv.length) :
    elements argv i n = some ((argv.drop i).take n) := by
  induction n generalizing i with
  | zero => simp [elements]
  | succ n ih =>
    have hi : i < argv.length := by omega
    rw [elements, List.getElem?_eq_getElem hi]
    simp only
    rw [ih (i + 1) (by omega)]
    simp only [Option.map_some']
    rw [List.drop_eq_getElem_cons hi, List.take_succ_cons]

theorem cmdLineInts_readChecked_eq (d : cmdLineInts) (argv : List CStr) :
    d.readChecked argv = some (d.read argv) := by
  cases argv with
  | nil => rfl
  | cons a rest =>
    simp only [cmdLineInts.readChecked, cmdLineInts.read]
    split
    · rfl
    · next h =>
      have hb : 1 + (atoi a).toNat ≤ (a :: rest).length := by
        simp only [List.length_cons, Nat.cast_add, Nat.cast_one] at h ⊢
        omega
      rw [elements_eq _ _ _ hb]
      simp

theorem cmdLineStrings_readChecked_eq (d : cmdLineStrings) (argv : List CStr) :
    d.readChecked argv = some (d.read argv) := by
  cases argv with
  | nil => rfl
  | cons a rest =>
    simp only [cmdLineStrings.readChecked, cmdLineStrings.read]
    split
    · rfl
    · next h =>
      have hb : 1 + (atoi a).toNat ≤ (a :: rest).length := by
        simp only [List.length_cons, Nat.cast_add, Nat.cast_one] at h ⊢
        omega
      rw [elements_eq _ _ _ hb]
      simp

theorem readChecked_eq (reset : cmdLineIntSequence → cmdLineIntSequence) (d : Readable)
    (argv : List CStr) : d.readChecked reset argv = some (d.read reset argv) := by
  cases d with
  | ints d => simp [Readable.readChecked, Readable.read, cmdLineInts_readChecked_eq]
  | strings d => simp [Readable.readChecked, Readable.read, cmdLineStrings_readChecked_eq]
  | flag d => rfl
  | int d => rfl
  | intSequence d => rfl
  | float d => rfl
  | string d => rfl

/-- A read reports between 0 and the number of offered tokens. -/
theorem read_bounds (reset : cmdLineIntSequence → cmdLineIntSequence) (d : Readable)
    (argv : List CStr) :
    0 ≤ (d.read reset argv).2 ∧ (d.read reset argv).2 ≤ (argv.length : Int) := by
  have hone : ∀ (a : CStr) (rest : List CStr), (1 : Int) ≤ ((a :: rest).length : Int) := by
    intro a rest
    simp only [List.length_cons, Nat.cast_add, Nat.cast_one]
    omega
  cases d with
  | flag d => exact ⟨le_refl _, by simp [Readable.read, cmdLineReadable.read]⟩
  | int d =>
    cases argv with
    | nil => exact ⟨le_refl _, le_refl _⟩
    | cons a rest => exact ⟨(by decide : (0 : Int) ≤ 1), hone a rest⟩
  | intSequence d =>
    cases argv with
    | nil => exact ⟨le_refl _, le_refl _⟩
    | cons a rest => exact ⟨(by decide : (0 : Int) ≤ 1), hone a rest⟩
  | float d =>
    cases argv with
    | nil => exact ⟨le_refl _, le_refl _⟩
    | cons a rest => exact ⟨(by decide : (0 : Int) ≤ 1), hone a rest⟩
  | string d =>
    cases argv with
    | nil => exact ⟨le_refl _, le_refl _⟩
    | cons a rest => exact ⟨(by decide : (0 : Int) ≤ 1), hone a rest⟩
  | ints d =>
    cases argv with
    | nil => exact ⟨le_refl _, le_refl _⟩
    | cons a rest =>
      simp only [Readable.read, cmdLineInts.read]
      split
      · exact ⟨(by decide : (0 : Int) ≤ 1), hone a rest⟩
      · next h =>
        simp only [List.length_cons, Nat.cast_add, Nat.cast_one] at h ⊢
        omega
  | strings d =>
    cases argv with
    | nil => exact ⟨le_refl _, le_refl _⟩
    | cons a rest =>
      simp only [Readable.read, cmdLineStrings.read]
      split
      · exact ⟨(by decide : (0 : Int) ≤ 1), hone a rest⟩
      · next h =>
        simp only [List.length_cons, Nat.cast_add, Nat.cast_one] at h ⊢
        omega

theorem drop_set_self (l : List CStr) (n : Nat) (v t : CStr) (rest : List CStr)
    (h : l.drop n = t :: rest) : (l.set n v).drop n = v :: rest := by
  induction l generalizing n with
  | nil => simp at h
  | cons a l ih =>
    cases n with
    | zero =>
      simp only [List.drop_zero, List.cons.injEq] at h
      simp [h.2]
    | succ n =>
      simp only [List.drop_succ_cons] at h
      simpa using ih n h

theorem tracks_entry (m : Machine) (tok : CStr) (rest : List CStr)
    (h : Tracks m (tok :: rest)) : m.entry = some tok := by
  obtain ⟨h0, _, _, hd⟩ := h
  have := List.getElem?_drop m.mem m.argv.toNat 0
  rw [hd] at this
  simp only [Machine.entry, h0, if_true]
  simpa using this.symm

theorem tracks_point (m : Machine) (tok v : CStr) (rest : List CStr)
    (h : Tracks m (tok :: rest)) : Tracks (m.point v) (v :: rest) := by
  obtain ⟨h0, h1, h2, hd⟩ := h
  refine ⟨h0, ?_, ?_, ?_⟩
  · simpa [Machine.point] using h1
  · simpa [Machine.point] using h2
  · exact drop_set_self m.mem _ v tok rest hd

theorem tracks_move (m m1 : Machine) (l : List CStr) (k : Int) (h : Tracks m l)
    (hmem : m1.mem = m.mem) (hargv : m1.argv = m.argv + k) (hargc : m1.argc = m.argc - k)
    (hk0 : 0 ≤ k) (hk : k ≤ (l.length : Int)) : Tracks m1 (l.drop k.toNat) := by
  obtain ⟨h0, h1, h2, hd⟩ := h
  refine ⟨by omega, ?_, by rw [hmem]; omega, ?_⟩
  · rw [hargc, h1, List.length_drop]
    omega
  · have e : m1.argv.toNat = m.argv.toNat + k.toNat := by omega
    rw [hmem, e, ← hd, List.drop_drop]

theorem tracks_st (m : Machine) (l : List CStr) (st : ParseState) (h : Tracks m l) :
    Tracks { m with st := st } l := h

theorem tracks_offered (m : Machine) (l : List CStr) (h : Tracks m l) :
    m.offered = some l := by
  obtain ⟨h0, h1, h2, hd⟩ := h
  have hc : 0 ≤ m.argc ∧ 0 ≤ m.argv ∧ m.argv + m.argc ≤ (m.mem.length : Int) := by
    refine ⟨by omega, h0, by omega⟩
  have ht : m.argc.toNat = l.length := by omega
  simp only [Machine.offered, hc, and_self, if_true, hd, ht, List.take_length]

theorem tracks_call (reset : cmdLineIntSequence → cmdLineIntSequence) (m : Machine)
    (l : List CStr) (opt : Readable) (h : Tracks m l) :
    m.call reset opt = some (opt.read reset l) := by
  have hb := read_bounds reset opt l
  have hc : 0 ≤ (opt.read reset l).2 ∧ (opt.read reset l).2 ≤ m.argc := by
    rw [h.2.1]
    exact hb
  simp only [Machine.call, tracks_offered m l h, readChecked_eq, hc, and_self, if_true]

theorem point_st (m : Machine) (v : CStr) : (m.point v).st = m.st := rfl

theorem advance_st (m : Machine) (k : Int) : (m.advance k).st = m.st := rfl

theorem tracks_advance_one (m : Machine) (t : CStr) (rest : List CStr)
    (h : Tracks m (t :: rest)) : Tracks (m.advance 1) rest := by
  have := tracks_move m (m.advance 1) (t :: rest) 1 h rfl rfl rfl (by decide)
    (by simp only [List.length_cons, Nat.cast_add, Nat.cast_one]; omega)
  simpa using this

theorem tracks_read (reset : cmdLineIntSequence → cmdLineIntSequence) (m : Machine)
    (l : List CStr) (opt : Readable) (st : ParseState) (h : Tracks m l) :
    Tracks ({ m with st := st }.advance (opt.read reset l).2)
      (l.drop (opt.read reset l).2.toNat) :=
  tracks_move m _ l _ h rfl rfl rfl (read_bounds reset opt l).1 (read_bounds reset opt l).2

/-- The long-option branch with the explicit cursor does not fault and
agrees with `parseLong`. -/
theorem longChecked_eq (reset : cmdLineIntSequence → cmdLineIntSequence) (stripping : Bool)
    (cur body tok : CStr) (rest : List CStr) (m : Machine) (h : Tracks m (tok :: rest)) :
    ∃ m1, longChecked reset stripping cur body m = some m1 ∧
      Tracks m1 (parseLong reset stripping cur body rest m.st).1 ∧
      m1.st = (parseLong reset stripping cur body rest m.st).2 := by
  cases he : (findEq body).2 with
  | some v =>
    have hT : Tracks (m.point v) (v :: rest) := tracks_point m tok v rest h
    cases hl : getReadableByLongName m.st.params (findEq body).1 with
    | some r =>
      obtain ⟨i, opt⟩ := r
      cases hexp : opt.expectsArg with
      | true =>
        have hcall := tracks_call reset (m.point v) (v :: rest) opt hT
        refine ⟨({ m.point v with st := { m.st with
            params := m.st.params.set i (opt.read reset (v :: rest)).1 } }).advance
            (opt.read reset (v :: rest)).2, ?_, ?_, ?_⟩
        · simp [longChecked, he, point_st, hl, hexp, hcall]
        · simpa [parseLong, he, hl, hexp] using
            tracks_read reset (m.point v) (v :: rest) opt _ hT
        · simp [parseLong, he, hl, hexp, advance_st]
      | false =>
        exact ⟨m.point v, by simp [longChecked, he, hl, hexp, Machine.point],
          by simpa [parseLong, he, hl, hexp] using hT,
          by simp [parseLong, he, hl, hexp, Machine.point]⟩
    | none =>
      cases stripping with
      | false =>
        exact ⟨(m.point v).advance 1, by simp [longChecked, he, hl, Machine.point],
          by simpa [parseLong, he, hl] using tracks_advance_one _ v rest hT,
          by simp [parseLong, he, hl, Machine.point, Machine.advance]⟩
      | true =>
        refine ⟨({ m.point v with st := { m.st with
            strippedArgs := m.st.strippedArgs ++ [cur] } }).advance 1,
          by simp [longChecked, he, hl, Machine.point], ?_,
          by simp [parseLong, he, hl, Machine.point, Machine.advance]⟩
        simpa [parseLong, he, hl] using
          tracks_advance_one _ v rest (tracks_st (m.point v) _ _ hT)
  | none =>
    have hT : Tracks ((m.point body).advance 1) rest :=
      tracks_advance_one _ body rest (tracks_point m tok body rest h)
    cases hl : getReadableByLongName m.st.params (findEq body).1 with
    | some r =>
      obtain ⟨i, opt⟩ := r
      cases hexp : opt.expectsArg with
      | true =>
        have hcall := tracks_call reset ((m.point body).advance 1) rest opt hT
        refine ⟨({ (m.point body).advance 1 with st := { m.st with
            params := m.st.params.set i (opt.read reset rest).1 } }).advance
            (opt.read reset rest).2, ?_, ?_, ?_⟩
        · simp [longChecked, he, point_st, advance_st, hl, hexp, hcall]
        · simpa [parseLong, he, hl, hexp] using
            tracks_read reset ((m.point body).advance 1) rest opt _ hT
        · simp [parseLong, he, hl, hexp, advance_st]
      | false =>
        exact ⟨{ (m.point body).advance 1 with st := { m.st with
            params := m.st.params.set i opt.markSet } },
          by simp [longChecked, he, hl, hexp, Machine.point, Machine.advance],
          by simpa [parseLong, he, hl, hexp] using tracks_st _ _ _ hT,
          by simp [parseLong, he, hl, hexp]⟩
    | none =>
      cases stripping with
      | false =>
        exact ⟨(m.point body).advance 1,
          by simp [longChecked, he, hl, Machine.point, Machine.advance],
          by simpa [parseLong, he, hl] using hT,
          by simp [parseLong, he, hl, Machine.point, Machine.advance]⟩
      | true =>
        exact ⟨{ (m.point body).advance 1 with st := { m.st with
            strippedArgs := m.st.strippedArgs ++ [cur] } },
          by simp [longChecked, he, hl, Machine.point, Machine.advance],
          by simpa [parseLong, he, hl] using tracks_st _ _ _ hT,
          by simp [parseLong, he, hl]⟩

/-- The short-option branch with the explicit cursor does not fault and
agrees with `parseShort`. -/
theorem shortChecked_eq (reset : cmdLineIntSequence → cmdLineIntSequence) (stripping : Bool)
    (cs tok : CStr) (rest : List CStr) (m : Machine) (h : Tracks m (tok :: rest)) :
    ∃ m1, shortChecked reset stripping cs m = some m1 ∧
      Tracks m1 (parseShort reset stripping cs rest m.st).1 ∧
      m1.st = (parseShort reset stripping cs rest m.st).2 := by
  induction cs generalizing m with
  | nil =>
    exact ⟨m.advance 1, rfl, by simpa [parseShort] using tracks_advance_one m tok rest h,
      by simp [parseShort, advance_st]⟩
  | cons c cs ih =>
    cases hl : getReadableByShortName m.st.params c with
    | some r =>
      obtain ⟨i, opt⟩ := r
      cases hexp : opt.expectsArg with
      | false =>
        obtain ⟨m1, h1, h2, h3⟩ :=
          ih { m with st := { m.st with params := m.st.params.set i opt.markSet } }
            (tracks_st m _ _ h)
        exact ⟨m1, by rw [shortChecked, hl]; simpa [hexp] using h1,
          by rw [parseShort, hl]; simpa [hexp] using h2,
          by rw [parseShort, hl]; simpa [hexp] using h3⟩
      | true =>
        by_cases hcs : cs = []
        · subst hcs
          have hT : Tracks ((m.point []).advance 1) rest :=
            tracks_advance_one _ [] rest (tracks_point m tok [] rest h)
          have hcall := tracks_call reset ((m.point []).advance 1) rest opt hT
          have hb := read_bounds reset opt rest
          refine ⟨((({ (m.point []).advance 1 with st := { m.st with
              params := m.st.params.set i (opt.read reset rest).1 } }).advance
              ((opt.read reset rest).2 - 1)).advance 1), ?_, ?_, ?_⟩
          · simp [shortChecked, hl, hexp, point_st, advance_st, hcall]
          · have := tracks_move ((m.point []).advance 1)
              ((({ (m.point []).advance 1 with st := { m.st with
                params := m.st.params.set i (opt.read reset rest).1 } }).advance
                ((opt.read reset rest).2 - 1)).advance 1) rest (opt.read reset rest).2 hT rfl
              (by simp only [Machine.advance]; omega) (by simp only [Machine.advance]; omega)
              hb.1 hb.2
            simpa [parseShort, hl, hexp] using this
          · simp [parseShort, hl, hexp, advance_st]
        · have hT : Tracks (m.point cs) (cs :: rest) := tracks_point m tok cs rest h
          have hcall := tracks_call reset (m.point cs) (cs :: rest) opt hT
          have hb := read_bounds reset opt (cs :: rest)
          refine ⟨((({ m.point cs with st := { m.st with
              params := m.st.params.set i (opt.read reset (cs :: rest)).1 } }).advance
              ((opt.read reset (cs :: rest)).2 - 1)).advance 1), ?_, ?_, ?_⟩
          · simp [shortChecked, hl, hexp, hcs, point_st, hcall]
          · have := tracks_move (m.point cs)
              ((({ m.point cs with st := { m.st with
                params := m.st.params.set i (opt.read reset (cs :: rest)).1 } }).advance
                ((opt.read reset (cs :: rest)).2 - 1)).advance 1) (cs :: rest)
              (opt.read reset (cs :: rest)).2 hT rfl
              (by simp only [Machine.advance]; omega) (by simp only [Machine.advance]; omega)
              hb.1 hb.2
            simpa [parseShort, hl, hexp, hcs] using this
          · simp [parseShort, hl, hexp, hcs, advance_st]
    | none =>
      cases stripping with
      | false =>
        obtain ⟨m1, h1, h2, h3⟩ := ih m h
        exact ⟨m1, by rw [shortChecked, hl]; simpa using h1,
          by rw [parseShort, hl]; simpa using h2, by rw [parseShort, hl]; simpa using h3⟩
      | true =>
        obtain ⟨m1, h1, h2, h3⟩ :=
          ih { m with st := { m.st with strippedArgs := m.st.strippedArgs ++ [['-', c]] } }
            (tracks_st m _ _ h)
        exact ⟨m1, by rw [shortChecked, hl]; simpa using h1,
          by rw [parseShort, hl]; simpa using h2, by rw [parseShort, hl]; simpa using h3⟩

/-- One iteration with the explicit cursor does not fault and agrees with
`parseStep`. -/
theorem stepChecked_eq (reset : cmdLineIntSequence → cmdLineIntSequence) (stripping : Bool)
    (tok : CStr) (rest : List CStr) (m : Machine) (h : Tracks m (tok :: rest)) :
    ∃ m1, stepChecked reset stripping m = some m1 ∧
      Tracks m1 (parseStep reset stripping tok rest m.st).1 ∧
      m1.st = (parseStep reset stripping tok rest m.st).2 := by
  have hentry := tracks_entry m tok rest h
  have hplain : isPlain tok = true →
      ∃ m1, stepChecked reset stripping m = some m1 ∧
        Tracks m1 (parseStep reset stripping tok rest m.st).1 ∧
        m1.st = (parseStep reset stripping tok rest m.st).2 := by
    intro hp
    rw [parseStep_plain reset stripping tok rest m.st hp]
    refine ⟨({ m with st :=
        if stripping then { m.st with strippedArgs := m.st.strippedArgs ++ [tok] }
        else { m.st with nonoptArgs := m.st.nonoptArgs ++ [tok] } }).advance 1, ?_,
      tracks_advance_one _ tok rest (tracks_st m _ _ h), rfl⟩
    cases tok with
    | nil => simp [stepChecked, hentry]
    | cons c0 t1 =>
      have h0 : c0 ≠ '-' := by simpa [isPlain] using hp
      simp [stepChecked, hentry, h0]
  cases tok with
  | nil => exact hplain (by decide)
  | cons c0 t1 =>
    by_cases h0 : c0 = '-'
    · subst h0
      cases t1 with
      | nil =>
        obtain ⟨m1, h1, h2, h3⟩ := shortChecked_eq reset stripping [] _ rest m h
        exact ⟨m1, by simpa [stepChecked, hentry] using h1,
          by simpa [parseStep] using h2, by simpa [parseStep] using h3⟩
      | cons c1 body =>
        by_cases h1 : c1 = '-'
        · subst h1
          obtain ⟨m1, e1, e2, e3⟩ :=
            longChecked_eq reset stripping ('-' :: '-' :: body) body _ rest m h
          exact ⟨m1, by simpa [stepChecked, hentry] using e1,
            by simpa [parseStep] using e2, by simpa [parseStep] using e3⟩
        · obtain ⟨m1, e1, e2, e3⟩ := shortChecked_eq reset stripping (c1 :: body) _ rest m h
          exact ⟨m1, by simpa [stepChecked, hentry, h1] using e1,
            by simpa [parseStep, h1] using e2, by simpa [parseStep, h1] using e3⟩
    · exact hplain (by simp [isPlain, h0])

/-- The loop with the explicit cursor does not fault and ends as `scan`
does. -/
theorem scanChecked_eq (reset : cmdLineIntSequence → cmdLineIntSequence) (stripping : Bool)
    (fuel : Nat) (m : Machine) (l : List CStr) (h : Tracks m l) (hf : scanFuel l ≤ fuel) :
    ∃ r, scanChecked reset stripping fuel m = Checked.done r ∧
      scan reset stripping fuel l m.st = some r := by
  induction fuel generalizing m l with
  | zero =>
    cases l with
    | nil =>
      have hc : m.argc = 0 := by simpa using h.2.1
      exact ⟨m.st, by simp [scanChecked, hc], by simp [scan_nil]⟩
    | cons t l => simp [scanFuel_cons] at hf
  | succ fuel ih =>
    cases l with
    | nil =>
      have hc : m.argc = 0 := by simpa using h.2.1
      exact ⟨m.st, by simp [scanChecked, hc], by simp [scan_nil]⟩
    | cons t l =>
      have hc : ¬ m.argc < 0 ∧ ¬ m.argc = 0 := by
        have := h.2.1
        simp only [List.length_cons, Nat.cast_add, Nat.cast_one] at this
        omega
      obtain ⟨m1, e1, e2, e3⟩ := stepChecked_eq reset stripping t l m h
      have hlt := parseStep_fuel reset stripping t l m.st
      obtain ⟨r, r1, r2⟩ := ih m1 _ e2 (by omega)
      refine ⟨r, ?_, ?_⟩
      · simp only [scanChecked, hc.1, hc.2, if_false, e1]
        exact r1
      · simp only [scan]
        rw [← e3]
        exact r2

/-- C20: for every argument vector with at least the invocation path, every
registry and both modes, the run of `cmdLineParse` with the explicit cursor
ends without a fault and with the result of `cmdLineParse`: the counter is
never negative at the loop head, every entry read lies within the vector,
every read is offered entries within the vector and reports a count between
0 and the number offered, and the element reads of the counted sequences lie
within the offered entries. -/
theorem cmdLineParse_cursor_safe (reset : cmdLineIntSequence → cmdLineIntSequence)
    (stripping : Bool) (path : CStr) (rest : List CStr) (params : List Readable)
    (nonoptArgs : List CStr) :
    (∃ r, cmdLineParseChecked reset stripping (path :: rest) params nonoptArgs =
        Checked.done r ∧
      cmdLineParse reset stripping (path :: rest) params nonoptArgs = some r) ∧
    (∀ (d : Readable) (argv : List CStr),
      0 ≤ (d.read reset argv).2 ∧ (d.read reset argv).2 ≤ (argv.length : Int) ∧
      d.readChecked reset argv = some (d.read reset argv)) := by
  refine ⟨?_, fun d argv => ⟨(read_bounds reset d argv).1, (read_bounds reset d argv).2,
    readChecked_eq reset d argv⟩⟩
  have h0 : Tracks ⟨path :: rest, 0, ((path :: rest).length : Int),
      ⟨params, nonoptArgs, []⟩⟩ (path :: rest) :=
    ⟨le_refl _, rfl, by simp, rfl⟩
  cases stripping with
  | false =>
    obtain ⟨r, r1, r2⟩ := scanChecked_eq reset false (scanFuel rest) _ rest
      (tracks_advance_one _ path rest h0) (le_refl _)
    exact ⟨r, by simpa [cmdLineParseChecked] using r1, by simpa [cmdLineParse, run] using r2⟩
  | true =>
    obtain ⟨r, r1, r2⟩ := scanChecked_eq reset true (scanFuel rest) _ rest
      (tracks_advance_one _ path rest
        (tracks_st _ _ ⟨params, nonoptArgs, [path]⟩ h0)) (le_refl _)
    exact ⟨r, by simpa [cmdLineParseChecked, Machine.entry] using r1,
      by simpa [cmdLineParse, run] using r2⟩

/-! ## The state of a counted sequence over several reads -/

theorem cmdLineInts_reads_append (d : cmdLineInts) (pre : List (List CStr)) (last : List CStr) :
    d.reads (pre ++ [last]) = ((d.reads pre).read last).1 := by
  induction pre generalizing d with
  | nil => rfl
  | cons a pre ih => exact ih _

theorem cmdLineStrings_reads_append (d : cmdLineStrings) (pre : List (List CStr))
    (last : List CStr) :
    d.reads (pre ++ [last]) = ((d.reads pre).read last).1 := by
  induction pre generalizing d with
  | nil => rfl
  | cons a pre ih => exact ih _

theorem cmdLineInts_read_state (d : cmdLineInts) (argv : List CStr) :
    (d.read argv).1.set = (d.set || readSucceeds argv) ∧
    (d.read argv).1.values =
      (if readSucceeds argv then (elementTokens argv).map atoi else d.values) ∧
    (d.read argv).1.name = d.name ∧ (d.read argv).1.shortName = d.shortName := by
  cases argv with
  | nil => simp [cmdLineInts.read, readSucceeds]
  | cons a rest =>
    by_cases h : atoi a ≤ 0 ∨ (rest.length : Int) + 1 ≤ atoi a
    · have h2 : ¬ (0 < atoi a ∧ atoi a < (rest.length : Int) + 1) := by omega
      simp [cmdLineInts.read, readSucceeds, h, h2]
    · have h2 : 0 < atoi a ∧ atoi a < (rest.length : Int) + 1 := by omega
      simp [cmdLineInts.read, readSucceeds, h, h2, elementTokens]

theorem cmdLineStrings_read_state (d : cmdLineStrings) (argv : List CStr) :
    (d.read argv).1.set = (d.set || readSucceeds argv) ∧
    (d.read argv).1.values = (if readSucceeds argv then elementTokens argv else d.values) ∧
    (d.read argv).1.name = d.name ∧ (d.read argv).1.shortName = d.shortName := by
  cases argv with
  | nil => simp [cmdLineStrings.read, readSucceeds]
  | cons a rest =>
    by_cases h : atoi a ≤ 0 ∨ (rest.length : Int) + 1 ≤ atoi a
    · have h2 : ¬ (0 < atoi a ∧ atoi a < (rest.length : Int) + 1) := by omega
      simp [cmdLineStrings.read, readSucceeds, h, h2]
    · have h2 : 0 < atoi a ∧ atoi a < (rest.length : Int) + 1 := by omega
      simp [cmdLineStrings.read, readSucceeds, h, h2, elementTokens]

theorem elementTokens_length (argv : List CStr) (h : readSucceeds argv = true) :
    ∃ a rest, argv = a :: rest ∧ ((elementTokens argv).length : Int) = atoi a := by
  cases argv with
  | nil => simp [readSucceeds] at h
  | cons a rest =>
    refine ⟨a, rest, rfl, ?_⟩
    simp only [readSucceeds, Bool.not_eq_true', decide_eq_false_iff_not, not_or, not_le,
      List.length_cons] at h
    simp only [elementTokens, List.length_take]
    push_cast at h
    omega

theorem cmdLineInts_read_count (d : cmdLineInts) (argv : List CStr)
    (h : readSucceeds argv = true) :
    (d.read argv).1.count = ((d.read argv).1.values.length : Int) := by
  obtain ⟨a, rest, rfl, hl⟩ := elementTokens_length argv h
  rw [(cmdLineInts_read_state d (a :: rest)).2.1, if_pos h, List.length_map, hl]
  have h2 : ¬ (atoi a ≤ 0 ∨ (rest.length : Int) + 1 ≤ atoi a) := by
    simpa [readSucceeds] using h
  simp [cmdLineInts.read, h2]

theorem cmdLineStrings_read_count (d : cmdLineStrings) (argv : List CStr)
    (h : readSucceeds argv = true) :
    (d.read argv).1.count = ((d.read argv).1.values.length : Int) := by
  obtain ⟨a, rest, rfl, hl⟩ := elementTokens_length argv h
  rw [(cmdLineStrings_read_state d (a :: rest)).2.1, if_pos h, hl]
  have h2 : ¬ (atoi a ≤ 0 ∨ (rest.length : Int) + 1 ≤ atoi a) := by
    simpa [readSucceeds] using h
  simp [cmdLineStrings.read, h2]

theorem cmdLineInts_reads_state (d : cmdLineInts) (slices : List (List CStr)) :
    (d.reads slices).set = (d.set || (lastSuccess slices).isSome) ∧
    (d.reads slices).values =
      (match lastSuccess slices with
       | some argv => (elementTokens argv).map atoi
       | none => d.values) := by
  induction slices generalizing d with
  | nil => simp [cmdLineInts.reads, lastSuccess]
  | cons a more ih =>
    have h1 := cmdLineInts_read_state d a
    have h2 := ih (d.read a).1
    simp only [cmdLineInts.reads, lastSuccess]
    rw [h2.1, h2.2, h1.1, h1.2.1]
    cases hm : lastSuccess more with
    | some b => simp
    | none => cases hs : readSucceeds a <;> simp

theorem cmdLineStrings_reads_state (d : cmdLineStrings) (slices : List (List CStr)) :
    (d.reads slices).set = (d.set || (lastSuccess slices).isSome) ∧
    (d.reads slices).values =
      (match lastSuccess slices with
       | some argv => elementTokens argv
       | none => d.values) := by
  induction slices generalizing d with
  | nil => simp [cmdLineStrings.reads, lastSuccess]
  | cons a more ih =>
    have h1 := cmdLineStrings_read_state d a
    have h2 := ih (d.read a).1
    simp only [cmdLineStrings.reads, lastSuccess]
    rw [h2.1, h2.2, h1.1, h1.2.1]
    cases hm : lastSuccess more with
    | some b => simp
    | none => cases hs : readSucceeds a <;> simp


/-- C21, as stated, fails: on a fresh descriptor, a read of the slice `1 7`
followed by a read of the slice `5` (five elements declared, none given)
leaves `count = 5` beside the one stored element, and `set` true although
the latest read stored nothing; for the integer and the string sequence
alike. The read of `5` alone already leaves `count = 5` with no element. -/
theorem counted_state_counterexample :
    readSucceeds ["5".toList] = false ∧
    ((cmdLineInts.new "n".toList 'n').reads [["1".toList, "7".toList], ["5".toList]]).count
      = 5 ∧
    ((cmdLineInts.new "n".toList 'n').reads [["1".toList, "7".toList], ["5".toList]]).values
      = [7] ∧
    ((cmdLineInts.new "n".toList 'n').reads [["1".toList, "7".toList], ["5".toList]]).set
      = true ∧
    ((cmdLineStrings.new "s".toList 's').reads [["1".toList, "7".toList], ["5".toList]]).count
      = 5 ∧
    ((cmdLineStrings.new "s".toList 's').reads [["1".toList, "7".toList], ["5".toList]]).values
      = ["7".toList] ∧
    ((cmdLineStrings.new "s".toList 's').reads [["1".toList, "7".toList], ["5".toList]]).set
      = true ∧
    ((cmdLineInts.new "n".toList 'n').reads [["5".toList]]).count = 5 ∧
    ((cmdLineInts.new "n".toList 'n').reads [["5".toList]]).values = [] := by
  decide

/-- C21, amended: after any sequence of reads of a fresh `cmdLineInts` or
`cmdLineStrings` descriptor, `set` is true exactly when some read of the
sequence succeeded, the stored elements are those of the most recent
successful read (none when no read succeeded), and the stored count equals
the number of stored elements whenever the most recent read succeeded. -/
theorem counted_reads_invariant (name : CStr) (shortName : Char)
    (slices : List (List CStr)) :
    (((cmdLineInts.new name shortName).reads slices).set = (lastSuccess slices).isSome ∧
     ((cmdLineInts.new name shortName).reads slices).values =
        (match lastSuccess slices with
         | some argv => (elementTokens argv).map atoi
         | none => []) ∧
     (∀ pre last, slices = pre ++ [last] → readSucceeds last = true →
        ((cmdLineInts.new name shortName).reads slices).count =
          (((cmdLineInts.new name shortName).reads slices).values.length : Int))) ∧
    (((cmdLineStrings.new name shortName).reads slices).set = (lastSuccess slices).isSome ∧
     ((cmdLineStrings.new name shortName).reads slices).values =
        (match lastSuccess slices with
         | some argv => elementTokens argv
         | none => []) ∧
     (∀ pre last, slices = pre ++ [last] → readSucceeds last = true →
        ((cmdLineStrings.new name shortName).reads slices).count =
          (((cmdLineStrings.new name shortName).reads slices).values.length : Int))) := by
  have hi := cmdLineInts_reads_state (cmdLineInts.new name shortName) slices
  have hs := cmdLineStrings_reads_state (cmdLineStrings.new name shortName) slices
  refine ⟨⟨by simpa [cmdLineInts.new, cmdLineReadable.new] using hi.1, hi.2, ?_⟩,
    ⟨by simpa [cmdLineStrings.new, cmdLineReadable.new] using hs.1, hs.2, ?_⟩⟩
  · rintro pre last rfl hl
    rw [cmdLineInts_reads_append]
    exact cmdLineInts_read_count _ last hl
  · rintro pre last rfl hl
    rw [cmdLineStrings_reads_append]
    exact cmdLineStrings_read_count _ last hl

/-- Instance of C21, amended: a successful read, a failed one and a second
successful one; the descriptor ends set, holding the two elements of the
third read, with count 2. -/
theorem counted_reads_invariant_witness :
    ((cmdLineInts.new "n".toList 'n').reads
      [["1".toList, "7".toList], ["5".toList], ["2".toList, "8".toList, "9".toList]]).set
      = true ∧
    ((cmdLineInts.new "n".toList 'n').reads
      [["1".toList, "7".toList], ["5".toList], ["2".toList, "8".toList, "9".toList]]).values
      = [8, 9] ∧
    ((cmdLineInts.new "n".toList 'n').reads
      [["1".toList, "7".toList], ["5".toList], ["2".toList, "8".toList, "9".toList]]).count
      = 2 :=
  have h := counted_reads_invariant "n".toList 'n'
    [["1".toList, "7".toList], ["5".toList], ["2".toList, "8".toList, "9".toList]]
  ⟨h.1.1.trans (by decide), h.1.2.1.trans (by decide),
    (h.1.2.2 [["1".toList, "7".toList], ["5".toList]]
      ["2".toList, "8".toList, "9".toList] rfl (by decide)).trans
      (by rw [h.1.2.1]; decide)⟩

/-! ## Long names holding the character `=` -/

/-- The looked-up part of a long-option body holds no `=`. -/
theorem findEq_fst_no_eq (body : CStr) : '=' ∉ (findEq body).1 := by
  induction body with
  | nil => simp [findEq]
  | cons c cs ih =>
    unfold findEq
    split
    · simp
    · next hc =>
      simp only [List.mem_cons, not_or]
      exact ⟨fun h => hc h.symm, ih⟩

/-- A descriptor found for the looked-up part of a long-option body has no
`=` in its name. -/
theorem getReadableByLongName_no_eq (params : List Readable) (body : CStr) (i : Nat)
    (e : Readable) (h : getReadableByLongName params (findEq body).1 = some (i, e)) :
    '=' ∉ e.name := by
  rw [(getReadableByLongName_some params _ i e h).2]
  exact findEq_fst_no_eq body

theorem getElem?_set_keep (ps : List Readable) (i k : Nat) (d e x : Readable)
    (hk : ps[k]? = some d) (hi : ps[i]? = some e) (hne : e ≠ d) :
    (ps.set i x)[k]? = some d := by
  have hik : i ≠ k := by
    rintro rfl
    rw [hk] at hi
    exact hne (Option.some.inj hi).symm
  rw [List.getElem?_set_ne hik]
  exact hk

/-- The long-option branch leaves a descriptor named with `=` as it is. -/
theorem parseLong_keeps (reset : cmdLineIntSequence → cmdLineIntSequence) (stripping : Bool)
    (tok body : CStr) (rest : List CStr) (st : ParseState) (k : Nat) (d : Readable)
    (hk : st.params[k]? = some d) (hname : '=' ∈ d.name) :
    (parseLong reset stripping tok body rest st).2.params[k]? = some d := by
  unfold parseLong
  simp only
  split
  · next i opt hl =>
    have hs := getReadableByLongName_some st.params _ i opt hl
    have hne : opt ≠ d := by
      rintro rfl
      exact getReadableByLongName_no_eq st.params body i opt hl hname
    split
    · exact getElem?_set_keep _ _ _ _ _ _ hk hs.1 hne
    · split
      · exact hk
      · exact getElem?_set_keep _ _ _ _ _ _ hk hs.1 hne
  · cases stripping <;> split <;> exact hk

/-- The short-option branch leaves a descriptor as it is when its short name
is none of the characters of the cluster. -/
theorem parseShort_keeps (reset : cmdLineIntSequence → cmdLineIntSequence) (stripping : Bool)
    (cs : CStr) (rest : List CStr) (st : ParseState) (k : Nat) (d : Readable)
    (hk : st.params[k]? = some d) (hc : d.shortName ∉ cs) :
    (parseShort reset stripping cs rest st).2.params[k]? = some d := by
  induction cs generalizing st with
  | nil => simpa [parseShort] using hk
  | cons c cs ih =>
    have hc1 : d.shortName ≠ c := fun h => hc (h ▸ List.mem_cons_self _ _)
    have hc2 : d.shortName ∉ cs := fun h => hc (List.mem_cons_of_mem _ h)
    unfold parseShort
    split
    · next i opt hl =>
      have hs := getReadableByShortName_some st.params c i opt hl
      have hne : opt ≠ d := by
        rintro rfl
        exact hc1 hs.2
      split
      · exact ih { st with params := st.params.set i opt.markSet }
          (getElem?_set_keep _ _ _ _ _ _ hk hs.1 hne) hc2
      · exact getElem?_set_keep _ _ _ _ _ _ hk hs.1 hne
    · cases stripping
      · exact ih st hk hc2
      · exact ih { st with strippedArgs := st.strippedArgs ++ [['-', c]] } hk hc2

/-- The tokens left after the long-option branch are tokens of `rest` or the
text of the token after its `=`. -/
theorem parseLong_chars (reset : cmdLineIntSequence → cmdLineIntSequence) (stripping : Bool)
    (tok body : CStr) (rest : List CStr) (st : ParseState) (c : Char)
    (hb : c ∉ body) (hr : ∀ t ∈ rest, c ∉ t) :
    ∀ t ∈ (parseLong reset stripping tok body rest st).1, c ∉ t := by
  have hargv : ∀ t ∈ (match (findEq body).2 with
      | some v => v :: rest
      | none => rest), c ∉ t := by
    intro t ht
    cases he : (findEq body).2 with
    | none =>
      rw [he] at ht
      exact hr t ht
    | some v =>
      rw [he] at ht
      rcases List.mem_cons.1 ht with rfl | h
      · intro hm
        apply hb
        rw [findEq_some_eq body t he]
        simp [hm]
      · exact hr t h
  unfold parseLong
  simp only
  intro t ht
  split at ht
  · split at ht
    · exact hargv t (List.mem_of_mem_drop ht)
    · split at ht <;> exact hargv t ht
  · split at ht
    · exact hargv t (List.mem_of_mem_drop ht)
    · exact hargv t ht

theorem parseShort_chars (reset : cmdLineIntSequence → cmdLineIntSequence) (stripping : Bool)
    (cs : CStr) (rest : List CStr) (st : ParseState) (c : Char)
    (hb : c ∉ cs) (hr : ∀ t ∈ rest, c ∉ t) :
    ∀ t ∈ (parseShort reset stripping cs rest st).1, c ∉ t := by
  induction cs generalizing st with
  | nil => simpa [parseShort] using hr
  | cons a cs ih =>
    have hc2 : c ∉ cs := fun h => hb (List.mem_cons_of_mem _ h)
    unfold parseShort
    split
    · split
      · exact ih _ hc2
      · intro t ht
        have ht := List.mem_of_mem_drop ht
        split at ht
        · rcases List.mem_cons.1 ht with rfl | h
          · exact hc2
          · exact hr t h
        · exact hr t ht
    · exact ih _ hc2

theorem parseStep_chars (reset : cmdLineIntSequence → cmdLineIntSequence) (stripping : Bool)
    (tok : CStr) (rest : List CStr) (st : ParseState) (c : Char)
    (hb : c ∉ tok) (hr : ∀ t ∈ rest, c ∉ t) :
    ∀ t ∈ (parseStep reset stripping tok rest st).1, c ∉ t := by
  unfold parseStep
  simp only
  split
  · exact hr
  · next c0 t1 =>
    have h1 : c ∉ t1 := fun h => hb (List.mem_cons_of_mem _ h)
    split
    · split
      · exact parseShort_chars reset stripping [] rest st c (by simp) hr
      · next c1 body =>
        split
        · exact parseLong_chars reset stripping _ body rest st c
            (fun h => h1 (List.mem_cons_of_mem _ h)) hr
        · exact parseShort_chars reset stripping _ rest st c h1 hr
    · exact hr

theorem parseStep_keeps (reset : cmdLineIntSequence → cmdLineIntSequence) (stripping : Bool)
    (tok : CStr) (rest : List CStr) (st : ParseState) (k : Nat) (d : Readable)
    (hk : st.params[k]? = some d) (hname : '=' ∈ d.name) (hc : d.shortName ∉ tok) :
    (parseStep reset stripping tok rest st).2.params[k]? = some d := by
  unfold parseStep
  simp only
  split
  · cases stripping <;> exact hk
  · next c0 t1 =>
    have h1 : d.shortName ∉ t1 := fun h => hc (List.mem_cons_of_mem _ h)
    split
    · split
      · exact parseShort_keeps reset stripping [] rest st k d hk (by simp)
      · split
        · exact parseLong_keeps reset stripping _ _ rest st k d hk hname
        · exact parseShort_keeps reset stripping _ rest st k d hk h1
    · cases stripping <;> exact hk

theorem run_keeps (reset : cmdLineIntSequence → cmdLineIntSequence) (stripping : Bool)
    (argv : List CStr) (st : ParseState) (k : Nat) (d : Readable)
    (hk : st.params[k]? = some d) (hname : '=' ∈ d.name)
    (hc : ∀ t ∈ argv, d.shortName ∉ t) :
    ∃ r, run reset stripping argv st = some r ∧ r.params[k]? = some d := by
  generalize hn : scanFuel argv = n
  induction n using Nat.strong_induction_on generalizing argv st with
  | _ n ih =>
    cases argv with
    | nil => exact ⟨st, run_nil reset stripping st, hk⟩
    | cons tok rest =>
      rw [run_cons]
      have hlt := parseStep_fuel reset stripping tok rest st
      rw [hn] at hlt
      exact ih _ hlt _ _
        (parseStep_keeps reset stripping tok rest st k d hk hname
          (hc tok (List.mem_cons_self _ _)))
        (parseStep_chars reset stripping tok rest st _ (hc tok (List.mem_cons_self _ _))
          (fun t ht => hc t (List.mem_cons_of_mem _ ht))) rfl

/-- C22: a descriptor whose long name contains `=` is never matched by a
long-option token. The name looked up for a token `--body` is the part of
`body` before its first `=`, which holds no `=`, so the lookup never returns
such a descriptor; an iteration of the loop on a `--` token leaves it as it
is, in both modes; and a whole parse leaves it as it is when no token holds
its short name. -/
theorem long_name_with_eq_never_matched (reset : cmdLineIntSequence → cmdLineIntSequence)
    (params : List Readable) (k : Nat) (d : Readable)
    (hk : params[k]? = some d) (hname : '=' ∈ d.name) :
    (∀ (body : CStr) (i : Nat), '=' ∉ (findEq body).1 ∧
      getReadableByLongName params (findEq body).1 ≠ some (i, d)) ∧
    (∀ (stripping : Bool) (body : CStr) (rest N S : List CStr),
      (parseStep reset stripping ('-' :: '-' :: body) rest ⟨params, N, S⟩).2.params[k]? =
        some d) ∧
    (∀ (stripping : Bool) (path : CStr) (rest N : List CStr),
      (∀ t ∈ rest, d.shortName ∉ t) →
      ∃ r, cmdLineParse reset stripping (path :: rest) params N = some r ∧
        r.params[k]? = some d) := by
  refine ⟨fun body i => ⟨findEq_fst_no_eq body, fun h =>
    getReadableByLongName_no_eq params body i d h hname⟩, ?_, ?_⟩
  · intro stripping body rest N S
    have := parseLong_keeps reset stripping ('-' :: '-' :: body) body rest ⟨params, N, S⟩ k d
      hk hname
    simpa [parseStep] using this
  · intro stripping path rest N hc
    exact run_keeps reset stripping rest _ k d hk hname hc

/-- Instance of C22: the descriptor named `n=1` stays unset and keeps its
value 0 through `--n=1=5`, `--n=1 7` and `--n 3`, which are looked up as
`n`. -/
theorem long_name_with_eq_never_matched_witness :
    ∃ r, cmdLineParse id false
        ["prog".toList, "--n=1=5".toList, "--n=1".toList, "7".toList, "--n".toList,
         "3".toList]
        [Readable.int (cmdLineInt.new "n=1".toList 0 'q'),
         Readable.int (cmdLineInt.new "n".toList 0 'm')] [] = some r ∧
      r.params[0]? = some (Readable.int (cmdLineInt.new "n=1".toList 0 'q')) :=
  (long_name_with_eq_never_matched id
    [Readable.int (cmdLineInt.new "n=1".toList 0 'q'),
     Readable.int (cmdLineInt.new "n".toList 0 'm')] 0
    (Readable.int (cmdLineInt.new "n=1".toList 0 'q')) (by decide) (by decide)).2.2
    false "prog".toList
    ["--n=1=5".toList, "--n=1".toList, "7".toList, "--n".toList, "3".toList] [] (by decide)

/-! ## Two passes with value options in the second registry -/

section TwoPass

variable (reset : cmdLineIntSequence → cmdLineIntSequence)

/-- A token that is handed on: the stripping iteration emits it and moves to
the next token, with the descriptors as they are. -/
theorem handedOn_step (Rt : List Readable) (t : CStr) (rest N1 S : List CStr)
    (h : handedOn Rt t = true) :
    parseStep reset true t rest ⟨Rt, N1, S⟩ = (rest, ⟨Rt, N1, S ++ [t]⟩) := by
  cases t with
  | nil => simp [parseStep]
  | cons c0 t1 =>
    by_cases h0 : c0 = '-'
    · subst h0
      cases t1 with
      | nil => simp [handedOn] at h
      | cons c1 body =>
        by_cases h1 : c1 = '-'
        · subst h1
          have hl : getReadableByLongName Rt (findEq body).1 = none := by
            simpa [handedOn] using h
          simpa using parseStep_unknown_long reset true body rest ⟨Rt, N1, S⟩ hl
        · simp only [handedOn, h1, if_true, if_false, Bool.and_eq_true,
            List.isEmpty_iff, Option.isNone_iff_eq_none] at h
          obtain ⟨rfl, hl⟩ := h
          simp [parseStep, parseShort, h1, hl]
    · simp [parseStep, h0]

theorem run_handedOn (Rt : List Readable) (a r N1 : List CStr)
    (h : ∀ t ∈ a, handedOn Rt t = true) (S : List CStr) :
    run reset true (a ++ r) ⟨Rt, N1, S⟩ = run reset true r ⟨Rt, N1, S ++ a⟩ := by
  induction a generalizing S with
  | nil => simp
  | cons t a ih =>
    rw [List.cons_append, run_cons,
      handedOn_step reset Rt t (a ++ r) N1 S (h t (List.mem_cons_self _ _))]
    simp only
    rw [ih (fun u hu => h u (List.mem_cons_of_mem _ hu))]
    simp

/-- A stripping run only appends to the stripped vector. -/
theorem run_strip_extends (argv : List CStr) (Rt : List Readable) (N1 S : List CStr) :
    ∃ E Rt1, run reset true argv ⟨Rt, N1, S⟩ = some ⟨Rt1, N1, S ++ E⟩ := by
  obtain ⟨T, Rt1, _, h, _, _⟩ :=
    run_two_pass reset [] N1 [] (scanFuel argv) argv rfl
      (fun u _ n hn => absurd hn (List.not_mem_nil n)) Rt [] S []
      (fun d hd => absurd hd (List.not_mem_nil d))
  exact ⟨T, Rt1, h⟩

/-- What a stripping run emits on handed-on tokens followed by `r`. -/
theorem emits_split (Rt Rt1 : List Readable) (a r E : List CStr)
    (ha : ∀ t ∈ a, handedOn Rt t = true)
    (h : run reset true (a ++ r) ⟨Rt, [], []⟩ = some ⟨Rt1, [], E⟩) :
    ∃ E2, E = a ++ E2 ∧ (r = [] → E2 = []) := by
  rw [run_handedOn reset Rt a r [] ha] at h
  obtain ⟨E2, Rt2, h2⟩ := run_strip_extends reset r Rt [] ([] ++ a)
  rw [h2] at h
  simp only [List.nil_append, Option.some.injEq, ParseState.mk.injEq, true_and] at h
  refine ⟨E2, h.2.symm, ?_⟩
  rintro rfl
  rw [run_nil] at h2
  simp only [List.nil_append, Option.some.injEq, ParseState.mk.injEq, true_and] at h2
  simpa using h2.2

theorem asks_le_length (d : Readable) (s : List CStr) : d.asks s ≤ s.length := by
  cases s with
  | nil => simp [Readable.asks]
  | cons a s => cases d <;> simp [Readable.asks]

theorem asks_pos (d : Readable) (a : CStr) (s : List CStr) : 1 ≤ d.asks (a :: s) := by
  cases d <;> simp [Readable.asks]

theorem countedInts_agree (d : cmdLineInts) (a : CStr) (b r r2 : List CStr)
    (h : min ((a :: (b ++ r)).length) (max 1 (atoi a + 1).toNat) = (a :: b).length)
    (hr : r = [] → r2 = []) :
    d.read (a :: (b ++ r2)) = d.read (a :: (b ++ r)) := by
  by_cases hc : atoi a ≤ 0
  · simp [cmdLineInts.read, hc]
  · by_cases hl : ((b ++ r).length : Int) + 1 ≤ atoi a
    · have hr0 : r = [] := by
        simp only [List.length_cons, List.length_append] at h hl
        have : r.length = 0 := by push_cast at hl; omega
        exact List.length_eq_zero.1 this
      rw [hr0, hr hr0]
    · have hb : b.length = (atoi a).toNat := by
        simp only [List.length_cons, List.length_append] at h hl
        push_cast at hl
        omega
      have hl1 : ¬ ((b.length : Int) + (r.length : Int) + 1 ≤ atoi a) := by
        simpa using hl
      have hl2 : ¬ ((b.length : Int) + (r2.length : Int) + 1 ≤ atoi a) := by
        omega
      simp [cmdLineInts.read, hc, hl1, hl2, hb.symm, List.take_append_of_le_length]

theorem countedStrings_agree (d : cmdLineStrings) (a : CStr) (b r r2 : List CStr)
    (h : min ((a :: (b ++ r)).length) (max 1 (atoi a + 1).toNat) = (a :: b).length)
    (hr : r = [] → r2 = []) :
    d.read (a :: (b ++ r2)) = d.read (a :: (b ++ r)) := by
  by_cases hc : atoi a ≤ 0
  · simp [cmdLineStrings.read, hc]
  · by_cases hl : ((b ++ r).length : Int) + 1 ≤ atoi a
    · have hr0 : r = [] := by
        simp only [List.length_cons, List.length_append] at h hl
        have : r.length = 0 := by push_cast at hl; omega
        exact List.length_eq_zero.1 this
      rw [hr0, hr hr0]
    · have hb : b.length = (atoi a).toNat := by
        simp only [List.length_cons, List.length_append] at h hl
        push_cast at hl
        omega
      have hl1 : ¬ ((b.length : Int) + (r.length : Int) + 1 ≤ atoi a) := by
        simpa using hl
      have hl2 : ¬ ((b.length : Int) + (r2.length : Int) + 1 ≤ atoi a) := by
        omega
      simp [cmdLineStrings.read, hc, hl1, hl2, hb.symm, List.take_append_of_le_length]

/-- A read sees only the tokens it asks for: two slices that share them, the
second ending where the first does if the first ends there, are read alike. -/
theorem read_agree (d : Readable) (b r r2 : List CStr)
    (h : d.asks (b ++ r) = b.length) (hr : r = [] → r2 = []) :
    d.read reset (b ++ r2) = d.read reset (b ++ r) := by
  cases b with
  | nil =>
    have hr0 : r = [] := by
      cases r with
      | nil => rfl
      | cons a r =>
        have := asks_pos d a r
        simp only [List.nil_append, List.length_nil] at h
        omega
    rw [hr0, hr hr0]
  | cons a b =>
    cases d with
    | flag d => rfl
    | int d => rfl
    | intSequence d => rfl
    | float d => rfl
    | string d => rfl
    | ints d =>
      simp only [Readable.read, List.cons_append]
      rw [countedInts_agree d a b r r2 (by simpa [Readable.asks] using h) hr]
    | strings d =>
      simp only [Readable.read, List.cons_append]
      rw [countedStrings_agree d a b r r2 (by simpa [Readable.asks] using h) hr]

/-- A read consumes no more than it asks for. -/
theorem read_le_asks (d : Readable) (s : List CStr) (hd : d.expectsArg = true) :
    (d.read reset s).2.toNat ≤ d.asks s := by
  cases s with
  | nil => cases d <;> simp [Readable.expectsArg] at hd <;> simp [Readable.read,
      cmdLineInt.read, cmdLineIntSequence.read, cmdLineInts.read, cmdLineFloat.read,
      cmdLineString.read, cmdLineStrings.read]
  | cons a s =>
    cases d with
    | flag d => simp [Readable.expectsArg] at hd
    | int d => simp [Readable.read, cmdLineInt.read, Readable.asks]
    | intSequence d => simp [Readable.read, cmdLineIntSequence.read, Readable.asks]
    | float d => simp [Readable.read, cmdLineFloat.read, Readable.asks]
    | string d => simp [Readable.read, cmdLineString.read, Readable.asks]
    | ints d =>
      simp only [Readable.read, cmdLineInts.read, Readable.asks]
      split
      · simp
      · next hc =>
        simp only [not_or, not_le, List.length_cons] at hc
        push_cast at hc
        simp only [List.length_cons]
        omega
    | strings d =>
      simp only [Readable.read, cmdLineStrings.read, Readable.asks]
      split
      · simp
      · next hc =>
        simp only [not_or, not_le, List.length_cons] at hc
        push_cast at hc
        simp only [List.length_cons]
        omega

/-- A value-taking read of a slice that is not empty consumes a token. -/
theorem read_pos (d : Readable) (a : CStr) (s : List CStr) (hd : d.expectsArg = true) :
    1 ≤ (d.read reset (a :: s)).2.toNat := by
  cases d with
  | flag d => simp [Readable.expectsArg] at hd
  | int d => simp [Readable.read, cmdLineInt.read]
  | intSequence d => simp [Readable.read, cmdLineIntSequence.read]
  | float d => simp [Readable.read, cmdLineFloat.read]
  | string d => simp [Readable.read, cmdLineString.read]
  | ints d =>
    simp only [Readable.read, cmdLineInts.read]
    split
    · simp
    · next hc =>
      simp only [not_or, not_le] at hc
      have := hc.1
      omega
  | strings d =>
    simp only [Readable.read, cmdLineStrings.read]
    split
    · simp
    · next hc =>
      simp only [not_or, not_le] at hc
      have := hc.1
      omega

/-- The value case of the two passes: the option `opt`, found in the second
registry only, reads the slice `pre ++ rest` in the single pass (`pre` is the
inline text, if any). The stripping pass hands on the tokens of `rest` that
the read consumes, and the read of the second pass, on what the stripping
pass emits from there, is the same read. -/
theorem value_core (Rt : List Readable) (opt : Readable) (pre rest : List CStr)
    (hd : opt.expectsArg = true)
    (hpre : pre.length ≤ (opt.read reset (pre ++ rest)).2.toNat)
    (hv : ∀ t ∈ rest.take (opt.asks (pre ++ rest) - pre.length), handedOn Rt t = true) :
    (pre ++ rest).drop (opt.read reset (pre ++ rest)).2.toNat =
      rest.drop ((opt.read reset (pre ++ rest)).2.toNat - pre.length) ∧
    (∀ N1 S, run reset true rest ⟨Rt, N1, S⟩ =
      run reset true (rest.drop ((opt.read reset (pre ++ rest)).2.toNat - pre.length))
        ⟨Rt, N1, S ++ rest.take ((opt.read reset (pre ++ rest)).2.toNat - pre.length)⟩) ∧
    (∀ E Rt1,
      run reset true (rest.drop ((opt.read reset (pre ++ rest)).2.toNat - pre.length))
        ⟨Rt, [], []⟩ = some ⟨Rt1, [], E⟩ →
      opt.read reset
          (pre ++ (rest.take ((opt.read reset (pre ++ rest)).2.toNat - pre.length) ++ E)) =
        opt.read reset (pre ++ rest) ∧
      (pre ++ (rest.take ((opt.read reset (pre ++ rest)).2.toNat - pre.length) ++ E)).drop
          (opt.read reset (pre ++ rest)).2.toNat = E) := by
  generalize hkk : (opt.read reset (pre ++ rest)).2.toNat = kk at hpre ⊢
  have h1 : kk ≤ opt.asks (pre ++ rest) := hkk ▸ read_le_asks reset opt (pre ++ rest) hd
  have h2 := asks_le_length opt (pre ++ rest)
  simp only [List.length_append] at h2
  generalize hm : opt.asks (pre ++ rest) - pre.length = m at hv
  generalize hk : kk - pre.length = k
  have hkm : k ≤ m := by omega
  have hmr : m ≤ rest.length := by omega
  have htake : rest.take m = rest.take k ++ (rest.drop k).take (m - k) := by
    have : m = k + (m - k) := by omega
    conv => lhs; rw [this, List.take_add]
  have hk1 : ∀ t ∈ rest.take k, handedOn Rt t = true := by
    intro t ht
    exact hv t (by rw [htake]; exact List.mem_append_left _ ht)
  have hk2 : ∀ t ∈ (rest.drop k).take (m - k), handedOn Rt t = true := by
    intro t ht
    exact hv t (by rw [htake]; exact List.mem_append_right _ ht)
  refine ⟨?_, ?_, ?_⟩
  · rw [List.drop_append_eq_append_drop, List.drop_eq_nil_of_le hpre, hk]
    rfl
  · intro N1 S
    conv => lhs; rw [← List.take_append_drop k rest]
    exact run_handedOn reset Rt _ _ N1 hk1 S
  · intro E Rt1 hE
    have hsplit : rest.drop k = (rest.drop k).take (m - k) ++ rest.drop m := by
      conv => lhs; rw [← List.take_append_drop (m - k) (rest.drop k)]
      rw [List.drop_drop]
      congr 2
      omega
    rw [hsplit] at hE
    obtain ⟨E2, rfl, hE2⟩ := emits_split reset Rt Rt1 _ _ E hk2 hE
    have e1 : pre ++ (rest.take k ++ ((rest.drop k).take (m - k) ++ E2)) =
        (pre ++ rest.take m) ++ E2 := by
      rw [htake]
      simp
    have e2 : pre ++ rest = (pre ++ rest.take m) ++ rest.drop m := by
      simp
    constructor
    · rw [e1]
      conv => rhs; rw [e2]
      apply read_agree reset opt _ _ _ _ hE2
      rw [← e2]
      simp only [List.length_append, List.length_take]
      omega
    · have : (pre ++ rest.take k).length = kk := by
        simp only [List.length_append, List.length_take]
        omega
      rw [← List.append_assoc, List.drop_left' this]

theorem lookupLong_lt (Rt : List Readable) (n : CStr) (i : Nat) (opt : Readable)
    (h : getReadableByLongName Rt n = some (i, opt)) : i < Rt.length :=
  (List.getElem?_eq_some.1 (getReadableByLongName_some Rt n i opt h).1).1

theorem lookupShort_lt (Rt : List Readable) (c : Char) (i : Nat) (opt : Readable)
    (h : getReadableByShortName Rt c = some (i, opt)) : i < Rt.length :=
  (List.getElem?_eq_some.1 (getReadableByShortName_some Rt c i opt h).1).1

/-- A long option found in the first registry: the iteration does the same
with and without the second registry behind it, in both modes. -/
theorem parseLong_left (Rt Rx : List Readable) (tok body : CStr) (rest : List CStr)
    (i : Nat) (opt : Readable)
    (hl : getReadableByLongName Rt (findEq body).1 = some (i, opt))
    (stripping : Bool) (N X : List CStr) :
    parseLong reset stripping tok body rest ⟨Rt ++ Rx, N, X⟩ =
      ((parseLong reset true tok body rest ⟨Rt, [], []⟩).1,
       ⟨(parseLong reset true tok body rest ⟨Rt, [], []⟩).2.params ++ Rx, N, X⟩) ∧
    (parseLong reset true tok body rest ⟨Rt, [], []⟩).2.params.length = Rt.length := by
  have happ := getReadableByLongName_append_some Rt Rx _ _ hl
  have hi := lookupLong_lt Rt _ i opt hl
  cases hexp : opt.expectsArg with
  | true => simp [parseLong, hl, happ, hexp, List.set_append_left _ _ hi]
  | false =>
    cases he : (findEq body).2 with
    | some v => simp [parseLong, hl, happ, hexp, he]
    | none => simp [parseLong, hl, happ, hexp, he, List.set_append_left _ _ hi]

/-- The collecting iteration on a token `-c` whose character matches
nothing. -/
theorem parseStep_short_none (Rx : List Readable) (c : Char) (r N X : List CStr)
    (h1 : getReadableByShortName Rx c = none)
    (h2 : c = '-' → getReadableByLongName Rx [] = none) :
    parseStep reset false ['-', c] r ⟨Rx, N, X⟩ = (r, ⟨Rx, N, X⟩) := by
  by_cases hc : c = '-'
  · subst hc
    simpa using parseStep_unknown_long reset false [] r ⟨Rx, N, X⟩ (h2 rfl)
  · simp [parseStep, parseShort, hc, h1]

/-- The collecting iteration on a token `-c` whose character is the short
name of a flag. -/
theorem parseStep_short_flag (Rx : List Readable) (c : Char) (r N X : List CStr)
    (j : Nat) (opt : Readable) (hc : c ≠ '-')
    (h1 : getReadableByShortName Rx c = some (j, opt)) (h2 : opt.expectsArg = false) :
    parseStep reset false ['-', c] r ⟨Rx, N, X⟩ = (r, ⟨Rx.set j opt.markSet, N, X⟩) := by
  simp [parseStep, parseShort, hc, h1, h2]

/-- The collecting iteration on a token `-c` whose character is the short
name of a value-taking option. -/
theorem parseStep_short_value (Rx : List Readable) (c : Char) (r N X : List CStr)
    (j : Nat) (opt : Readable) (hc : c ≠ '-')
    (h1 : getReadableByShortName Rx c = some (j, opt)) (h2 : opt.expectsArg = true) :
    parseStep reset false ['-', c] r ⟨Rx, N, X⟩ =
      (r.drop (opt.read reset r).2.toNat, ⟨Rx.set j (opt.read reset r).1, N, X⟩) := by
  simp [parseStep, parseShort, hc, h1, h2]

/-- The short-option branch in the three runs: the single pass with
`Rt ++ Rx`, the stripping pass with `Rt`, which emits `T` up to the point
where the single pass stands after the cluster, and the collecting pass with
`Rx` over `T`. -/
theorem parseShort_three (rest : List CStr) (cs : CStr) :
    ∀ (Rt Rx : List Readable), alignedShort Rt Rx cs rest = true →
    ∃ T Rt1 Rx1 argv1, Rt1.length = Rt.length ∧
      (∀ N X, parseShort reset false cs rest ⟨Rt ++ Rx, N, X⟩ =
        (argv1, ⟨Rt1 ++ Rx1, N, X⟩)) ∧
      (∀ N1 S, run reset true (parseShort reset true cs rest ⟨Rt, N1, S⟩).1
          (parseShort reset true cs rest ⟨Rt, N1, S⟩).2 =
        run reset true argv1 ⟨Rt1, N1, S ++ T⟩) ∧
      (∀ E Rt2, run reset true argv1 ⟨Rt1, [], []⟩ = some ⟨Rt2, [], E⟩ →
        ∀ N X, run reset false (T ++ E) ⟨Rx, N, X⟩ = run reset false E ⟨Rx1, N, X⟩) := by
  induction cs with
  | nil =>
    intro Rt Rx _
    exact ⟨[], Rt, Rx, rest, rfl, fun N X => by simp [parseShort],
      fun N1 S => by simp [parseShort], fun E Rt2 _ N X => by simp⟩
  | cons c cs ih =>
    intro Rt Rx h
    cases hl : getReadableByShortName Rt c with
    | some r =>
      obtain ⟨i, opt⟩ := r
      have happ := getReadableByShortName_append_some Rt Rx c _ hl
      have hi := lookupShort_lt Rt c i opt hl
      cases hexp : opt.expectsArg with
      | false =>
        have h2 : alignedShort (Rt.set i opt.markSet) Rx cs rest = true := by
          simpa [alignedShort, hl, hexp] using h
        obtain ⟨T, Rt1, Rx1, argv1, e0, e1, e2, e3⟩ := ih _ _ h2
        refine ⟨T, Rt1, Rx1, argv1, by simpa using e0, ?_, ?_, e3⟩
        · intro N X
          simp only [parseShort, happ, hexp, Bool.not_false, if_true,
            List.set_append_left _ _ hi]
          exact e1 N X
        · intro N1 S
          simp only [parseShort, hl, hexp, Bool.not_false, if_true]
          exact e2 N1 S
      | true =>
        refine ⟨[], Rt.set i (opt.read reset (if cs ≠ [] then cs :: rest else rest)).1, Rx,
          (if cs ≠ [] then cs :: rest else rest).drop
            (opt.read reset (if cs ≠ [] then cs :: rest else rest)).2.toNat,
          by simp, ?_, ?_, fun E Rt2 _ N X => by simp⟩
        · intro N X
          simp [parseShort, happ, hexp, List.set_append_left _ _ hi]
        · intro N1 S
          simp [parseShort, hl, hexp]
    | none =>
      have happ := getReadableByShortName_append_none Rt Rx c hl
      have hstrip : ∀ N1 S, parseShort reset true (c :: cs) rest ⟨Rt, N1, S⟩ =
          parseShort reset true cs rest ⟨Rt, N1, S ++ [['-', c]]⟩ := by
        intro N1 S
        simp [parseShort, hl]
      simp only [alignedShort, hl, Bool.and_eq_true, Bool.or_eq_true, decide_eq_true_eq,
        Option.isNone_iff_eq_none] at h
      obtain ⟨hdash, h⟩ := h
      cases hx : getReadableByShortName Rx c with
      | some r =>
        obtain ⟨j, opt⟩ := r
        have hj := lookupShort_lt Rx c j opt hx
        have hc : c ≠ '-' := by
          rcases hdash with hc | ⟨h1, _⟩
          · exact hc
          · rintro rfl
            rw [h1] at hx
            exact absurd hx (by simp)
        rw [hx] at h happ
        simp only [Option.map_some'] at happ
        have hset : ∀ y : Readable, (Rt ++ Rx).set (j + Rt.length) y = Rt ++ Rx.set j y := by
          intro y
          rw [List.set_append_right _ _ (by omega)]
          simp
        cases hexp : opt.expectsArg with
        | false =>
          have h2 : alignedShort Rt (Rx.set j opt.markSet) cs rest = true := by
            simpa [hexp] using h
          obtain ⟨T, Rt1, Rx1, argv1, e0, e1, e2, e3⟩ := ih _ _ h2
          refine ⟨['-', c] :: T, Rt1, Rx1, argv1, e0, ?_, ?_, ?_⟩
          · intro N X
            simp only [parseShort, happ, hexp, Bool.not_false, if_true, hset]
            exact e1 N X
          · intro N1 S
            rw [hstrip, e2]
            simp
          · intro E Rt2 hE N X
            rw [List.cons_append, run_cons,
              parseStep_short_flag reset Rx c _ N X j opt hc hx hexp]
            exact e3 E Rt2 hE N X
        | true =>
          have h2 : cs = [] ∧ valuesHandedOn Rt opt none rest = true := by
            simpa [hexp] using h
          obtain ⟨rfl, hv⟩ := h2
          have hv2 : ∀ t ∈ rest.take (opt.asks ([] ++ rest) - ([] : List CStr).length),
              handedOn Rt t = true := by
            simpa [valuesHandedOn] using hv
          obtain ⟨v1, v2, v3⟩ := value_core reset Rt opt [] rest hexp (by simp) hv2
          simp only [List.nil_append, List.length_nil, Nat.sub_zero] at v1 v2 v3
          refine ⟨['-', c] :: rest.take (opt.read reset rest).2.toNat, Rt,
            Rx.set j (opt.read reset rest).1, rest.drop (opt.read reset rest).2.toNat,
            rfl, ?_, ?_, ?_⟩
          · intro N X
            simp [parseShort, happ, hexp, hset]
          · intro N1 S
            rw [hstrip]
            simp only [parseShort]
            rw [v2 N1 (S ++ [['-', c]])]
            simp
          · intro E Rt2 hE N X
            obtain ⟨w1, w2⟩ := v3 E Rt2 hE
            rw [List.cons_append, run_cons,
              parseStep_short_value reset Rx c _ N X j opt hc hx hexp, w1, w2]
      | none =>
        rw [hx] at h happ
        simp only [Option.map_none'] at happ
        obtain ⟨T, Rt1, Rx1, argv1, e0, e1, e2, e3⟩ := ih _ _ h
        refine ⟨['-', c] :: T, Rt1, Rx1, argv1, e0, ?_, ?_, ?_⟩
        · intro N X
          simp only [parseShort, happ, Bool.false_eq_true, if_false]
          exact e1 N X
        · intro N1 S
          rw [hstrip, e2]
          simp
        · intro E Rt2 hE N X
          rw [List.cons_append, run_cons, parseStep_short_none reset Rx c _ N X hx
            (fun hc => by
              rcases hdash with h1 | ⟨_, h2⟩
              · exact absurd hc h1
              · exact h2)]
          exact e3 E Rt2 hE N X

/-- The long-option branch in the three runs. -/
theorem parseLong_three (Rt Rx : List Readable) (body : CStr) (rest : List CStr)
    (h : alignedLong Rt Rx body rest = true) :
    ∃ T Rt1 Rx1 argv1, Rt1.length = Rt.length ∧
      (∀ N X, parseStep reset false ('-' :: '-' :: body) rest ⟨Rt ++ Rx, N, X⟩ =
        (argv1, ⟨Rt1 ++ Rx1, N, X⟩)) ∧
      (∀ N1 S, run reset true (('-' :: '-' :: body) :: rest) ⟨Rt, N1, S⟩ =
        run reset true argv1 ⟨Rt1, N1, S ++ T⟩) ∧
      (∀ E Rt2, run reset true argv1 ⟨Rt1, [], []⟩ = some ⟨Rt2, [], E⟩ →
        ∀ N X, run reset false (T ++ E) ⟨Rx, N, X⟩ = run reset false E ⟨Rx1, N, X⟩) := by
  have hstep : ∀ (stripping : Bool) (st : ParseState),
      parseStep reset stripping ('-' :: '-' :: body) rest st =
        parseLong reset stripping ('-' :: '-' :: body) body rest st := by
    intro stripping st
    simp [parseStep]
  cases hl : getReadableByLongName Rt (findEq body).1 with
  | some r =>
    obtain ⟨i, opt⟩ := r
    have key := parseLong_left reset Rt Rx ('-' :: '-' :: body) body rest i opt hl
    have key0 := parseLong_left reset Rt [] ('-' :: '-' :: body) body rest i opt hl
    simp only [List.append_nil] at key0
    refine ⟨[], (parseLong reset true ('-' :: '-' :: body) body rest ⟨Rt, [], []⟩).2.params,
      Rx, (parseLong reset true ('-' :: '-' :: body) body rest ⟨Rt, [], []⟩).1,
      (key false [] []).2, ?_, ?_, fun E Rt2 _ N X => by simp⟩
    · intro N X
      rw [hstep]
      exact (key false N X).1
    · intro N1 S
      rw [run_cons, hstep, (key0 true N1 S).1]
      simp
  | none =>
    have happ := getReadableByLongName_append_none Rt Rx _ hl
    have hstrip : ∀ N1 S, run reset true (('-' :: '-' :: body) :: rest) ⟨Rt, N1, S⟩ =
        run reset true rest ⟨Rt, N1, S ++ ['-' :: '-' :: body]⟩ := by
      intro N1 S
      rw [run_cons, parseStep_unknown_long reset true body rest ⟨Rt, N1, S⟩ hl]
      simp
    simp only [alignedLong, hl] at h
    cases hx : getReadableByLongName Rx (findEq body).1 with
    | none =>
      rw [hx] at happ
      simp only [Option.map_none'] at happ
      refine ⟨['-' :: '-' :: body], Rt, Rx, rest, rfl, ?_, hstrip, ?_⟩
      · intro N X
        simpa using parseStep_unknown_long reset false body rest ⟨Rt ++ Rx, N, X⟩ happ
      · intro E Rt2 _ N X
        rw [List.singleton_append, run_cons,
          parseStep_unknown_long reset false body E ⟨Rx, N, X⟩ hx]
        simp
    | some r =>
      obtain ⟨j, opt⟩ := r
      have hj := lookupLong_lt Rx _ j opt hx
      rw [hx] at h happ
      simp only [Option.map_some'] at happ
      have hset : ∀ y : Readable, (Rt ++ Rx).set (j + Rt.length) y = Rt ++ Rx.set j y := by
        intro y
        rw [List.set_append_right _ _ (by omega)]
        simp
      cases hexp : opt.expectsArg with
      | false =>
        have he : (findEq body).2 = none := by simpa [hexp] using h
        refine ⟨['-' :: '-' :: body], Rt, Rx.set j opt.markSet, rest, rfl, ?_, hstrip, ?_⟩
        · intro N X
          simp [parseStep, parseLong, happ, hexp, he, hset]
        · intro E Rt2 _ N X
          rw [List.singleton_append, run_cons]
          simp [parseStep, parseLong, hx, hexp, he]
      | true =>
        have hv : valuesHandedOn Rt opt (findEq body).2 rest = true := by
          simpa [hexp] using h
        cases he : (findEq body).2 with
        | none =>
          rw [he] at hv
          have hv2 : ∀ t ∈ rest.take (opt.asks ([] ++ rest) - ([] : List CStr).length),
              handedOn Rt t = true := by
            simpa [valuesHandedOn] using hv
          obtain ⟨v1, v2, v3⟩ := value_core reset Rt opt [] rest hexp (by simp) hv2
          simp only [List.nil_append, List.length_nil, Nat.sub_zero] at v1 v2 v3
          refine ⟨('-' :: '-' :: body) :: rest.take (opt.read reset rest).2.toNat, Rt,
            Rx.set j (opt.read reset rest).1, rest.drop (opt.read reset rest).2.toNat,
            rfl, ?_, ?_, ?_⟩
          · intro N X
            simp [parseStep, parseLong, happ, hexp, he, hset]
          · intro N1 S
            rw [hstrip, v2 N1 (S ++ ['-' :: '-' :: body])]
            simp
          · intro E Rt2 hE N X
            obtain ⟨w1, w2⟩ := v3 E Rt2 hE
            rw [List.cons_append, run_cons]
            simp only [parseStep, parseLong, if_true, hx, hexp, he]
            rw [w1, w2]
        | some v =>
          rw [he] at hv
          have hv2 : ∀ t ∈ rest.take (opt.asks ([v] ++ rest) - [v].length),
              handedOn Rt t = true := by
            simpa [valuesHandedOn] using hv
          obtain ⟨v1, v2, v3⟩ := value_core reset Rt opt [v] rest hexp
            (by simpa using read_pos reset opt v rest hexp) hv2
          simp only [List.singleton_append, List.length_singleton] at v1 v2 v3
          refine ⟨('-' :: '-' :: body) ::
              rest.take ((opt.read reset (v :: rest)).2.toNat - 1), Rt,
            Rx.set j (opt.read reset (v :: rest)).1,
            rest.drop ((opt.read reset (v :: rest)).2.toNat - 1), rfl, ?_, ?_, ?_⟩
          · intro N X
            simp only [parseStep, parseLong, if_true, happ, hexp, he, hset, v1]
          · intro N1 S
            rw [hstrip, v2 N1 (S ++ ['-' :: '-' :: body])]
            simp
          · intro E Rt2 hE N X
            obtain ⟨w1, w2⟩ := v3 E Rt2 hE
            rw [List.cons_append, run_cons]
            simp only [parseStep, parseLong, if_true, hx, hexp, he]
            rw [w1, w2]

/-- One iteration of the single pass in the three runs: the stripping pass
emits `T` up to the point where the single pass stands after the iteration,
and the collecting pass over `T` changes `Rx` and collects `C` as the single
pass does. -/
theorem parseStep_three (Rt Rx : List Readable) (tok : CStr) (rest : List CStr)
    (h : alignedStep Rt Rx tok rest = true) :
    ∃ T C Rt1 Rx1 argv1, Rt1.length = Rt.length ∧
      (∀ N X, parseStep reset false tok rest ⟨Rt ++ Rx, N, X⟩ =
        (argv1, ⟨Rt1 ++ Rx1, N ++ C, X⟩)) ∧
      (∀ N1 S, run reset true (tok :: rest) ⟨Rt, N1, S⟩ =
        run reset true argv1 ⟨Rt1, N1, S ++ T⟩) ∧
      (∀ E Rt2, run reset true argv1 ⟨Rt1, [], []⟩ = some ⟨Rt2, [], E⟩ →
        ∀ N X, run reset false (T ++ E) ⟨Rx, N, X⟩ =
          run reset false E ⟨Rx1, N ++ C, X⟩) := by
  have hplain : isPlain tok = true →
      ∃ T C Rt1 Rx1 argv1, Rt1.length = Rt.length ∧
        (∀ N X, parseStep reset false tok rest ⟨Rt ++ Rx, N, X⟩ =
          (argv1, ⟨Rt1 ++ Rx1, N ++ C, X⟩)) ∧
        (∀ N1 S, run reset true (tok :: rest) ⟨Rt, N1, S⟩ =
          run reset true argv1 ⟨Rt1, N1, S ++ T⟩) ∧
        (∀ E Rt2, run reset true argv1 ⟨Rt1, [], []⟩ = some ⟨Rt2, [], E⟩ →
          ∀ N X, run reset false (T ++ E) ⟨Rx, N, X⟩ =
            run reset false E ⟨Rx1, N ++ C, X⟩) := by
    intro hp
    refine ⟨[tok], [tok], Rt, Rx, rest, rfl, ?_, ?_, ?_⟩
    · intro N X
      simpa using parseStep_plain reset false tok rest ⟨Rt ++ Rx, N, X⟩ hp
    · intro N1 S
      rw [run_cons, parseStep_plain reset true tok rest ⟨Rt, N1, S⟩ hp]
      simp
    · intro E Rt2 _ N X
      rw [List.singleton_append, run_cons, parseStep_plain reset false tok E ⟨Rx, N, X⟩ hp]
      simp
  cases tok with
  | nil => exact hplain (by decide)
  | cons c0 t1 =>
    by_cases h0 : c0 = '-'
    · subst h0
      cases t1 with
      | nil =>
        refine ⟨[], [], Rt, Rx, rest, rfl, ?_, ?_, fun E Rt2 _ N X => by simp⟩
        · intro N X
          simp [parseStep, parseShort]
        · intro N1 S
          rw [run_cons]
          simp [parseStep, parseShort]
      | cons c1 body =>
        by_cases h1 : c1 = '-'
        · subst h1
          have h2 : alignedLong Rt Rx body rest = true := by
            simpa [alignedStep] using h
          obtain ⟨T, Rt1, Rx1, argv1, e0, e1, e2, e3⟩ :=
            parseLong_three reset Rt Rx body rest h2
          exact ⟨T, [], Rt1, Rx1, argv1, e0, fun N X => by simpa using e1 N X, e2,
            fun E Rt2 hE N X => by simpa using e3 E Rt2 hE N X⟩
        · have h2 : alignedShort Rt Rx (c1 :: body) rest = true := by
            simpa [alignedStep, h1] using h
          obtain ⟨T, Rt1, Rx1, argv1, e0, e1, e2, e3⟩ :=
            parseShort_three reset rest (c1 :: body) Rt Rx h2
          have hstep : ∀ (stripping : Bool) (st : ParseState),
              parseStep reset stripping ('-' :: c1 :: body) rest st =
                parseShort reset stripping (c1 :: body) rest st := by
            intro stripping st
            simp [parseStep, h1]
          refine ⟨T, [], Rt1, Rx1, argv1, e0, ?_, ?_,
            fun E Rt2 hE N X => by simpa using e3 E Rt2 hE N X⟩
          · intro N X
            rw [hstep]
            simpa using e1 N X
          · intro N1 S
            rw [run_cons, hstep]
            exact e2 N1 S
    · exact hplain (by simp [isPlain, h0])

/-- The three runs as wholes: under the condition `aligned`, the stripping
pass with `Rt` emits `E`, and the collecting pass over `E` with `Rx` ends
with the descriptors and the non-option arguments of the single pass. -/
theorem aligned_three (f : Nat) :
    ∀ (argv : List CStr) (Rt Rx : List Readable), aligned reset f argv Rt Rx = true →
    ∃ E C Rt1 Rx1,
      (∀ N1 S, run reset true argv ⟨Rt, N1, S⟩ = some ⟨Rt1, N1, S ++ E⟩) ∧
      (∀ N X, run reset false argv ⟨Rt ++ Rx, N, X⟩ = some ⟨Rt1 ++ Rx1, N ++ C, X⟩) ∧
      (∀ N X, run reset false E ⟨Rx, N, X⟩ = some ⟨Rx1, N ++ C, X⟩) := by
  induction f with
  | zero =>
    intro argv Rt Rx h
    cases argv with
    | nil => exact ⟨[], [], Rt, Rx, by simp [run_nil], by simp [run_nil], by simp [run_nil]⟩
    | cons tok rest => simp [aligned] at h
  | succ f ih =>
    intro argv Rt Rx h
    cases argv with
    | nil => exact ⟨[], [], Rt, Rx, by simp [run_nil], by simp [run_nil], by simp [run_nil]⟩
    | cons tok rest =>
      simp only [aligned, Bool.and_eq_true] at h
      obtain ⟨hs, hr⟩ := h
      obtain ⟨T, C, Rt1, Rx1, argv1, e0, e1, e2, e3⟩ :=
        parseStep_three reset Rt Rx tok rest hs
      rw [e1 [] []] at hr
      simp only [← e0, List.take_left', List.drop_left'] at hr
      obtain ⟨E, C2, Rt2, Rx2, r1, r2, r3⟩ := ih argv1 Rt1 Rx1 hr
      refine ⟨T ++ E, C ++ C2, Rt2, Rx2, ?_, ?_, ?_⟩
      · intro N1 S
        rw [e2, r1]
        simp
      · intro N X
        rw [run_cons, e1, r2]
        simp
      · intro N X
        have hE := r1 [] []
        simp only [List.nil_append] at hE
        rw [e3 E Rt2 hE, r3]
        simp

end TwoPass

/-- Each condition of `Aligned` shuts out vectors on which the two passes and
the single pass collect different non-option arguments: a flag of `R'`
written `--f=text` (`--f=-m t` with the Int option `m` in `R`), a value-taking
option of `R'` before the end of its cluster (`-k2 a b`), a counted read
that runs out of tokens over a cluster the stripping pass re-encodes
(`--k 3 a -bc`), and a `-` inside a cluster that falls to an option of `R'`
(`-x- 5`). Each line gives the two-pass result, then the single-pass one. -/
theorem aligned_conditions_forced :
    (((cmdLineParse id true ["prog".toList, "--f=-m".toList, "t".toList]
        [Readable.int (cmdLineInt.new "m".toList 0 'm')] []).bind
      (fun s1 => cmdLineParse id false s1.strippedArgs
        [Readable.flag (cmdLineReadable.new "f".toList 'f')] [])).map
        ParseState.nonoptArgs = some ["t".toList] ∧
     (cmdLineParse id false ["prog".toList, "--f=-m".toList, "t".toList]
        ([Readable.int (cmdLineInt.new "m".toList 0 'm')] ++
          [Readable.flag (cmdLineReadable.new "f".toList 'f')]) []).map
        ParseState.nonoptArgs = some []) ∧
    (((cmdLineParse id true ["prog".toList, "-k2".toList, "a".toList, "b".toList] [] []).bind
      (fun s1 => cmdLineParse id false s1.strippedArgs
        [Readable.ints (cmdLineInts.new "k".toList 'k')] [])).map
        ParseState.nonoptArgs = some ["a".toList, "b".toList] ∧
     (cmdLineParse id false ["prog".toList, "-k2".toList, "a".toList, "b".toList]
        ([] ++ [Readable.ints (cmdLineInts.new "k".toList 'k')]) []).map
        ParseState.nonoptArgs = some []) ∧
    (((cmdLineParse id true ["prog".toList, "--k".toList, "3".toList, "a".toList,
        "-bc".toList] [] []).bind
      (fun s1 => cmdLineParse id false s1.strippedArgs
        [Readable.ints (cmdLineInts.new "k".toList 'k')] [])).map
        ParseState.nonoptArgs = some [] ∧
     (cmdLineParse id false ["prog".toList, "--k".toList, "3".toList, "a".toList,
        "-bc".toList]
        ([] ++ [Readable.ints (cmdLineInts.new "k".toList 'k')]) []).map
        ParseState.nonoptArgs = some ["a".toList]) ∧
    (((cmdLineParse id true ["prog".toList, "-x-".toList, "5".toList] [] []).bind
      (fun s1 => cmdLineParse id false s1.strippedArgs
        [Readable.int (cmdLineInt.new "q".toList 0 '-')] [])).map
        ParseState.nonoptArgs = some ["5".toList] ∧
     (cmdLineParse id false ["prog".toList, "-x-".toList, "5".toList]
        ([] ++ [Readable.int (cmdLineInt.new "q".toList 0 '-')]) []).map
        ParseState.nonoptArgs = some []) := by
  decide

/-- C3, amended: when the single collecting pass of `V` with `R` followed by
`R'` is aligned with the stripping pass (`Aligned`: wherever it matches an
option of `R'` that `R` does not match, a flag is not written `--f=text`, a
value-taking option in a short cluster ends the cluster, and the following
tokens the option asks for are tokens the stripping pass with `R` hands on
unchanged; and a `-` inside a cluster that `R` does not match is matched by
nothing in `R'`), the stripping pass of `V` with `R`, the collecting pass of
its stripped output with `R'` and the single pass all end normally, the
two-pass run yields the same non-option argument sequence as the single
pass, and the descriptors end the same. -/
theorem strip_then_collect (reset : cmdLineIntSequence → cmdLineIntSequence)
    (R R' : List Readable) (path : CStr) (rest : List CStr) (nonopt0 nonoptArgs : List CStr)
    (h : Aligned reset R R' rest) :
    ∃ s1 s2 s3,
      cmdLineParse reset true (path :: rest) R nonopt0 = some s1 ∧
      cmdLineParse reset false s1.strippedArgs R' nonoptArgs = some s2 ∧
      cmdLineParse reset false (path :: rest) (R ++ R') nonoptArgs = some s3 ∧
      s2.nonoptArgs = s3.nonoptArgs ∧ s3.params = s1.params ++ s2.params := by
  obtain ⟨E, C, Rt1, Rx1, r1, r2, r3⟩ := aligned_three reset (scanFuel rest) rest R R' h
  refine ⟨⟨Rt1, nonopt0, path :: E⟩, ⟨Rx1, nonoptArgs ++ C, []⟩,
    ⟨Rt1 ++ Rx1, nonoptArgs ++ C, []⟩, ?_, ?_, ?_, rfl, rfl⟩
  · simpa [cmdLineParse] using r1 nonopt0 [path]
  · simpa [cmdLineParse] using r3 nonoptArgs []
  · simpa [cmdLineParse] using r2 nonoptArgs []

/-- Instance of the amended C3: the flag `x` and the Int option `m` in `R`;
the Int option `n`, the counted sequence `k` and the flag `v` in `R'`, whose
values are plain tokens, the negative number `-5` and the unknown `--zz`. -/
theorem strip_then_collect_witness :
    ∃ s1 s2 s3,
      cmdLineParse id true
        ["prog".toList, "--n".toList, "5".toList, "-x".toList, "p".toList, "-vn".toList,
         "-5".toList, "--k=2".toList, "a".toList, "--zz".toList, "--m".toList, "-v".toList,
         "q".toList]
        [Readable.flag (cmdLineReadable.new "x".toList 'x'),
         Readable.int (cmdLineInt.new "m".toList 0 'm')] [] = some s1 ∧
      cmdLineParse id false s1.strippedArgs
        [Readable.int (cmdLineInt.new "n".toList 0 'n'),
         Readable.strings (cmdLineStrings.new "k".toList 'k'),
         Readable.flag (cmdLineReadable.new "v".toList 'v')] [] = some s2 ∧
      cmdLineParse id false
        ["prog".toList, "--n".toList, "5".toList, "-x".toList, "p".toList, "-vn".toList,
         "-5".toList, "--k=2".toList, "a".toList, "--zz".toList, "--m".toList, "-v".toList,
         "q".toList]
        ([Readable.flag (cmdLineReadable.new "x".toList 'x'),
          Readable.int (cmdLineInt.new "m".toList 0 'm')] ++
         [Readable.int (cmdLineInt.new "n".toList 0 'n'),
          Readable.strings (cmdLineStrings.new "k".toList 'k'),
          Readable.flag (cmdLineReadable.new "v".toList 'v')]) [] = some s3 ∧
      s2.nonoptArgs = s3.nonoptArgs ∧ s3.params = s1.params ++ s2.params :=
  strip_then_collect id
    [Readable.flag (cmdLineReadable.new "x".toList 'x'),
     Readable.int (cmdLineInt.new "m".toList 0 'm')]
    [Readable.int (cmdLineInt.new "n".toList 0 'n'),
     Readable.strings (cmdLineStrings.new "k".toList 'k'),
     Readable.flag (cmdLineReadable.new "v".toList 'v')] "prog".toList
    ["--n".toList, "5".toList, "-x".toList, "p".toList, "-vn".toList, "-5".toList,
     "--k=2".toList, "a".toList, "--zz".toList, "--m".toList, "-v".toList, "q".toList] [] []
    (by decide)

end CmdLineParser
